import Mathlib

/-!
Verification development for the embedded document database engine.

The definitions below are shallow embeddings of the C++ sources:
machine integers become `Nat`/`Int` with explicit modular arithmetic
where overflow matters, buffers become `List Nat` of byte values,
stateful components become explicit state records, and fallible code
returns `Option`/`Except`.  Each definition mirrors one source
function, named after it.
-/

set_option maxHeartbeats 1000000
set_option maxRecDepth 100000

namespace DB

/-- Sentinel invalid page id (`INVALID_PAGE_ID = -1` in common.h).  Page
identifiers are signed 32-bit in the source (`page_id_t = int32_t`), modelled
as `Int`. -/
def INVALID_PAGE_ID : Int := -1

/-- A record identifier: `(page_id, slot_id)` (struct `RecordID`). -/
structure RecordID where
  page_id : Int
  slot_id : Nat
  deriving DecidableEq, Repr

/-- Sentinel invalid record id (`INVALID_RECORD_ID = {INVALID_PAGE_ID, 0}`). -/
def INVALID_RECORD_ID : RecordID := ⟨INVALID_PAGE_ID, 0⟩
namespace FreeSpaceMap

/-! ## Free-space map (src/storage_engine/page/free_space_map.cpp) -/


/-- The 16-byte quantization constant (`FreeSpaceMap::GRANULARITY`). -/
def GRANULARITY : Nat := 16

/-- Model of `FreeSpaceMap::BytesToCategory`: `min (free_bytes / 16) 255`
(integer division, clamped into one byte). -/
def bytesToCategory (freeBytes : Nat) : Nat :=
  min (freeBytes / GRANULARITY) 255

/-- Qualifying condition the scan in `FindPageWithSpace` tests on an FSM byte
`b` for a request of `needed` bytes: `b >= needed_cat && b > 0`. -/
def qualifies (needed b : Nat) : Prop :=
  bytesToCategory needed ≤ b ∧ 0 < b

instance (needed b : Nat) : Decidable (qualifies needed b) := by
  unfold qualifies; infer_instance

/-- Loop body of `FreeSpaceMap::FindPageWithSpace`: scan the byte entries of
the first FSM page from index `i` upward, returning the first qualifying
index as a page id, else `INVALID_PAGE_ID`. -/
def findLoop (cat : Nat) : List Nat → Nat → Int
  | [], _ => INVALID_PAGE_ID
  | b :: rest, i => if cat ≤ b ∧ 0 < b then (i : Int) else findLoop cat rest (i + 1)

/-- Model of `FreeSpaceMap::FindPageWithSpace`.  `entries` is the byte content
of the first FSM page (entry `i` is the free-space category of heap page `i`,
and the list length plays the role of `entries_per_page_`). -/
def findPageWithSpace (entries : List Nat) (neededBytes : Nat) : Int :=
  findLoop (bytesToCategory neededBytes) entries 0

/-- Rendering of the specification sentence for `find_page_with_space`
(category threshold `ceil(n/16)`, no clamp), used only to compare the claim
against the implementation.  Modelled from the spec: "the first byte whose
category ≥ `ceil(n/16)` and is greater than zero identifies the page". -/
def findPageWithSpaceSpec (entries : List Nat) (neededBytes : Nat) : Int :=
  findLoop ((neededBytes + GRANULARITY - 1) / GRANULARITY) entries 0
end FreeSpaceMap

/-! ## Slotted page (src/storage_engine/page/slotted_page.cpp)

A page is a 4096-byte buffer whose first 8 bytes are the header
`num_slots | free_space_begin | free_space_end | reserved` (all `uint16_t`),
followed by the slot directory (`SlotEntry = offset | length`, 4 bytes each).
We model the header fields and the directory structurally (`num_slots` is the
directory length) and keep the raw byte buffer as `payload` for the record
area; all fields hold `uint16_t` values.  The space check
`free_space_end - free_space_begin < space_needed` promotes to `int` in C++,
so it is modelled on `Int` without wraparound. -/

/-- Page size constant: 4096 bytes throughout. -/
def PAGE_SIZE : Nat := 4096

/-- Size of the page header (`sizeof(PageHeader) = 8`). -/
def HEADER_SIZE : Nat := 8

/-- Size of one slot directory entry (`sizeof(SlotEntry) = 4`). -/
def SLOT_ENTRY_SIZE : Nat := 4

/-- One slot directory entry: `offset (u16) | length (u16)`; `length = 0`
marks a tombstone. -/
structure SlotEntry where
  offset : Nat
  length : Nat
  deriving DecidableEq, Repr

/-- Structural view of a slotted page: header fields plus slot directory plus
the raw page bytes used for record payloads.  `num_slots` of the C++ header is
`slots.length`. -/
structure SlottedPage where
  free_space_begin : Nat
  free_space_end : Nat
  reserved : Nat
  slots : List SlotEntry
  payload : List Nat
  deriving DecidableEq, Repr

/-- Model of `memcpy(buf + off, src, src.length)` on a byte buffer. -/
def writeBytes (buf : List Nat) (off : Nat) (src : List Nat) : List Nat :=
  buf.take off ++ src ++ buf.drop (off + src.length)
namespace SlottedPage

/-- Model of `SlottedPage::Init`: zero the page and write the empty header
(`free_space_begin = 8`, `free_space_end = page_size`). -/
def init (page_size : Nat := PAGE_SIZE) : SlottedPage :=
  { free_space_begin := HEADER_SIZE
    free_space_end := page_size
    reserved := 0
    slots := []
    payload := List.replicate page_size 0 }

/-- The tombstone scan at the start of `SlottedPage::InsertRecord`: index of
the first slot with `length == 0`, if any. -/
def findTombstone (slots : List SlotEntry) : Option Nat :=
  slots.findIdx? (fun s => s.length == 0)

/-- Model of `SlottedPage::InsertRecord`.  Returns the updated page and the
slot index, or the unchanged page and `-1` when there is not enough space
(mirroring the `int16_t` return convention).  `record_len` bytes of `record`
are copied to the new `free_space_end`. -/
def insertRecord (p : SlottedPage) (record : List Nat) (record_len : Nat) :
    SlottedPage × Int :=
  let target := findTombstone p.slots
  let space_needed := match target with
    | some _ => record_len
    | none => record_len + SLOT_ENTRY_SIZE
  if (p.free_space_end : Int) - (p.free_space_begin : Int) < (space_needed : Int) then
    (p, -1)
  else
    let newEnd := p.free_space_end - record_len
    let payload' := writeBytes p.payload newEnd (record.take record_len)
    match target with
    | some i =>
        ({ p with free_space_end := newEnd, payload := payload',
                  slots := p.slots.set i ⟨newEnd, record_len⟩ }, (i : Int))
    | none =>
        ({ p with free_space_end := newEnd, payload := payload',
                  free_space_begin := p.free_space_begin + SLOT_ENTRY_SIZE,
                  slots := p.slots ++ [⟨newEnd, record_len⟩] }, (p.slots.length : Int))

/-- Model of `SlottedPage::DeleteRecord`: mark the slot as tombstone
(`length = 0`, `offset = 0`); no compaction, header untouched.  Returns the
updated page and the `bool` result. -/
def deleteRecord (p : SlottedPage) (slot_id : Nat) : SlottedPage × Bool :=
  if slot_id < p.slots.length then
    if (p.slots.getD slot_id ⟨0, 0⟩).length = 0 then
      (p, false)
    else
      ({ p with slots := p.slots.set slot_id ⟨0, 0⟩ }, true)
  else
    (p, false)

/-- Model of `SlottedPage::GetRecord`: the record bytes for an occupied slot,
`none` for an out-of-range slot or a tombstone. -/
def getRecord (p : SlottedPage) (slot_id : Nat) : Option (List Nat) :=
  if slot_id < p.slots.length then
    let s := p.slots.getD slot_id ⟨0, 0⟩
    if s.length = 0 then none
    else some ((p.payload.drop s.offset).take s.length)
  else none

/-- Model of `SlottedPage::UpdateRecord`: in-place overwrite when
`record_len <= slot.length` (shortening the slot), otherwise fail. -/
def updateRecord (p : SlottedPage) (slot_id : Nat) (record : List Nat)
    (record_len : Nat) : SlottedPage × Bool :=
  if slot_id < p.slots.length then
    let s := p.slots.getD slot_id ⟨0, 0⟩
    if s.length = 0 then (p, false)
    else if record_len ≤ s.length then
      ({ p with payload := writeBytes p.payload s.offset (record.take record_len),
                slots := p.slots.set slot_id ⟨s.offset, record_len⟩ }, true)
    else (p, false)
  else (p, false)

/-- Model of `SlottedPage::GetFreeSpace`:
`free_space_end ≤ free_space_begin → 0`, else the difference. -/
def getFreeSpace (p : SlottedPage) : Nat :=
  if p.free_space_end ≤ p.free_space_begin then 0
  else p.free_space_end - p.free_space_begin

/-- Model of `SlottedPage::GetNumSlots`. -/
def getNumSlots (p : SlottedPage) : Nat := p.slots.length

/-- Model of `SlottedPage::IsSlotOccupied`. -/
def isSlotOccupied (p : SlottedPage) (slot_id : Nat) : Bool :=
  if slot_id < p.slots.length then
    (p.slots.getD slot_id ⟨0, 0⟩).length > 0
  else false
end SlottedPage

/-! ## BSON documents and the serializer
(src/storage_engine/common/bson_types.h,
 src/storage_engine/serializer/serializer.cpp)

A `BsonDocument` holds a `std::map<std::string, BsonValue>`: an ordered
mapping with keys sorted by lexicographic byte comparison and no duplicates.
We model strings as byte lists (`List Nat` of values `< 256`), a `double` by
its 8-byte in-memory representation (`Serialize`/`Deserialize` move doubles
with `memcpy`, so the byte view is exact), and the 32/64-bit integers by
their raw `Nat` representation.  The element list of a document is the
mutual inductive `BsonElems`; `addElem` models `std::map::operator[]`
assignment (ordered insert with overwrite). -/

/-- Type tag bytes of enum `BsonType`. -/
def TYPE_DOUBLE : Nat := 0x01

/-- String type tag (`BsonType::STRING`). -/
def TYPE_STRING : Nat := 0x02

/-- Nested document type tag (`BsonType::DOCUMENT`). -/
def TYPE_DOCUMENT : Nat := 0x03

/-- Boolean type tag (`BsonType::BOOLEAN`). -/
def TYPE_BOOLEAN : Nat := 0x08

/-- Int32 type tag (`BsonType::INT32`). -/
def TYPE_INT32 : Nat := 0x10

/-- Int64 type tag (`BsonType::INT64`). -/
def TYPE_INT64 : Nat := 0x12

mutual

/-- The variant `BsonValue` of bson_types.h. -/
inductive BsonValue where
  | vdouble (bytes : List Nat)
  | vstring (s : List Nat)
  | vdoc (d : BsonElems)
  | vbool (b : Bool)
  | vint32 (n : Nat)
  | vint64 (n : Nat)
  | vnull
  deriving DecidableEq

/-- The (ordered) element list of a `BsonDocument`. -/
inductive BsonElems where
  | nil
  | cons (key : List Nat) (v : BsonValue) (rest : BsonElems)
  deriving DecidableEq

end

/-- Lexicographic byte comparison of keys: `std::string::operator<`
(`char_traits<char>` compares as unsigned bytes). -/
def keyLt : List Nat → List Nat → Bool
  | [], [] => false
  | [], _ :: _ => true
  | _ :: _, [] => false
  | a :: as, b :: bs =>
    if a < b then true else if b < a then false else keyLt as bs

/-- The keys of an element list, in order. -/
def keysOf : BsonElems → List (List Nat)
  | .nil => []
  | .cons k _ rest => k :: keysOf rest

/-- Model of `BsonDocument::Add` (`elements[key] = value`): ordered insert
into the sorted element list, overwriting an existing equal key. -/
def addElem : BsonElems → List Nat → BsonValue → BsonElems
  | .nil, k, v => .cons k v .nil
  | .cons k' v' rest, k, v =>
    if keyLt k k' then .cons k v (.cons k' v' rest)
    else if keyLt k' k then .cons k' v' (addElem rest k v)
    else .cons k v rest

/-- Concatenation of element lists. -/
def appendElems : BsonElems → BsonElems → BsonElems
  | .nil, es => es
  | .cons k v rest, es => .cons k v (appendElems rest es)
namespace BsonSerializer

/-- Little-endian byte image of the low `k` bytes of `n` (the layout `memcpy`
produces for an unsigned/two's-complement value on the host). -/
def leBytes : Nat → Nat → List Nat
  | 0, _ => []
  | k + 1, n => n % 256 :: leBytes k (n / 256)

/-- The value a little-endian `memcpy` read reconstructs from a byte list. -/
def leVal : List Nat → Nat
  | [] => 0
  | b :: rest => b + 256 * leVal rest

/-- Model of `BsonSerializer::AppendCString`: the bytes plus a 0 terminator. -/
def appendCString (s : List Nat) : List Nat := s ++ [0]

/-- Completed document image: 4-byte total size (patched in at the end of
`Serialize`), the fields, and the trailing 0 byte.  The total size is
`4 + body + 1` bytes, stored as a little-endian `int32_t`. -/
def wrapBody (body : List Nat) : List Nat :=
  leBytes 4 (body.length + 5) ++ (body ++ [0])

mutual

/-- Byte image of one `type|key|value` field as `BsonSerializer::Serialize`
emits it.  A `nullptr_t` value matches none of the `holds_alternative`
branches, so nothing is emitted for it. -/
def serializeField (k : List Nat) : BsonValue → List Nat
  | .vdouble b => TYPE_DOUBLE :: (appendCString k ++ b)
  | .vstring s =>
      TYPE_STRING :: (appendCString k ++ (leBytes 4 (s.length + 1) ++ (s ++ [0])))
  | .vdoc d => TYPE_DOCUMENT :: (appendCString k ++ wrapBody (serializeElems d))
  | .vbool b => TYPE_BOOLEAN :: (appendCString k ++ [if b then 1 else 0])
  | .vint32 n => TYPE_INT32 :: (appendCString k ++ leBytes 4 n)
  | .vint64 n => TYPE_INT64 :: (appendCString k ++ leBytes 8 n)
  | .vnull => []

/-- Byte image of all fields of an element list, in map (key) order. -/
def serializeElems : BsonElems → List Nat
  | .nil => []
  | .cons k v rest => serializeField k v ++ serializeElems rest

end

/-- Model of `BsonSerializer::Serialize` on a document's element list. -/
def serialize (d : BsonElems) : List Nat := wrapBody (serializeElems d)

/-- Conversion of an `int32_t` bit pattern (as a `Nat < 2^32`) to the
`size_t` it becomes in a comparison against or assignment to a `size_t`
(sign extension of negative values). -/
def int32ToSizeT (n : Nat) : Nat :=
  if n < 2 ^ 31 then n else 2 ^ 64 - 2 ^ 32 + n

/-- Bounds-checked little-endian read of `k` bytes at `off` (a `memcpy`
reaching beyond the buffer is undefined behaviour, modelled as `none`). -/
def readLE? (data : List Nat) (off : Nat) : Nat → Option Nat
  | 0 => some 0
  | k + 1 => do
    let b ← data[off]?
    let r ← readLE? data (off + 1) k
    pure (b + 256 * r)

/-- Bounds-checked raw read of `k` bytes at `off`. -/
def readBytes? (data : List Nat) (off k : Nat) : Option (List Nat) :=
  if off + k ≤ data.length then some ((data.drop off).take k) else none

/-- The bytes `strlen`-style scanning reads from the head of `l` up to the
first 0; `none` when no 0 byte is present (`strlen` runs off the buffer). -/
def cStr : List Nat → Option (List Nat)
  | [] => none
  | b :: rest => if b = 0 then some [] else (cStr rest).map (b :: ·)

/-- Model of `BsonSerializer::ReadCString`: the key bytes and the advanced
offset (`offset += len + 1`). -/
def readCString? (data : List Nat) (off : Nat) : Option (List Nat × Nat) :=
  (cStr (data.drop off)).map (fun s => (s, off + s.length + 1))

/-- Model of `BsonSerializer::ReadString`: a 4-byte length (which counts the
terminating 0), then `len - 1` content bytes; the offset advances by
`4 + len`.  A zero or negative `int32_t` length makes
`std::string(ptr, len - 1)` read a huge number of bytes — undefined
behaviour, modelled as `none`. -/
def readString? (data : List Nat) (off : Nat) : Option (List Nat × Nat) := do
  let len ← readLE? data off 4
  if len = 0 ∨ 2 ^ 31 ≤ len then none
  else if off + 4 + (len - 1) ≤ data.length then
    some ((data.drop (off + 4)).take (len - 1), off + 4 + len)
  else none

mutual

/-- The field loop of `BsonSerializer::Deserialize` (`while (offset <
(size_t)doc_size - 1)`), with `stop` the loop bound, `acc` the document
built so far via `doc.Add`, and a fuel argument for termination (the C++
loop always advances `offset`). -/
def parseFields : Nat → List Nat → Nat → Nat → BsonElems → Option BsonElems
  | 0, _, _, _, _ => none
  | fuel + 1, data, stop, off, acc =>
    if off < stop then
      match data[off]? with
      | none => none
      | some tb =>
        if tb = 0 then some acc
        else
          match readCString? data (off + 1) with
          | none => none
          | some (key, off1) =>
            if tb = TYPE_INT32 then
              match readLE? data off1 4 with
              | none => none
              | some v => parseFields fuel data stop (off1 + 4) (addElem acc key (.vint32 v))
            else if tb = TYPE_INT64 then
              match readLE? data off1 8 with
              | none => none
              | some v => parseFields fuel data stop (off1 + 8) (addElem acc key (.vint64 v))
            else if tb = TYPE_DOUBLE then
              match readBytes? data off1 8 with
              | none => none
              | some b => parseFields fuel data stop (off1 + 8) (addElem acc key (.vdouble b))
            else if tb = TYPE_STRING then
              match readString? data off1 with
              | none => none
              | some (s, off2) => parseFields fuel data stop off2 (addElem acc key (.vstring s))
            else if tb = TYPE_BOOLEAN then
              match data[off1]? with
              | none => none
              | some b => parseFields fuel data stop (off1 + 1) (addElem acc key (.vbool (b == 1)))
            else if tb = TYPE_DOCUMENT then
              match readLE? data off1 4 with
              | none => none
              | some subLen =>
                match deserializeAux fuel (data.drop off1) (int32ToSizeT subLen) with
                | none => none
                | some sub =>
                  parseFields fuel data stop (off1 + int32ToSizeT subLen) (addElem acc key (.vdoc sub))
            else none
    else some acc

/-- Model of `BsonSerializer::Deserialize(data, size)`: read the 4-byte
document size, fail (`throw`) when it exceeds `size`, then run the field
loop from offset 4 up to `(size_t)doc_size - 1` (`size_t` arithmetic, so a
zero size wraps around). -/
def deserializeAux : Nat → List Nat → Nat → Option BsonElems
  | 0, _, _ => none
  | fuel + 1, data, size =>
    match readLE? data 0 4 with
    | none => none
    | some ds =>
      let dsz := int32ToSizeT ds
      if dsz > size then none
      else parseFields fuel data ((dsz + (2 ^ 64 - 1)) % 2 ^ 64) 4 .nil

end

/-- Model of `BsonSerializer::Deserialize(std::vector)`: the whole buffer is
both the accessible memory and the size.  The fuel `data.length + 1`
dominates the C++ loop, which advances at least one byte per iteration. -/
def deserialize (data : List Nat) : Option BsonElems :=
  deserializeAux (data.length + 1) data data.length
end BsonSerializer

/-! Well-formedness of a document tree as `std::map`-backed documents built
from the supported value types provide it: keys are NUL-free byte strings in
strictly ascending order, doubles carry exactly 8 bytes, the integers fit
their width, every nested document again satisfies this and serializes below
the `int32_t` bound, and no value is null (the serializer has no branch for
`nullptr_t`). -/

mutual

/-- Well-formedness of one value (see section comment). -/
def wfValue : BsonValue → Bool
  | .vdouble b => b.length == 8 && b.all (· < 256)
  | .vstring s => s.all (· < 256) && decide (s.length + 1 < 2 ^ 31)
  | .vdoc d => wfElems d && decide ((BsonSerializer.serializeElems d).length + 5 < 2 ^ 31)
  | .vbool _ => true
  | .vint32 n => decide (n < 2 ^ 32)
  | .vint64 n => decide (n < 2 ^ 64)
  | .vnull => false

/-- Well-formedness of an element list (see section comment). -/
def wfElems : BsonElems → Bool
  | .nil => true
  | .cons k v rest =>
    k.all (fun b => decide (b ≠ 0) && decide (b < 256)) && wfValue v &&
      (keysOf rest).all (fun k2 => keyLt k k2) && wfElems rest

end

open BsonSerializer

mutual

/-- Fuel consumed by the parser on the serialized image of one value. -/
def valueFuel : BsonValue → Nat
  | .vdoc d => 1 + elemsFuel d
  | _ => 0

/-- Fuel consumed by the field loop on the serialized image of an element
list. -/
def elemsFuel : BsonElems → Nat
  | .nil => 1
  | .cons _ v rest => 1 + valueFuel v + elemsFuel rest

end

/-- Round-trip property of the field loop for one element list. -/
def RoundElems (es : BsonElems) : Prop :=
  ∀ (acc : BsonElems) (data post : List Nat) (off fuel : Nat),
    wfElems es = true →
    elemsFuel es ≤ fuel →
    data.drop off = serializeElems es ++ post →
    (∀ ka ∈ keysOf acc, ∀ kb ∈ keysOf es, keyLt ka kb = true) →
    parseFields fuel data (off + (serializeElems es).length) off acc
      = some (appendElems acc es)

/-- Round-trip property of `Deserialize` on one serialized document followed
by arbitrary accessible bytes. -/
def RoundDoc (d : BsonElems) : Prop :=
  ∀ (post : List Nat) (fuel : Nat),
    wfElems d = true →
    (serializeElems d).length + 5 < 2 ^ 31 →
    1 + elemsFuel d ≤ fuel →
    deserializeAux fuel (serialize d ++ post) (serialize d).length = some d

/-- Concrete document exercising all six serializable value types: a double
(8-byte image), a string, a nested document, a boolean and both integer
widths, with strictly ascending NUL-free keys. -/
def c1SampleDoc : BsonElems :=
  .cons [97] (.vdouble [154, 153, 153, 153, 153, 217, 87, 64])
    (.cons [98] (.vstring [65, 108, 105, 99, 101])
      (.cons [99] (.vdoc (.cons [120] (.vint32 7) .nil))
        (.cons [100] (.vbool true)
          (.cons [101] (.vint32 30)
            (.cons [102] (.vint64 1099511627776) .nil)))))

/-! ## Heap file (src/data_organisation/heap_file/heap_file.cpp)

The heap file works through the buffer pool, the FSM and the slotted-page
functions.  The state collects what those components persist: the page
store (disk plus buffer-pool contents, as an association list), the byte
content of the first FSM page, and the disk manager's `next_page_id`.  A
page never written reads back as zeroes (`DiskManager::ReadPage` zero-fills
beyond EOF), which as a slotted page means `num_slots = free_begin =
free_end = 0`. -/

/-- Combined storage state seen by a heap file. -/
structure HeapState where
  pages : List (Int × SlottedPage)
  fsm : List Nat
  nextPageId : Int
  first_page_id : Int
  max_page_id : Int
  deriving DecidableEq, Repr

/-- The all-zero page a read beyond EOF produces, viewed as a slotted page. -/
def zeroPage : SlottedPage :=
  { free_space_begin := 0
    free_space_end := 0
    reserved := 0
    slots := []
    payload := List.replicate PAGE_SIZE 0 }

/-- Store a page under its id, replacing an existing binding. -/
def setPages (ps : List (Int × SlottedPage)) (pid : Int) (pg : SlottedPage) :
    List (Int × SlottedPage) :=
  match ps with
  | [] => [(pid, pg)]
  | (q, e) :: rest => if q = pid then (q, pg) :: rest else (q, e) :: setPages rest pid pg

/-- Model of `BufferPoolManager::FetchPage` followed by reading the frame:
the stored page, or the zero page for ids never written. -/
def fetchPage (st : HeapState) (pid : Int) : SlottedPage :=
  match st.pages.lookup pid with
  | some pg => pg
  | none => zeroPage

/-- Write a page back (the slotted-page functions mutate the pooled frame in
place; the unpin-dirty makes it durable). -/
def setPage (st : HeapState) (pid : Int) (pg : SlottedPage) : HeapState :=
  { st with pages := setPages st.pages pid pg }

/-- Model of `FreeSpaceMap::UpdateFreeSpace` (and `RegisterNewPage`) on the
first FSM page: `GetFSMLocation` maps heap page `i` to byte `i` of that page;
writes addressed to other FSM pages leave the modelled page untouched. -/
def fsmUpdateFreeSpace (fsm : List Nat) (pid : Int) (freeBytes : Nat) : List Nat :=
  if 0 ≤ pid ∧ pid < (fsm.length : Int) then
    fsm.set pid.toNat (FreeSpaceMap.bytesToCategory freeBytes)
  else fsm

/-- Model of `HeapFile::AllocateNewPage`: `NewPage` hands out `next_page_id`,
the page is initialized as a slotted page, registered with the FSM with its
free space, and `max_page_id_` is raised. -/
def allocateNewPage (st : HeapState) : HeapState × Int :=
  let pid := st.nextPageId
  let pg := SlottedPage.init PAGE_SIZE
  let fs := SlottedPage.getFreeSpace pg
  ({ st with
      pages := setPages st.pages pid pg
      nextPageId := st.nextPageId + 1
      fsm := fsmUpdateFreeSpace st.fsm pid fs
      max_page_id := if pid > st.max_page_id then pid else st.max_page_id }, pid)

/-- Model of `HeapFile::InsertRecord`: serialize, ask the FSM for
`record_len + sizeof(SlotEntry)` bytes, fetch or allocate the target page,
try the slotted insert; on `-1` allocate a new page and retry exactly once,
failing with the record-too-large error if that also returns `-1`; after
success update the FSM with the page's remaining free space.  The
`uint16_t` casts of the C++ (`record_len`, `total_needed`) are the
`% 2 ^ 16` reductions.  `heapInsertFinish` is the shared tail after a
successful slotted insert: write the page back and update the FSM with the
remaining free space (`GetFreeSpace` then `UpdateFreeSpace`). -/
def heapInsertFinish (st : HeapState) (target : Int) (pg : SlottedPage) : HeapState :=
  let st2 := setPage st target pg
  { st2 with fsm := fsmUpdateFreeSpace st2.fsm target (SlottedPage.getFreeSpace pg) }

def heapInsertRecord (st : HeapState) (doc : BsonElems) :
    Except String (HeapState × RecordID) :=
  let data := BsonSerializer.serialize doc
  let record_len := data.length % 2 ^ 16
  let total_needed := (record_len + SLOT_ENTRY_SIZE) % 2 ^ 16
  let t := FreeSpaceMap.findPageWithSpace st.fsm total_needed
  let alloc := if t = INVALID_PAGE_ID then allocateNewPage st else (st, t)
  let ins := SlottedPage.insertRecord (fetchPage alloc.1 alloc.2) data record_len
  if ins.2 = -1 then
    let alloc2 := allocateNewPage alloc.1
    let ins2 := SlottedPage.insertRecord (fetchPage alloc2.1 alloc2.2) data record_len
    if ins2.2 = -1 then
      .error "HeapFile: Record too large for a single page"
    else
      .ok (heapInsertFinish alloc2.1 alloc2.2 ins2.1, ⟨alloc2.2, ins2.2.toNat⟩)
  else
    .ok (heapInsertFinish alloc.1 alloc.2 ins.1, ⟨alloc.2, ins.2.toNat⟩)

/-- Model of `HeapFile::DeleteRecord`: fetch, slotted delete; on success
update the FSM with the page's remaining free space.  On failure the page and
the state are untouched. -/
def heapDeleteRecord (st : HeapState) (rid : RecordID) : HeapState × Bool :=
  let page := fetchPage st rid.page_id
  let del := SlottedPage.deleteRecord page rid.slot_id
  if del.2 then
    let st1 := setPage st rid.page_id del.1
    let remaining := SlottedPage.getFreeSpace del.1
    ({ st1 with fsm := fsmUpdateFreeSpace st1.fsm rid.page_id remaining }, true)
  else (st, false)

/-- Model of `HeapFile::UpdateRecord`: try the in-place slotted update; if it
fails, delete the old record (ignoring the result) and insert the document as
a new record, returning the new record id. -/
def heapUpdateRecord (st : HeapState) (rid : RecordID) (doc : BsonElems) :
    Except String (HeapState × RecordID) :=
  let data := BsonSerializer.serialize doc
  let record_len := data.length % 2 ^ 16
  let page := fetchPage st rid.page_id
  let upd := SlottedPage.updateRecord page rid.slot_id data record_len
  if upd.2 then
    .ok (setPage st rid.page_id upd.1, rid)
  else
    let st1 := (heapDeleteRecord st rid).1
    heapInsertRecord st1 doc

/-- A record id that names a missing record: an out-of-range slot or a
tombstoned slot on its page. -/
def ridMissing (st : HeapState) (rid : RecordID) : Prop :=
  (fetchPage st rid.page_id).slots.length ≤ rid.slot_id ∨
    ((fetchPage st rid.page_id).slots.getD rid.slot_id ⟨0, 0⟩).length = 0

instance (st : HeapState) (rid : RecordID) : Decidable (ridMissing st rid) := by
  unfold ridMissing; infer_instance

/-- Input heap for the C2 counterexample: an empty database whose next page
id is 2; record id (1, 0) points at a page that reads back as zeroes, hence
a missing record. -/
def c2State : HeapState :=
  { pages := []
    fsm := List.replicate 8 0
    nextPageId := 2
    first_page_id := 1
    max_page_id := 1 }

/-- The record id of a missing record in `c2State`. -/
def c2Rid : RecordID := ⟨1, 0⟩

/-- The update payload for the C2 counterexample. -/
def c2Doc : BsonElems := .cons [97] (.vint32 1) .nil

/-! ## Write-ahead log records (src/recovery/wal.cpp, wal.h)

A `LogRecord` is serialized as `total_size (u32) | lsn (i64) | txn_id (i64)
| prev_lsn (i64) | type (u8) | page_id (i32) | slot_id (u16) |
before_len (u32) | before | after_len (u32) | after`, all host
(little-endian) byte order.  The signed 64/32-bit fields are modelled as
`Int` stored as two's complement. -/

/-- Log record type byte `LogRecordType::BEGIN`. -/
def LOG_BEGIN : Nat := 0

/-- Log record type byte `LogRecordType::COMMIT`. -/
def LOG_COMMIT : Nat := 1

/-- Log record type byte `LogRecordType::ABORT`. -/
def LOG_ABORT : Nat := 2

/-- Log record type byte `LogRecordType::INSERT`. -/
def LOG_INSERT : Nat := 3

/-- Log record type byte `LogRecordType::DELETE`. -/
def LOG_DELETE : Nat := 4

/-- Log record type byte `LogRecordType::UPDATE`. -/
def LOG_UPDATE : Nat := 5

/-- Struct `LogRecord` (wal.h).  `type` is the raw tag byte:
`Deserialize` casts any byte to the enum without validation. -/
structure LogRecord where
  lsn : Int
  txn_id : Int
  prev_lsn : Int
  type : Nat
  page_id : Int
  slot_id : Nat
  before_image : List Nat
  after_image : List Nat
  deriving DecidableEq, Repr

/-- Two's-complement bit pattern of an `int64_t` as a natural number. -/
def bitsOfInt64 (x : Int) : Nat := (x % 2 ^ 64).toNat

/-- The `int64_t` value a little-endian 8-byte `memcpy` read yields from a
bit pattern. -/
def int64OfBits (n : Nat) : Int :=
  if n < 2 ^ 63 then (n : Int) else (n : Int) - 2 ^ 64

/-- Two's-complement bit pattern of an `int32_t` as a natural number. -/
def bitsOfInt32 (x : Int) : Nat := (x % 2 ^ 32).toNat

/-- The `int32_t` value a little-endian 4-byte `memcpy` read yields from a
bit pattern. -/
def int32OfBits (n : Nat) : Int :=
  if n < 2 ^ 31 then (n : Int) else (n : Int) - 2 ^ 32

/-- Model of `LogRecord::Serialize`: the header and fixed fields occupy 43
bytes (including the 4-byte total-size prefix, patched to the full length at
the end), plus the two images. -/
def serializeLogRecord (r : LogRecord) : List Nat :=
  BsonSerializer.leBytes 4 (43 + r.before_image.length + r.after_image.length)
    ++ (BsonSerializer.leBytes 8 (bitsOfInt64 r.lsn)
    ++ (BsonSerializer.leBytes 8 (bitsOfInt64 r.txn_id)
    ++ (BsonSerializer.leBytes 8 (bitsOfInt64 r.prev_lsn)
    ++ (r.type
    :: (BsonSerializer.leBytes 4 (bitsOfInt32 r.page_id)
    ++ (BsonSerializer.leBytes 2 r.slot_id
    ++ (BsonSerializer.leBytes 4 r.before_image.length
    ++ (r.before_image
    ++ (BsonSerializer.leBytes 4 r.after_image.length
    ++ r.after_image)))))))))

/-- Decode failure kinds of `LogRecord::Deserialize`: the checked
size-field truncation (`throw`) versus an unchecked `memcpy`/`assign` read
past the buffer end (undefined behaviour in the C++). -/
inductive DecodeErr where
  | truncatedSize
  | outOfBounds
  deriving DecidableEq, Repr

/-- Model of `LogRecord::Deserialize(data, size, offset)`.  Only the 4-byte
size field is bounds-checked (`offset + 4 > size` throws); every later read
is an unchecked `memcpy`/`assign`, modelled as `outOfBounds` when it would
read past the end.  The size value itself is read and ignored: the offset
advances by the decoded field widths.  Returns the record and the new
offset. -/
def deserializeLogRecord (data : List Nat) (off : Nat) :
    Except DecodeErr (LogRecord × Nat) :=
  if off + 4 > data.length then .error .truncatedSize
  else
    match BsonSerializer.readLE? data (off + 4) 8 with
    | none => .error .outOfBounds
    | some lsnBits =>
      match BsonSerializer.readLE? data (off + 12) 8 with
      | none => .error .outOfBounds
      | some txnBits =>
        match BsonSerializer.readLE? data (off + 20) 8 with
        | none => .error .outOfBounds
        | some prevBits =>
          match data[off + 28]? with
          | none => .error .outOfBounds
          | some ty =>
            match BsonSerializer.readLE? data (off + 29) 4 with
            | none => .error .outOfBounds
            | some pageBits =>
              match BsonSerializer.readLE? data (off + 33) 2 with
              | none => .error .outOfBounds
              | some slot =>
                match BsonSerializer.readLE? data (off + 35) 4 with
                | none => .error .outOfBounds
                | some beforeLen =>
                  match BsonSerializer.readBytes? data (off + 39) beforeLen with
                  | none => .error .outOfBounds
                  | some before =>
                    match BsonSerializer.readLE? data (off + 39 + beforeLen) 4 with
                    | none => .error .outOfBounds
                    | some afterLen =>
                      match BsonSerializer.readBytes? data (off + 43 + beforeLen) afterLen with
                      | none => .error .outOfBounds
                      | some after =>
                        .ok ({ lsn := int64OfBits lsnBits
                               txn_id := int64OfBits txnBits
                               prev_lsn := int64OfBits prevBits
                               type := ty
                               page_id := int32OfBits pageBits
                               slot_id := slot
                               before_image := before
                               after_image := after },
                             off + 43 + beforeLen + afterLen)

/-- The loop of `WAL::ReadAllRecords`: decode records while `offset <
file_size`; the `catch` turns the checked truncation throw into a normal
stop.  The second component records whether an unchecked out-of-bounds read
(undefined behaviour) occurred.  The C++ loop always advances the offset;
the fuel only bounds the recursion. -/
def readAllLoop : Nat → List Nat → Nat → List LogRecord →
    List LogRecord × Bool
  | 0, _, _, acc => (acc, true)
  | fuel + 1, data, off, acc =>
    if off < data.length then
      match deserializeLogRecord data off with
      | .error .truncatedSize => (acc, false)
      | .error .outOfBounds => (acc, true)
      | .ok (r, off2) => readAllLoop fuel data off2 (acc ++ [r])
    else (acc, false)

/-- Model of `WAL::ReadAllRecords` on the byte content of the log file. -/
def readAllRecords (data : List Nat) : List LogRecord × Bool :=
  readAllLoop (data.length + 1) data 0 []

/-- Well-formed log record: the field values fit the widths the struct
declares (`int64_t`, `uint8_t` tag, `int32_t`, `uint16_t`, image bytes, and
image sizes below the `uint32_t` bound). -/
def wfLogRecord (r : LogRecord) : Bool :=
  decide (-(2 ^ 63) ≤ r.lsn) && decide (r.lsn < 2 ^ 63) &&
  decide (-(2 ^ 63) ≤ r.txn_id) && decide (r.txn_id < 2 ^ 63) &&
  decide (-(2 ^ 63) ≤ r.prev_lsn) && decide (r.prev_lsn < 2 ^ 63) &&
  decide (r.type < 256) &&
  decide (-(2 ^ 31) ≤ r.page_id) && decide (r.page_id < 2 ^ 31) &&
  decide (r.slot_id < 2 ^ 16) &&
  r.before_image.all (· < 256) && decide (r.before_image.length < 2 ^ 31) &&
  r.after_image.all (· < 256) && decide (r.after_image.length < 2 ^ 31)

/-! ## Recovery manager (src/recovery/recovery_manager.cpp)

The analysis and redo phases fold over the record list read from the WAL.
The buffer pool is abstracted as in the heap-file model: a page store in
which fetching always succeeds (missing pages read as zeroes). -/

/-- Add a transaction to the active set (`unordered_set::insert`). -/
def txnInsert (s : List Int) (t : Int) : List Int :=
  if t ∈ s then s else t :: s

/-- Remove a transaction from the active set (`unordered_set::erase`). -/
def txnErase (s : List Int) (t : Int) : List Int := s.filter (· ≠ t)

/-- Insert into the dirty-page table only if the page is not already present
(first writer wins, keeping the earliest rec-lsn of the forward sweep). -/
def dirtyInsert (dp : List (Int × Int)) (pid lsn : Int) : List (Int × Int) :=
  if (dp.lookup pid).isSome then dp else dp ++ [(pid, lsn)]

/-- One step of `RecoveryManager::AnalysisPhase`: BEGIN adds the txn to the
active set; COMMIT/ABORT removes it; INSERT/DELETE/UPDATE keeps it active
and, when the page id is valid, inserts the page into the dirty-page table
with the record's lsn (only if not already present).  Other type bytes fall
through the `switch` with no effect. -/
def analysisStep (acc : List Int × List (Int × Int)) (r : LogRecord) :
    List Int × List (Int × Int) :=
  if r.type = LOG_BEGIN then (txnInsert acc.1 r.txn_id, acc.2)
  else if r.type = LOG_COMMIT ∨ r.type = LOG_ABORT then
    (txnErase acc.1 r.txn_id, acc.2)
  else if r.type = LOG_INSERT ∨ r.type = LOG_DELETE ∨ r.type = LOG_UPDATE then
    (txnInsert acc.1 r.txn_id,
     if r.page_id ≠ INVALID_PAGE_ID then dirtyInsert acc.2 r.page_id r.lsn
     else acc.2)
  else acc

/-- Model of `RecoveryManager::AnalysisPhase`: forward sweep over the
records, producing the active-transaction set and the dirty-page table. -/
def analysisPhase (records : List LogRecord) : List Int × List (Int × Int) :=
  records.foldl analysisStep ([], [])

/-- Fetch from a bare page store (same read semantics as `fetchPage`). -/
def fetchStore (pages : List (Int × SlottedPage)) (pid : Int) : SlottedPage :=
  match pages.lookup pid with
  | some pg => pg
  | none => zeroPage

/-- One step of the `RecoveryManager::RedoPhase` loop: skip records that are
not INSERT/DELETE/UPDATE, have an invalid page id, touch a page absent from
the dirty-page table, or have `lsn < rec-lsn`; otherwise fetch the page and
re-apply — INSERT re-inserts a non-empty after-image at any slot, DELETE
deletes the slot, UPDATE rewrites the slot with a non-empty after-image
(records with an empty after-image are not counted as redone).  Returns the
updated store and whether the record was re-applied (`redo_count`). -/
def redoStep (dp : List (Int × Int)) (pages : List (Int × SlottedPage))
    (r : LogRecord) : List (Int × SlottedPage) × Bool :=
  if ¬(r.type = LOG_INSERT ∨ r.type = LOG_DELETE ∨ r.type = LOG_UPDATE) then
    (pages, false)
  else if r.page_id = INVALID_PAGE_ID then (pages, false)
  else
    match dp.lookup r.page_id with
    | none => (pages, false)
    | some rec =>
      if r.lsn < rec then (pages, false)
      else
        let pg := fetchStore pages r.page_id
        if r.type = LOG_INSERT then
          if r.after_image ≠ [] then
            (setPages pages r.page_id
              (SlottedPage.insertRecord pg r.after_image
                (r.after_image.length % 2 ^ 16)).1, true)
          else (pages, false)
        else if r.type = LOG_DELETE then
          (setPages pages r.page_id (SlottedPage.deleteRecord pg r.slot_id).1, true)
        else
          if r.after_image ≠ [] then
            (setPages pages r.page_id
              (SlottedPage.updateRecord pg r.slot_id r.after_image
                (r.after_image.length % 2 ^ 16)).1, true)
          else (pages, false)

/-- Model of `RecoveryManager::RedoPhase`: forward sweep applying `redoStep`,
collecting the records that were re-applied. -/
def redoPhase (records : List LogRecord) (dp : List (Int × Int))
    (pages : List (Int × SlottedPage)) :
    List (Int × SlottedPage) × List LogRecord :=
  records.foldl
    (fun acc r =>
      let step := redoStep dp acc.1 r
      (step.1, acc.2 ++ if step.2 then [r] else []))
    (pages, [])

/-- The condition C4 claims selects the records the redo phase re-applies:
an INSERT/DELETE/UPDATE record whose page is present in the dirty-page
table with `lsn ≥ rec-lsn`.  Modelled from the spec: "For each
INSERT/DELETE/UPDATE whose page is in the dirty table AND whose lsn ≥ that
page's rec-lsn, fetch the page and re-apply the after-image". -/
def claimedRedoPred (dp : List (Int × Int)) (r : LogRecord) : Bool :=
  (r.type == LOG_INSERT || r.type == LOG_DELETE || r.type == LOG_UPDATE) &&
  (match dp.lookup r.page_id with
   | none => false
   | some rec => decide (rec ≤ r.lsn))

/-- The record filter of the analysis phase for the DPT: a data-modifying
record touching page `p`. -/
def touchesPage (p : Int) (r : LogRecord) : Bool :=
  (r.type == LOG_INSERT || r.type == LOG_DELETE || r.type == LOG_UPDATE) &&
    (r.page_id == p)

/-- Log record list for the C4 counterexample and the C4/C9 witnesses. -/
def c4BadRecord : LogRecord :=
  { lsn := 0, txn_id := 1, prev_lsn := -1, type := LOG_INSERT,
    page_id := 5, slot_id := 0, before_image := [], after_image := [] }

/-- The WAL-replay scenario of the spec (§8, scenario 6): BEGIN, INSERT with
after-image {1,2,3} on page 5 slot 0, COMMIT, all for transaction 100. -/
def c9Records : List LogRecord :=
  [{ lsn := 0, txn_id := 100, prev_lsn := -1, type := LOG_BEGIN,
     page_id := -1, slot_id := 0, before_image := [], after_image := [] },
   { lsn := 1, txn_id := 100, prev_lsn := 0, type := LOG_INSERT,
     page_id := 5, slot_id := 0, before_image := [], after_image := [1, 2, 3] },
   { lsn := 2, txn_id := 100, prev_lsn := 1, type := LOG_COMMIT,
     page_id := -1, slot_id := 0, before_image := [], after_image := [] }]

/-! ## Lock manager (src/concurrency/lock_manager.cpp)

Per resource (`LockKey = (page_id, slot_id)`) a FIFO queue of
`LockRequest{txn_id, mode, granted}`.  Each blocking call is modelled as the
mutex-held segments it executes: appending an ungranted request, and — after
the condition-variable wait ends — marking it granted under the same guard
the code re-checks.  `unlock_all` removes the transaction's requests from
every queue its lock set names.  The step relation below generates every
state such call sequences can reach, including the states in which requests
are still waiting. -/

/-- Lock modes (enum `LockMode`). -/
inductive LockMode where
  | shared
  | exclusive
  deriving DecidableEq, Repr

/-- One queue entry (struct `LockRequest`). -/
structure LockRequest where
  txn : Int
  mode : LockMode
  granted : Bool
  deriving DecidableEq, Repr

/-- Resource key: the record id as `(page_id, slot_id)` (struct `LockKey`). -/
abbrev LockKey := Int × Nat

/-- Lock-manager state: the lock table and the per-transaction lock sets. -/
structure LMState where
  table : List (LockKey × List LockRequest)
  txnLocks : List (Int × List LockKey)
  deriving DecidableEq, Repr

/-- The queue of a resource (`lock_table_[key]`, an absent key reading as
the empty queue the `operator[]` would create). -/
def getQueue (s : LMState) (k : LockKey) : List LockRequest :=
  (s.table.lookup k).getD []

/-- Replace (or create) the queue of a resource. -/
def setAssoc {α β : Type} [DecidableEq α] (l : List (α × β)) (a : α) (b : β) :
    List (α × β) :=
  match l with
  | [] => [(a, b)]
  | (x, y) :: rest => if x = a then (x, b) :: rest else (x, y) :: setAssoc rest a b

/-- State with the queue of `k` replaced. -/
def setQueue (s : LMState) (k : LockKey) (q : List LockRequest) : LMState :=
  { s with table := setAssoc s.table k q }

/-- Record `k` in the lock set of `t` (`txn_locks_[txn].insert(key)`). -/
def addTxnLock (s : LMState) (t : Int) (k : LockKey) : LMState :=
  let ks := (s.txnLocks.lookup t).getD []
  { s with txnLocks := setAssoc s.txnLocks t (if k ∈ ks then ks else ks ++ [k]) }

/-- One iteration of the `UnlockAll` loop body for key `k`: remove every
request of `t` from the queue, dropping the table entry when the queue
empties; a key without a table entry is skipped. -/
def removeTxnFromKey (tbl : List (LockKey × List LockRequest)) (t : Int)
    (k : LockKey) : List (LockKey × List LockRequest) :=
  match tbl.lookup k with
  | none => tbl
  | some q =>
    let q2 := q.filter (fun r => r.txn ≠ t)
    if q2 = [] then tbl.filter (fun e => e.1 ≠ k) else setAssoc tbl k q2

/-- Model of `LockManager::UnlockAll`. -/
def unlockAllState (s : LMState) (t : Int) : LMState :=
  { table := ((s.txnLocks.lookup t).getD []).foldl
      (fun tbl k => removeTxnFromKey tbl t k) s.table
    txnLocks := s.txnLocks.filter (fun e => e.1 ≠ t) }

/-- The mutex-held transitions of `LockShared` / `LockExclusive` /
`LockUpgrade` / `UnlockAll` (see section comment).  The grant guards are
exactly the conditions the code re-checks when it wakes: for SHARED,
`CanGrantLock` (no granted EXCLUSIVE in the queue); for EXCLUSIVE and the
upgrade, no granted request of another transaction. -/
inductive LMStep : LMState → LMState → Prop where
  | sharedReq (t : Int) (k : LockKey) (s : LMState)
      (hnot : ∀ r ∈ getQueue s k, ¬(r.txn = t ∧ r.granted = true)) :
      LMStep s (setQueue s k (getQueue s k ++ [⟨t, .shared, false⟩]))
  | sharedGrant (t : Int) (k : LockKey) (s : LMState)
      (q1 q2 : List LockRequest)
      (hq : getQueue s k = q1 ++ ⟨t, .shared, false⟩ :: q2)
      (hgrant : ∀ r ∈ getQueue s k, r.granted = true → r.mode ≠ .exclusive) :
      LMStep s (addTxnLock (setQueue s k (q1 ++ ⟨t, .shared, true⟩ :: q2)) t k)
  | exclReq (t : Int) (k : LockKey) (s : LMState)
      (hnot : ∀ r ∈ getQueue s k,
        ¬(r.txn = t ∧ r.granted = true ∧ r.mode = .exclusive)) :
      LMStep s (setQueue s k (getQueue s k ++ [⟨t, .exclusive, false⟩]))
  | exclGrant (t : Int) (k : LockKey) (s : LMState)
      (q1 q2 : List LockRequest)
      (hq : getQueue s k = q1 ++ ⟨t, .exclusive, false⟩ :: q2)
      (hgrant : ∀ r ∈ getQueue s k, r.granted = true → r.txn = t) :
      LMStep s (addTxnLock (setQueue s k (q1 ++ ⟨t, .exclusive, true⟩ :: q2)) t k)
  | upgrade (t : Int) (k : LockKey) (s : LMState)
      (q1 q2 : List LockRequest)
      (hq : getQueue s k = q1 ++ ⟨t, .shared, true⟩ :: q2)
      (hfirst : ∀ r ∈ q1, ¬(r.txn = t ∧ r.granted = true))
      (hgrant : ∀ r ∈ getQueue s k, r.granted = true → r.txn = t) :
      LMStep s (setQueue s k (q1 ++ ⟨t, .exclusive, true⟩ :: q2))
  | unlockAll (t : Int) (s : LMState) : LMStep s (unlockAllState s t)

/-- States reachable from the initial (empty) lock manager by any call
sequence. -/
inductive LMReachable : LMState → Prop where
  | init : LMReachable ⟨[], []⟩
  | step {s s2 : LMState} : LMReachable s → LMStep s s2 → LMReachable s2

/-- Per-queue compatibility: whenever a granted EXCLUSIVE request exists,
every granted request on the queue belongs to the same transaction.  In
particular a granted SHARED and a granted EXCLUSIVE of different
transactions never coexist, and two transactions never both hold EXCLUSIVE. -/
def QueueInv (q : List LockRequest) : Prop :=
  ∀ r1 ∈ q, ∀ r2 ∈ q, r1.granted = true → r2.granted = true →
    r1.mode = .exclusive → r2.txn = r1.txn

/-- The C5 invariant over the whole lock table. -/
def LMInv (s : LMState) : Prop :=
  ∀ k q, s.table.lookup k = some q → QueueInv q

/-- A B+ tree node as decoded from a page by `ReadLeafNode` /
`ReadInternalNode` (`bptree.cpp`).  Keys are abstracted to naturals with
their total order standing in for the lexicographic byte-string order
`std::string` uses; the code only ever compares keys. -/
inductive BNode where
  | leaf (keys : List Nat) (rids : List RecordID) (next : Int)
  | internal (keys : List Nat) (children : List Int)
  deriving DecidableEq, Repr

/-- The pages reachable through the buffer pool, plus the allocator cursor
(`BufferPoolManager::NewPage` hands out fresh page ids). -/
structure BTStore where
  nodes : List (Int × BNode)
  nextPage : Int
  deriving DecidableEq, Repr

/-- `bpm_->FetchPage(p)` followed by the node decode. -/
def findNode (s : BTStore) (p : Int) : Option BNode := s.nodes.lookup p

/-- Write a node image back to its page. -/
def writeNode (s : BTStore) (p : Int) (n : BNode) : BTStore :=
  { s with nodes := setAssoc s.nodes p n }

/-- The scan `idx = 0; while (idx < keys.size() && key >= keys[idx]) idx++;`
used both to pick the child in `FindLeaf`/`InsertInternal` and — as
`std::lower_bound` followed by the skip-equals loop, which coincides with
this on the sorted key lists the tree maintains — to pick the leaf
insertion position. -/
def upperIdx (ks : List Nat) (key : Nat) : Nat :=
  (ks.takeWhile (fun x => decide (x ≤ key))).length

/-- `BPlusTree::InsertResult`. -/
structure InsertResult where
  did_split : Bool
  split_key : Nat
  new_page_id : Int
  deriving DecidableEq, Repr

/-- The tail of the internal-node branch of `InsertInternal` after the
separator and new child have been inserted into the node lists: write the
node back when it fits, otherwise split it at `mid = n/2`, pushing up
`keys[mid]`. -/
def finishInternal (mk : Nat) (s2 : BTStore) (p : Int) (ks2 : List Nat)
    (cs2 : List Int) : BTStore × InsertResult :=
  if ks2.length ≤ mk then
    (writeNode s2 p (.internal ks2 cs2), ⟨false, 0, INVALID_PAGE_ID⟩)
  else
    let mid := ks2.length / 2
    let push := ks2.getD mid 0
    let nid := s2.nextPage
    let s3 : BTStore := { s2 with nextPage := s2.nextPage + 1 }
    let s4 := writeNode s3 nid (.internal (ks2.drop (mid + 1)) (cs2.drop (mid + 1)))
    let s5 := writeNode s4 p (.internal (ks2.take mid) (cs2.take (mid + 1)))
    (s5, ⟨true, push, nid⟩)

/-- `BPlusTree::InsertInternal` (bptree.cpp:326-346), fuel-bounded: fetch
the node; on a leaf insert at the upper-bound position and split at
`mid = n/2` when `num_keys > max_keys`; on an internal node recurse into
`children[idx]` and, if the child split, insert the separator and new
child and split likewise.  A failed fetch or an out-of-range child access
is `none`. -/
def insertInternal (mk : Nat) :
    Nat → BTStore → Int → Nat → RecordID → Option (BTStore × InsertResult)
  | 0, _, _, _, _ => none
  | fuel + 1, s, p, key, rid =>
    match findNode s p with
    | none => none
    | some (.leaf keys rids next) =>
      let pos := upperIdx keys key
      let keys2 := keys.insertIdx pos key
      let rids2 := rids.insertIdx pos rid
      if keys2.length ≤ mk then
        some (writeNode s p (.leaf keys2 rids2 next), ⟨false, 0, INVALID_PAGE_ID⟩)
      else
        let mid := keys2.length / 2
        let nid := s.nextPage
        let s1 : BTStore := { s with nextPage := s.nextPage + 1 }
        let s2 := writeNode s1 nid (.leaf (keys2.drop mid) (rids2.drop mid) next)
        let s3 := writeNode s2 p (.leaf (keys2.take mid) (rids2.take mid) nid)
        some (s3, ⟨true, (keys2.drop mid).headD 0, nid⟩)
    | some (.internal ks cs) =>
      let idx := upperIdx ks key
      match cs.get? idx with
      | none => none
      | some cp =>
        match insertInternal mk fuel s cp key rid with
        | none => none
        | some (s2, res) =>
          if res.did_split = false then some (s2, ⟨false, 0, INVALID_PAGE_ID⟩)
          else
            some (finishInternal mk s2 p (ks.insertIdx idx res.split_key)
              (cs.insertIdx (idx + 1) res.new_page_id))

/-- The whole index: page store, root page id and `max_keys_`. -/
structure BTree where
  store : BTStore
  root : Int
  maxKeys : Nat
  deriving DecidableEq, Repr

/-- `BPlusTree::Insert`: run `InsertInternal` from the root and, when the
root split, allocate a fresh root holding the separator and the two
children. -/
def btInsert (t : BTree) (key : Nat) (rid : RecordID) : Option BTree :=
  match insertInternal t.maxKeys (t.store.nodes.length + 1) t.store t.root key rid with
  | none => none
  | some (s2, res) =>
    if res.did_split then
      let nr := s2.nextPage
      let s3 : BTStore := { s2 with nextPage := s2.nextPage + 1 }
      let s4 := writeNode s3 nr (.internal [res.split_key] [t.root, res.new_page_id])
      some { store := s4, root := nr, maxKeys := t.maxKeys }
    else some { t with store := s2 }

/-- `BPlusTree::FindLeaf`: walk from `cur`, stepping into `children[idx]`
where `idx` counts the leading keys `≤ key`; a failed fetch returns the
invalid page id. -/
def findLeaf (s : BTStore) : Nat → Int → Nat → Option Int
  | 0, _, _ => none
  | fuel + 1, cur, key =>
    match findNode s cur with
    | none => some INVALID_PAGE_ID
    | some (.leaf _ _ _) => some cur
    | some (.internal ks cs) =>
      match cs.get? (upperIdx ks key) with
      | none => none
      | some c => findLeaf s fuel c key

/-- The inner loop of `RangeScan` over one leaf: collect the entries with
`lo_key ≤ k ≤ hi_key` and report whether a key `> hi_key` caused the
early return. -/
def scanEntries : List (Nat × RecordID) → Nat → Nat → List (Nat × RecordID) × Bool
  | [], _, _ => ([], false)
  | e :: rest, lo, hi =>
    if hi < e.1 then ([], true)
    else
      let r := scanEntries rest lo hi
      if lo ≤ e.1 then (e :: r.1, r.2) else r

/-- The leaf-chain walk of `RangeScan`: visit leaves through `next_leaf`
until the invalid page id, a failed fetch, or a key past `hi_key`. -/
def rangeScanLoop (s : BTStore) (lo hi : Nat) :
    Nat → Int → Option (List (Nat × RecordID))
  | 0, _ => none
  | fuel + 1, page =>
    if page = INVALID_PAGE_ID then some []
    else
      match findNode s page with
      | none => some []
      | some (.internal _ _) => none
      | some (.leaf keys rids next) =>
        let r := scanEntries (keys.zip rids) lo hi
        if r.2 then some r.1
        else
          match rangeScanLoop s lo hi fuel next with
          | none => none
          | some rest => some (r.1 ++ rest)

/-- `BPlusTree::RangeScan`: find the leaf for `lo` and walk the chain. -/
def rangeScan (t : BTree) (lo hi : Nat) : Option (List (Nat × RecordID)) :=
  match findLeaf t.store (t.store.nodes.length + 1) t.root lo with
  | none => none
  | some leaf =>
    if leaf = INVALID_PAGE_ID then some []
    else rangeScanLoop t.store lo hi (t.store.nodes.length + 1) leaf

mutual
/-- Abstract view of a subtree: a leaf with its entries, or an internal
node with a first child and the remaining separator/child pairs. -/
inductive MTree where
  | mleaf (page : Int) (entries : List (Nat × RecordID))
  | mnode (page : Int) (child : MTree) (rest : MForest)
  deriving DecidableEq
/-- The separator/child pairs of an internal node after the first child. -/
inductive MForest where
  | mnil
  | mcons (sep : Nat) (child : MTree) (rest : MForest)
  deriving DecidableEq
end

/-- Page id of the subtree root. -/
def rootPage : MTree → Int
  | .mleaf p _ => p
  | .mnode p _ _ => p

/-- Separator keys of a forest, in order. -/
def sepsF : MForest → List Nat
  | .mnil => []
  | .mcons k _ r => k :: sepsF r

/-- Root pages of a forest's children, in order. -/
def rootsF : MForest → List Int
  | .mnil => []
  | .mcons _ c r => rootPage c :: rootsF r

mutual
/-- Entries of a subtree, left to right. -/
def entriesT : MTree → List (Nat × RecordID)
  | .mleaf _ es => es
  | .mnode _ c r => entriesT c ++ entriesF r
/-- Entries of a forest, left to right. -/
def entriesF : MForest → List (Nat × RecordID)
  | .mnil => []
  | .mcons _ c r => entriesT c ++ entriesF r
end

mutual
/-- Page ids of a subtree. -/
def pagesT : MTree → List Int
  | .mleaf p _ => [p]
  | .mnode p c r => p :: (pagesT c ++ pagesF r)
/-- Page ids of a forest. -/
def pagesF : MForest → List Int
  | .mnil => []
  | .mcons _ c r => pagesT c ++ pagesF r
end

mutual
/-- Height of a subtree. -/
def depthT : MTree → Nat
  | .mleaf _ _ => 1
  | .mnode _ c r => 1 + max (depthT c) (depthF r)
/-- Maximum child height of a forest. -/
def depthF : MForest → Nat
  | .mnil => 0
  | .mcons _ c r => max (depthT c) (depthF r)
end

mutual
/-- Number of leaves of a subtree. -/
def leavesT : MTree → Nat
  | .mleaf _ _ => 1
  | .mnode _ c r => leavesT c + leavesF r
/-- Number of leaves of a forest. -/
def leavesF : MForest → Nat
  | .mnil => 0
  | .mcons _ c r => leavesT c + leavesF r
end

/-- Page id of the leftmost leaf of a subtree. -/
def headT : MTree → Int
  | .mleaf p _ => p
  | .mnode _ c _ => headT c

/-- Page id of the leftmost leaf of a forest, with a default for the empty
forest. -/
def headF : MForest → Int → Int
  | .mnil, nxt => nxt
  | .mcons _ c _, _ => headT c

mutual
/-- The store holds this subtree: every node page decodes to the view, and
the rightmost leaf's `next_leaf` is `nxt`. -/
def decT (s : BTStore) : MTree → Int → Bool
  | .mleaf p es, nxt =>
    decide (findNode s p = some (.leaf (es.map Prod.fst) (es.map Prod.snd) nxt))
  | .mnode p c r, nxt =>
    decide (findNode s p = some (.internal (sepsF r) (rootPage c :: rootsF r))) &&
      decT s c (headF r nxt) && decF s r nxt
/-- The store holds this forest, children chained left to right ending at
`nxt`. -/
def decF (s : BTStore) : MForest → Int → Bool
  | .mnil, _ => true
  | .mcons _ c r, nxt => decT s c (headF r nxt) && decF s r nxt
end

/-- `k` is at or above the optional lower bound. -/
def inLoB (lo : Option Nat) (k : Nat) : Bool :=
  match lo with
  | none => true
  | some l => decide (l ≤ k)

/-- `k` is strictly below the optional upper bound. -/
def inHiB (hi : Option Nat) (k : Nat) : Bool :=
  match hi with
  | none => true
  | some h => decide (k < h)

/-- First separator of a forest, or the given bound when empty. -/
def fsep : MForest → Option Nat → Option Nat
  | .mnil, hi => hi
  | .mcons k _ _, _ => some k

mutual
/-- Key-range invariant: leaf keys are strictly sorted within `[lo, hi)`;
a child between separators is bounded by them. -/
def bndT : Option Nat → Option Nat → MTree → Bool
  | lo, hi, .mleaf _ es =>
    decide (List.Pairwise (· < ·) (es.map Prod.fst)) &&
      es.all (fun e => inLoB lo e.1 && inHiB hi e.1)
  | lo, hi, .mnode _ c r => bndT lo (fsep r hi) c && bndF lo hi r
/-- Key-range invariant for a forest under bounds `lo` and `hi`. -/
def bndF : Option Nat → Option Nat → MForest → Bool
  | _, _, .mnil => true
  | lo, hi, .mcons k c r =>
    inLoB lo k && inHiB (fsep r hi) k && bndT (some k) (fsep r hi) c && bndF (some k) hi r
end

mutual
/-- Every leaf of the subtree holds at least one entry. -/
def neT : MTree → Bool
  | .mleaf _ es => decide (es ≠ [])
  | .mnode _ c r => neT c && neF r
/-- Every leaf of the forest holds at least one entry. -/
def neF : MForest → Bool
  | .mnil => true
  | .mcons _ c r => neT c && neF r
end

/-- Insertion of an entry after all entries with key `≤ key` — the effect
of the leaf insert position on the flattened entry list. -/
def insEntries (key : Nat) (rid : RecordID) (es : List (Nat × RecordID)) :
    List (Nat × RecordID) :=
  es.insertIdx (es.takeWhile (fun e => decide (e.1 ≤ key))).length (key, rid)

/-- First `n` separator/child pairs of a forest. -/
def takeF : Nat → MForest → MForest
  | 0, _ => .mnil
  | _, .mnil => .mnil
  | n + 1, .mcons k c r => .mcons k c (takeF n r)

/-- Forest with the first `n` separator/child pairs removed. -/
def dropF : Nat → MForest → MForest
  | 0, f => f
  | _, .mnil => .mnil
  | n + 1, .mcons _ _ r => dropF n r

/-- The store/view relation for a whole index: the root subtree decodes,
satisfies the key-range invariant with open bounds, its pages are distinct
valid ids below the allocation cursor, and `max_keys` is positive. -/
def Abs (t : BTree) (T : MTree) : Prop :=
  decT t.store T INVALID_PAGE_ID = true ∧ bndT none none T = true ∧
    rootPage T = t.root ∧ (pagesT T).Nodup ∧
    (∀ q ∈ pagesT T, 0 ≤ q ∧ q < t.store.nextPage) ∧
    0 ≤ t.store.nextPage ∧ 1 ≤ t.maxKeys

/-- Store change contract of one insert call: the allocation cursor does
not move back, and every live page outside the touched subtree keeps its
contents. -/
def Frame (s s2 : BTStore) (ps : List Int) : Prop :=
  s.nextPage ≤ s2.nextPage ∧
    ∀ q, q < s.nextPage → q ∉ ps → findNode s2 q = findNode s q

/-- Contract of a non-splitting insert: the subtree keeps its root page and
leftmost leaf, decodes against the new store with the same out-pointer,
stays within bounds, and its entries gain exactly the new pair. -/
def NoSplitOut (s s2 : BTStore) (T T1 : MTree) (lo hi : Option Nat) (nxt : Int)
    (key : Nat) (rid : RecordID) : Prop :=
  rootPage T1 = rootPage T ∧ headT T1 = headT T ∧
    decT s2 T1 nxt = true ∧ bndT lo hi T1 = true ∧
    entriesT T1 = insEntries key rid (entriesT T) ∧ neT T1 = true ∧
    (pagesT T1).Nodup ∧
    (∀ q ∈ pagesT T1, (q ∈ pagesT T ∨ (s.nextPage ≤ q ∧ q < s2.nextPage)) ∧ 0 ≤ q)

/-- Contract of a splitting insert: the old page keeps the left part, the
new page holds the right part, the two are chained, the separator sits
between their key ranges, and the entries concatenate to the insert. -/
def SplitOut (s s2 : BTStore) (T T1 T2 : MTree) (lo hi : Option Nat)
    (nxt : Int) (key : Nat) (rid : RecordID) (sep : Nat) : Prop :=
  rootPage T1 = rootPage T ∧ headT T1 = headT T ∧
    decT s2 T1 (headT T2) = true ∧ decT s2 T2 nxt = true ∧
    bndT lo (some sep) T1 = true ∧ bndT (some sep) hi T2 = true ∧
    inLoB lo sep = true ∧ inHiB hi sep = true ∧
    entriesT T1 ++ entriesT T2 = insEntries key rid (entriesT T) ∧
    entriesT T1 ≠ [] ∧ neT T1 = true ∧ neT T2 = true ∧
    (pagesT T1 ++ pagesT T2).Nodup ∧
    (∀ q ∈ pagesT T1 ++ pagesT T2,
      (q ∈ pagesT T ∨ (s.nextPage ≤ q ∧ q < s2.nextPage)) ∧ 0 ≤ q)

/-- Full contract of `InsertInternal` on a decoded subtree. -/
def InsOut (s s2 : BTStore) (T : MTree) (lo hi : Option Nat) (nxt : Int)
    (key : Nat) (rid : RecordID) (res : InsertResult) : Prop :=
  Frame s s2 (pagesT T) ∧
    (if res.did_split = true then
      ∃ T1 T2, rootPage T2 = res.new_page_id ∧
        SplitOut s s2 T T1 T2 lo hi nxt key rid res.split_key
    else ∃ T1, NoSplitOut s s2 T T1 lo hi nxt key rid)

/-- Full contract of the recursive insert as seen from a parent internal
node: the child picked by the routing index is the one called, and the
parent's separator/child lists after the surgery match a new forest view. -/
def FInsOut (s s2 : BTStore) (F : MForest) (lo hi : Option Nat) (nxt : Int)
    (key : Nat) (rid : RecordID) (res : InsertResult) : Prop :=
  Frame s s2 (pagesF F) ∧
    (if res.did_split = true then
      ∃ F2, sepsF F2 = (sepsF F).insertIdx (upperIdx (sepsF F) key) res.split_key ∧
        rootsF F2 = (rootsF F).insertIdx (upperIdx (sepsF F) key) res.new_page_id ∧
        headF F2 nxt = headF F nxt ∧
        decF s2 F2 nxt = true ∧ bndF lo hi F2 = true ∧
        entriesF F2 = insEntries key rid (entriesF F) ∧ neF F2 = true ∧
        (pagesF F2).Nodup ∧
        (∀ q ∈ pagesF F2, (q ∈ pagesF F ∨ (s.nextPage ≤ q ∧ q < s2.nextPage)) ∧ 0 ≤ q)
    else
      ∃ F2, sepsF F2 = sepsF F ∧ rootsF F2 = rootsF F ∧
        headF F2 nxt = headF F nxt ∧
        decF s2 F2 nxt = true ∧ bndF lo hi F2 = true ∧
        entriesF F2 = insEntries key rid (entriesF F) ∧ neF F2 = true ∧
        (pagesF F2).Nodup ∧
        (∀ q ∈ pagesF F2, (q ∈ pagesF F ∨ (s.nextPage ≤ q ∧ q < s2.nextPage)) ∧ 0 ≤ q))

/-- Insert a list of (key, rid) pairs left to right. -/
def insertAll (t : BTree) : List (Nat × RecordID) → Option BTree
  | [] => some t
  | e :: rest =>
    match btInsert t e.1 e.2 with
    | none => none
    | some t2 => insertAll t2 rest

/-- A freshly initialised index: one empty leaf as the root. -/
def mkBT (root0 : Int) (mk : Nat) : BTree :=
  ⟨⟨[(root0, .leaf [] [] INVALID_PAGE_ID)], root0 + 1⟩, root0, mk⟩

namespace FreeSpaceMap

theorem findLoop_characterization (cat : Nat) (l : List Nat) : ∀ i : Nat,
    (∃ n, n < l.length ∧ findLoop cat l i = ((i + n : Nat) : Int) ∧
      (cat ≤ l.getD n 0 ∧ 0 < l.getD n 0) ∧
      ∀ m, m < n → ¬(cat ≤ l.getD m 0 ∧ 0 < l.getD m 0))
    ∨ (findLoop cat l i = INVALID_PAGE_ID ∧ ∀ b ∈ l, ¬(cat ≤ b ∧ 0 < b)) := by
  induction l with
  | nil =>
    intro i; right; exact ⟨rfl, by simp⟩
  | cons b rest ih =>
    intro i
    by_cases hb : cat ≤ b ∧ 0 < b
    · left
      refine ⟨0, by simp, ?_, by simpa using hb, by omega⟩
      simp [findLoop, hb]
    · rcases ih (i + 1) with ⟨n, hn, heq, hq, hmin⟩ | ⟨heq, hall⟩
      · left
        refine ⟨n + 1, by simpa using hn, ?_, by simpa using hq, ?_⟩
        · simpa [findLoop, hb, Nat.add_assoc, Nat.add_comm 1 n] using heq
        · intro m hm
          cases m with
          | zero => simpa using hb
          | succ m => simpa using hmin m (by omega)
      · right
        refine ⟨by simpa [findLoop, hb] using heq, ?_⟩
        intro b' hb'
        rcases List.mem_cons.mp hb' with h | h
        · exact h ▸ hb
        · exact hall b' h

/-- C6, amended.  `find_page_with_space(n)` linearly scans the first FSM page
and returns the heap page identified by the first byte whose category is
at least `min (n / 16) 255` (floor division, clamped) and greater than zero;
if no byte qualifies it returns the invalid page id. -/
theorem C6_findPageWithSpace_first_fit (entries : List Nat) (needed : Nat) :
    (∃ n, n < entries.length ∧
      findPageWithSpace entries needed = (n : Int) ∧
      qualifies needed (entries.getD n 0) ∧
      ∀ m, m < n → ¬ qualifies needed (entries.getD m 0))
    ∨ (findPageWithSpace entries needed = INVALID_PAGE_ID ∧
      ∀ b ∈ entries, ¬ qualifies needed b) := by
  rcases findLoop_characterization (bytesToCategory needed) entries 0 with
    ⟨n, hn, heq, hq, hmin⟩ | ⟨heq, hall⟩
  · exact Or.inl ⟨n, hn, by simpa [findPageWithSpace] using heq,
      hq, fun m hm => hmin m hm⟩
  · exact Or.inr ⟨heq, hall⟩

/-- C6, counterexample to the claim as stated.  For a request of 17 bytes the
claimed threshold is `ceil(17/16) = 2`, so on an FSM page whose first byte is
category 1 no byte qualifies and the claimed result is the invalid page id;
the code uses `floor(17/16) = 1` and returns page 0. -/
theorem C6_counterexample :
    findPageWithSpace [1] 17 = 0 ∧
    findPageWithSpaceSpec [1] 17 = INVALID_PAGE_ID ∧
    ¬((17 + GRANULARITY - 1) / GRANULARITY ≤ 1) := by
  refine ⟨?_, ?_, by decide⟩ <;> rfl
end FreeSpaceMap

/-- C10 (confirmed).  Slotted-page free-space invariant: no operation other
than `Init` increases `free_space_end`.  `DeleteRecord` leaves
`free_space_begin`, `free_space_end`, hence `GetFreeSpace`, unchanged and only
clears the slot entry; `InsertRecord`, when it succeeds, decrements
`free_space_end` by exactly the record length — also when it reuses a
tombstone slot — and never increases it; `UpdateRecord` leaves both header
bounds unchanged.  So the payload bytes of deleted records are never returned
to the page's free space. -/
theorem C10_free_space_end_monotone (p : SlottedPage) (record : List Nat)
    (record_len slot_id : Nat) :
    ((SlottedPage.insertRecord p record record_len).1.free_space_end =
      if (SlottedPage.insertRecord p record record_len).2 = -1 then
        p.free_space_end
      else p.free_space_end - record_len) ∧
    (SlottedPage.insertRecord p record record_len).1.free_space_end ≤
      p.free_space_end ∧
    (SlottedPage.deleteRecord p slot_id).1.free_space_begin =
      p.free_space_begin ∧
    (SlottedPage.deleteRecord p slot_id).1.free_space_end = p.free_space_end ∧
    SlottedPage.getFreeSpace (SlottedPage.deleteRecord p slot_id).1 =
      SlottedPage.getFreeSpace p ∧
    (SlottedPage.updateRecord p slot_id record record_len).1.free_space_begin =
      p.free_space_begin ∧
    (SlottedPage.updateRecord p slot_id record record_len).1.free_space_end =
      p.free_space_end := by
  refine ⟨?_, ?_, ?_, ?_, ?_, ?_, ?_⟩
  · unfold SlottedPage.insertRecord
    cases h : SlottedPage.findTombstone p.slots <;>
      simp only [h] <;> split <;> simp_all
  · unfold SlottedPage.insertRecord
    cases h : SlottedPage.findTombstone p.slots <;>
      simp only [h] <;> split <;> simp
  · unfold SlottedPage.deleteRecord
    split <;> [skip; rfl]; split <;> rfl
  · unfold SlottedPage.deleteRecord
    split <;> [skip; rfl]; split <;> rfl
  · unfold SlottedPage.getFreeSpace SlottedPage.deleteRecord
    split <;> [skip; rfl]; split <;> rfl
  · unfold SlottedPage.updateRecord
    split
    · dsimp only; split
      · rfl
      · split <;> rfl
    · rfl
  · unfold SlottedPage.updateRecord
    split
    · dsimp only; split
      · rfl
      · split <;> rfl
    · rfl
namespace BsonSerializer

/-! ### Round-trip infrastructure for the serializer -/


theorem leBytes_length (k n : Nat) : (leBytes k n).length = k := by
  induction k generalizing n with
  | zero => rfl
  | succ k ih => simp [leBytes, ih]

theorem leVal_leBytes (k n : Nat) : leVal (leBytes k n) = n % 256 ^ k := by
  induction k generalizing n with
  | zero => simp [leBytes, leVal, Nat.mod_one]
  | succ k ih =>
    simp only [leBytes, leVal, ih]
    conv_rhs => rw [Nat.pow_succ, Nat.mul_comm, Nat.mod_mul]

theorem get?_of_drop (data : List Nat) (off b : Nat) (tail : List Nat)
    (h : data.drop off = b :: tail) : data[off]? = some b := by
  have := List.getElem?_drop data off 0
  rw [h] at this
  simpa using this.symm

theorem drop_shift (data : List Nat) (off n : Nat) (pre tail : List Nat)
    (h : data.drop off = pre ++ tail) (hn : n = pre.length) :
    data.drop (off + n) = tail := by
  subst hn
  rw [← List.drop_drop, h, List.drop_left]

theorem readLE?_of_drop (data : List Nat) (off : Nat) (src tail : List Nat)
    (h : data.drop off = src ++ tail) :
    readLE? data off src.length = some (leVal src) := by
  induction src generalizing off with
  | nil => simp [readLE?, leVal]
  | cons b rest ih =>
    have hb : data[off]? = some b := get?_of_drop data off b (rest ++ tail) (by simpa using h)
    have hd : data.drop (off + 1) = rest ++ tail := by
      have := drop_shift data off 1 [b] (rest ++ tail) (by simpa using h) (by simp)
      simpa using this
    simp [readLE?, hb, ih (off + 1) hd, leVal]

theorem readBytes?_of_drop (data : List Nat) (off : Nat) (src tail : List Nat)
    (h : data.drop off = src ++ tail) (hsrc : 0 < src.length + tail.length) :
    readBytes? data off src.length = some src := by
  have hlen : (data.drop off).length = data.length - off := List.length_drop off data
  rw [h] at hlen
  simp only [List.length_append] at hlen
  have hoff : off + src.length ≤ data.length := by omega
  simp only [readBytes?, hoff, if_pos]
  rw [h, List.take_left]

theorem cStr_append (k tail : List Nat) (hk : ∀ b ∈ k, b ≠ 0) :
    cStr (k ++ 0 :: tail) = some k := by
  induction k with
  | nil => simp [cStr]
  | cons b rest ih =>
    have hb : b ≠ 0 := hk b (by simp)
    have := ih (fun x hx => hk x (by simp [hx]))
    simp [cStr, hb, this]

theorem readCString?_of_drop (data : List Nat) (off : Nat) (k tail : List Nat)
    (h : data.drop off = k ++ 0 :: tail) (hk : ∀ b ∈ k, b ≠ 0) :
    readCString? data off = some (k, off + k.length + 1) := by
  simp [readCString?, h, cStr_append k tail hk]

theorem readString?_of_drop (data : List Nat) (off : Nat) (s tail : List Nat)
    (h : data.drop off = leBytes 4 (s.length + 1) ++ (s ++ 0 :: tail))
    (hbound : s.length + 1 < 2 ^ 31) :
    readString? data off = some (s, off + 4 + (s.length + 1)) := by
  have hlen4 : (leBytes 4 (s.length + 1)).length = 4 := leBytes_length 4 _
  have hle : readLE? data off 4 = some (s.length + 1) := by
    have := readLE?_of_drop data off (leBytes 4 (s.length + 1)) (s ++ 0 :: tail) h
    rw [hlen4] at this
    rw [this, leVal_leBytes]
    congr 1
    exact Nat.mod_eq_of_lt (by norm_num; omega)
  have hdrop4 : data.drop (off + 4) = s ++ 0 :: tail :=
    drop_shift data off 4 _ _ h hlen4.symm
  have hdl : (data.drop off).length = data.length - off := List.length_drop off data
  rw [h] at hdl
  simp only [List.length_append, hlen4, List.length_cons] at hdl
  have hle31 : ¬(s.length + 1 = 0 ∨ 2 ^ 31 ≤ s.length + 1) := by
    push_neg
    exact ⟨by omega, by omega⟩
  simp only [readString?, hle, Option.bind_eq_bind, Option.some_bind, if_neg hle31,
    Nat.add_sub_cancel]
  rw [if_pos (by omega : off + 4 + s.length ≤ data.length), hdrop4, List.take_left]

theorem keyLt_asymm (a b : List Nat) (h : keyLt a b = true) : keyLt b a = false := by
  induction a generalizing b with
  | nil =>
    cases b with
    | nil => simp [keyLt] at h
    | cons y ys => simp [keyLt]
  | cons x xs ih =>
    cases b with
    | nil => simp [keyLt] at h
    | cons y ys =>
      by_cases hxy : x < y
      · simp [keyLt, hxy, Nat.lt_asymm hxy]
      · by_cases hyx : y < x
        · simp [keyLt, hxy, hyx] at h
        · have hxy2 : x = y := by omega
          subst hxy2
          simp only [keyLt, if_neg hxy, if_neg hyx] at h ⊢
          simp [ih ys h]

theorem addElem_append (acc : BsonElems) (k : List Nat) (v : BsonValue)
    (h : ∀ ka ∈ keysOf acc, keyLt ka k = true) :
    addElem acc k v = appendElems acc (.cons k v .nil) := by
  cases acc with
  | nil => rfl
  | cons k' v' rest =>
    have hk' : keyLt k' k = true := h k' (by simp [keysOf])
    have hkk' : keyLt k k' = false := keyLt_asymm k' k hk'
    have hrec := addElem_append rest k v (fun ka hka => h ka (by simp [keysOf, hka]))
    simp [addElem, hkk', hk', appendElems, hrec]

theorem appendElems_assoc (a b c : BsonElems) :
    appendElems (appendElems a b) c = appendElems a (appendElems b c) := by
  cases a with
  | nil => rfl
  | cons k v rest => simp [appendElems, appendElems_assoc rest b c]

theorem keysOf_append (a b : BsonElems) :
    keysOf (appendElems a b) = keysOf a ++ keysOf b := by
  cases a with
  | nil => rfl
  | cons k v rest => simp [appendElems, keysOf, keysOf_append rest b]
end BsonSerializer

open BsonSerializer

theorem appendElems_nil (a : BsonElems) : appendElems a .nil = a := by
  cases a with
  | nil => rfl
  | cons k v rest => simp [appendElems, appendElems_nil rest]

theorem roundDoc_of_roundElems (d : BsonElems) (hre : RoundElems d) : RoundDoc d := by
  intro post fuel hwf hsz hfuel
  obtain ⟨f, rfl⟩ : ∃ f, fuel = f + 1 := ⟨fuel - 1, by omega⟩
  have hdata : serialize d ++ post
      = leBytes 4 ((serializeElems d).length + 5)
        ++ (serializeElems d ++ (0 :: post)) := by
    simp [serialize, wrapBody, List.append_assoc]
  have hread : readLE? (serialize d ++ post) 0 4
      = some ((serializeElems d).length + 5) := by
    have h0 : (serialize d ++ post).drop 0
        = leBytes 4 ((serializeElems d).length + 5)
          ++ (serializeElems d ++ (0 :: post)) := by simpa using hdata
    have := readLE?_of_drop _ 0 _ _ h0
    rw [leBytes_length] at this
    rw [this, leVal_leBytes]
    congr 1
    exact Nat.mod_eq_of_lt (by norm_num; omega)
  have hdsz : int32ToSizeT ((serializeElems d).length + 5)
      = (serializeElems d).length + 5 := by
    simp only [int32ToSizeT]
    rw [if_pos (by omega)]
  have hsizes : (serialize d).length = (serializeElems d).length + 5 := by
    simp [serialize, wrapBody, leBytes_length]
    omega
  have hstop : ((serializeElems d).length + 5 + (2 ^ 64 - 1)) % 2 ^ 64
      = 4 + (serializeElems d).length := by
    have h1 : (serializeElems d).length + 5 + (2 ^ 64 - 1)
        = (4 + (serializeElems d).length) + 1 * 2 ^ 64 := by omega
    rw [h1, Nat.add_mul_mod_self_right]
    exact Nat.mod_eq_of_lt (by omega)
  have hdrop4 : (serialize d ++ post).drop 4
      = serializeElems d ++ (0 :: post) := by
    have := drop_shift (serialize d ++ post) 0 4
      (leBytes 4 ((serializeElems d).length + 5)) _ (by simpa using hdata)
      (leBytes_length 4 _).symm
    simpa using this
  have hmain := hre .nil (serialize d ++ post) (0 :: post) 4 f hwf
    (by omega) hdrop4 (by simp [keysOf])
  simp only [deserializeAux, hread, hdsz, hsizes]
  rw [if_neg (by omega)]
  rw [hstop]
  exact hmain

theorem roundElems : (es : BsonElems) → RoundElems es
  | .nil => by
    intro acc data post off fuel hwf hfuel hdrop hacc
    obtain ⟨f, rfl⟩ : ∃ f, fuel = f + 1 :=
      ⟨fuel - 1, by simp [elemsFuel] at hfuel; omega⟩
    simp [parseFields, appendElems_nil, serializeElems]
  | .cons k (.vint32 n) rest => by
    intro acc data post off fuel hwf hfuel hdrop hacc
    simp only [wfElems, Bool.and_eq_true] at hwf
    obtain ⟨⟨⟨hk, hv⟩, hord⟩, hrest⟩ := hwf
    have hknz : ∀ b ∈ k, b ≠ 0 := by
      intro b hbk
      have := List.all_eq_true.mp hk b hbk
      simp at this
      exact this.1
    have hn : n < 2 ^ 32 := by simpa [wfValue] using hv
    obtain ⟨f, rfl⟩ : ∃ f, fuel = f + 1 :=
      ⟨fuel - 1, by simp [elemsFuel] at hfuel; omega⟩
    have hfuel' : valueFuel (.vint32 n) + elemsFuel rest ≤ f := by
      simp [elemsFuel] at hfuel
      simp [valueFuel]
      omega
    have hdrop1 : data.drop off
        = TYPE_INT32 :: (k ++ 0 :: (leBytes 4 n ++ (serializeElems rest ++ post))) := by
      rw [hdrop]
      simp [serializeElems, serializeField, appendCString, List.append_assoc]
    have hget : data[off]? = some TYPE_INT32 := get?_of_drop _ _ _ _ hdrop1
    have hdropk : data.drop (off + 1)
        = k ++ 0 :: (leBytes 4 n ++ (serializeElems rest ++ post)) := by
      have := drop_shift data off 1 [TYPE_INT32] _ (by simpa using hdrop1) (by simp)
      simpa using this
    have hcstr : readCString? data (off + 1) = some (k, off + 1 + k.length + 1) :=
      readCString?_of_drop _ _ _ _ hdropk hknz
    have hdropval : data.drop (off + 1 + k.length + 1)
        = leBytes 4 n ++ (serializeElems rest ++ post) := by
      have := drop_shift data (off + 1) (k.length + 1) (k ++ [0]) _
        (by simpa [List.append_assoc] using hdropk) (by simp)
      simpa [Nat.add_assoc] using this
    have hreadv : readLE? data (off + 1 + k.length + 1) 4 = some n := by
      have := readLE?_of_drop data (off + 1 + k.length + 1) (leBytes 4 n) _ hdropval
      rw [leBytes_length] at this
      rw [this, leVal_leBytes]
      congr 1
      exact Nat.mod_eq_of_lt (by norm_num; omega)
    have hdroprest : data.drop (off + 1 + k.length + 1 + 4)
        = serializeElems rest ++ post := by
      have := drop_shift data (off + 1 + k.length + 1) 4 (leBytes 4 n) _
        hdropval (leBytes_length 4 n).symm
      simpa using this
    have hacchead : ∀ ka ∈ keysOf acc, keyLt ka k = true := by
      intro ka hka
      exact hacc ka hka k (by simp [keysOf])
    have hadd : addElem acc k (.vint32 n) = appendElems acc (.cons k (.vint32 n) .nil) :=
      addElem_append acc k _ hacchead
    have hacc' : ∀ ka ∈ keysOf (addElem acc k (.vint32 n)),
        ∀ kb ∈ keysOf rest, keyLt ka kb = true := by
      intro ka hka kb hkb
      rw [hadd, keysOf_append] at hka
      rcases List.mem_append.mp hka with h | h
      · exact hacc ka h kb (by simp [keysOf, hkb])
      · simp [keysOf] at h
        subst h
        exact List.all_eq_true.mp hord kb hkb
    have ih := roundElems rest (addElem acc k (.vint32 n)) data post
      (off + 1 + k.length + 1 + 4) f hrest (by omega) hdroprest hacc'
    have hstopeq : off + (serializeElems (.cons k (.vint32 n) rest)).length
        = off + 1 + k.length + 1 + 4 + (serializeElems rest).length := by
      simp [serializeElems, serializeField, appendCString, leBytes_length]
      omega
    have hfinal : appendElems (addElem acc k (.vint32 n)) rest
        = appendElems acc (.cons k (.vint32 n) rest) := by
      rw [hadd, appendElems_assoc]
      rfl
    rw [hstopeq]
    simp only [parseFields]
    rw [if_pos (by omega)]
    rw [hget]
    norm_num [TYPE_INT32]
    rw [hcstr]
    norm_num
    rw [hreadv]
    simp only []
    rw [ih, hfinal]
  | .cons k (.vint64 n) rest => by
    intro acc data post off fuel hwf hfuel hdrop hacc
    simp only [wfElems, Bool.and_eq_true] at hwf
    obtain ⟨⟨⟨hk, hv⟩, hord⟩, hrest⟩ := hwf
    have hknz : ∀ b ∈ k, b ≠ 0 := by
      intro b hbk
      have := List.all_eq_true.mp hk b hbk
      simp at this
      exact this.1
    have hn : n < 2 ^ 64 := by simpa [wfValue] using hv
    obtain ⟨f, rfl⟩ : ∃ f, fuel = f + 1 :=
      ⟨fuel - 1, by simp [elemsFuel] at hfuel; omega⟩
    have hfuel' : valueFuel (.vint64 n) + elemsFuel rest ≤ f := by
      simp [elemsFuel] at hfuel
      simp [valueFuel]
      omega
    have hdrop1 : data.drop off
        = TYPE_INT64 :: (k ++ 0 :: (leBytes 8 n ++ (serializeElems rest ++ post))) := by
      rw [hdrop]
      simp [serializeElems, serializeField, appendCString, List.append_assoc]
    have hget : data[off]? = some TYPE_INT64 := get?_of_drop _ _ _ _ hdrop1
    have hdropk : data.drop (off + 1)
        = k ++ 0 :: (leBytes 8 n ++ (serializeElems rest ++ post)) := by
      have := drop_shift data off 1 [TYPE_INT64] _ (by simpa using hdrop1) (by simp)
      simpa using this
    have hcstr : readCString? data (off + 1) = some (k, off + 1 + k.length + 1) :=
      readCString?_of_drop _ _ _ _ hdropk hknz
    have hdropval : data.drop (off + 1 + k.length + 1)
        = leBytes 8 n ++ (serializeElems rest ++ post) := by
      have := drop_shift data (off + 1) (k.length + 1) (k ++ [0]) _
        (by simpa [List.append_assoc] using hdropk) (by simp)
      simpa [Nat.add_assoc] using this
    have hreadv : readLE? data (off + 1 + k.length + 1) 8 = some n := by
      have := readLE?_of_drop data (off + 1 + k.length + 1) (leBytes 8 n) _ hdropval
      rw [leBytes_length] at this
      rw [this, leVal_leBytes]
      congr 1
      exact Nat.mod_eq_of_lt (by norm_num; omega)
    have hdroprest : data.drop (off + 1 + k.length + 1 + 8)
        = serializeElems rest ++ post := by
      have := drop_shift data (off + 1 + k.length + 1) 8 (leBytes 8 n) _
        hdropval (leBytes_length 8 n).symm
      simpa using this
    have hacchead : ∀ ka ∈ keysOf acc, keyLt ka k = true := by
      intro ka hka
      exact hacc ka hka k (by simp [keysOf])
    have hadd : addElem acc k (.vint64 n) = appendElems acc (.cons k (.vint64 n) .nil) :=
      addElem_append acc k _ hacchead
    have hacc2 : ∀ ka ∈ keysOf (addElem acc k (.vint64 n)),
        ∀ kb ∈ keysOf rest, keyLt ka kb = true := by
      intro ka hka kb hkb
      rw [hadd, keysOf_append] at hka
      rcases List.mem_append.mp hka with h | h
      · exact hacc ka h kb (by simp [keysOf, hkb])
      · simp [keysOf] at h
        subst h
        exact List.all_eq_true.mp hord kb hkb
    have ih := roundElems rest (addElem acc k (.vint64 n)) data post
      (off + 1 + k.length + 1 + 8) f hrest (by omega) hdroprest hacc2
    have hstopeq : off + (serializeElems (.cons k (.vint64 n) rest)).length
        = off + 1 + k.length + 1 + 8 + (serializeElems rest).length := by
      simp [serializeElems, serializeField, appendCString, leBytes_length]
      omega
    have hfinal : appendElems (addElem acc k (.vint64 n)) rest
        = appendElems acc (.cons k (.vint64 n) rest) := by
      rw [hadd, appendElems_assoc]
      rfl
    rw [hstopeq]
    simp only [parseFields]
    rw [if_pos (by omega)]
    rw [hget]
    norm_num [TYPE_INT64, TYPE_INT32]
    rw [hcstr]
    norm_num
    rw [hreadv]
    simp only []
    rw [ih, hfinal]
  | .cons k (.vdouble bs) rest => by
    intro acc data post off fuel hwf hfuel hdrop hacc
    simp only [wfElems, Bool.and_eq_true] at hwf
    obtain ⟨⟨⟨hk, hv⟩, hord⟩, hrest⟩ := hwf
    have hknz : ∀ b ∈ k, b ≠ 0 := by
      intro b hbk
      have := List.all_eq_true.mp hk b hbk
      simp at this
      exact this.1
    have hbl : bs.length = 8 := by
      simp [wfValue, Bool.and_eq_true] at hv
      exact hv.1
    obtain ⟨f, rfl⟩ : ∃ f, fuel = f + 1 :=
      ⟨fuel - 1, by simp [elemsFuel] at hfuel; omega⟩
    have hfuel' : valueFuel (.vdouble bs) + elemsFuel rest ≤ f := by
      simp [elemsFuel] at hfuel
      simp [valueFuel]
      omega
    have hdrop1 : data.drop off
        = TYPE_DOUBLE :: (k ++ 0 :: (bs ++ (serializeElems rest ++ post))) := by
      rw [hdrop]
      simp [serializeElems, serializeField, appendCString, List.append_assoc]
    have hget : data[off]? = some TYPE_DOUBLE := get?_of_drop _ _ _ _ hdrop1
    have hdropk : data.drop (off + 1)
        = k ++ 0 :: (bs ++ (serializeElems rest ++ post)) := by
      have := drop_shift data off 1 [TYPE_DOUBLE] _ (by simpa using hdrop1) (by simp)
      simpa using this
    have hcstr : readCString? data (off + 1) = some (k, off + 1 + k.length + 1) :=
      readCString?_of_drop _ _ _ _ hdropk hknz
    have hdropval : data.drop (off + 1 + k.length + 1)
        = bs ++ (serializeElems rest ++ post) := by
      have := drop_shift data (off + 1) (k.length + 1) (k ++ [0]) _
        (by simpa [List.append_assoc] using hdropk) (by simp)
      simpa [Nat.add_assoc] using this
    have hreadv : readBytes? data (off + 1 + k.length + 1) 8 = some bs := by
      have := readBytes?_of_drop data (off + 1 + k.length + 1) bs _ hdropval (by omega)
      rw [hbl] at this
      exact this
    have hdroprest : data.drop (off + 1 + k.length + 1 + 8)
        = serializeElems rest ++ post := by
      have := drop_shift data (off + 1 + k.length + 1) 8 bs _ hdropval hbl.symm
      simpa using this
    have hacchead : ∀ ka ∈ keysOf acc, keyLt ka k = true := by
      intro ka hka
      exact hacc ka hka k (by simp [keysOf])
    have hadd : addElem acc k (.vdouble bs) = appendElems acc (.cons k (.vdouble bs) .nil) :=
      addElem_append acc k _ hacchead
    have hacc2 : ∀ ka ∈ keysOf (addElem acc k (.vdouble bs)),
        ∀ kb ∈ keysOf rest, keyLt ka kb = true := by
      intro ka hka kb hkb
      rw [hadd, keysOf_append] at hka
      rcases List.mem_append.mp hka with h | h
      · exact hacc ka h kb (by simp [keysOf, hkb])
      · simp [keysOf] at h
        subst h
        exact List.all_eq_true.mp hord kb hkb
    have ih := roundElems rest (addElem acc k (.vdouble bs)) data post
      (off + 1 + k.length + 1 + 8) f hrest (by omega) hdroprest hacc2
    have hstopeq : off + (serializeElems (.cons k (.vdouble bs) rest)).length
        = off + 1 + k.length + 1 + 8 + (serializeElems rest).length := by
      simp [serializeElems, serializeField, appendCString]
      omega
    have hfinal : appendElems (addElem acc k (.vdouble bs)) rest
        = appendElems acc (.cons k (.vdouble bs) rest) := by
      rw [hadd, appendElems_assoc]
      rfl
    rw [hstopeq]
    simp only [parseFields]
    rw [if_pos (by omega)]
    rw [hget]
    norm_num [TYPE_DOUBLE, TYPE_INT32, TYPE_INT64]
    rw [hcstr]
    norm_num
    rw [hreadv]
    simp only []
    rw [ih, hfinal]
  | .cons k (.vstring s) rest => by
    intro acc data post off fuel hwf hfuel hdrop hacc
    simp only [wfElems, Bool.and_eq_true] at hwf
    obtain ⟨⟨⟨hk, hv⟩, hord⟩, hrest⟩ := hwf
    have hknz : ∀ b ∈ k, b ≠ 0 := by
      intro b hbk
      have := List.all_eq_true.mp hk b hbk
      simp at this
      exact this.1
    have hsb : s.length + 1 < 2 ^ 31 := by
      simp [wfValue, Bool.and_eq_true] at hv
      omega
    obtain ⟨f, rfl⟩ : ∃ f, fuel = f + 1 :=
      ⟨fuel - 1, by simp [elemsFuel] at hfuel; omega⟩
    have hfuel' : valueFuel (.vstring s) + elemsFuel rest ≤ f := by
      simp [elemsFuel] at hfuel
      simp [valueFuel]
      omega
    have hdrop1 : data.drop off
        = TYPE_STRING :: (k ++ 0 :: (leBytes 4 (s.length + 1)
            ++ (s ++ 0 :: (serializeElems rest ++ post)))) := by
      rw [hdrop]
      simp [serializeElems, serializeField, appendCString, List.append_assoc]
    have hget : data[off]? = some TYPE_STRING := get?_of_drop _ _ _ _ hdrop1
    have hdropk : data.drop (off + 1)
        = k ++ 0 :: (leBytes 4 (s.length + 1)
            ++ (s ++ 0 :: (serializeElems rest ++ post))) := by
      have := drop_shift data off 1 [TYPE_STRING] _ (by simpa using hdrop1) (by simp)
      simpa using this
    have hcstr : readCString? data (off + 1) = some (k, off + 1 + k.length + 1) :=
      readCString?_of_drop _ _ _ _ hdropk hknz
    have hdropval : data.drop (off + 1 + k.length + 1)
        = leBytes 4 (s.length + 1) ++ (s ++ 0 :: (serializeElems rest ++ post)) := by
      have := drop_shift data (off + 1) (k.length + 1) (k ++ [0]) _
        (by simpa [List.append_assoc] using hdropk) (by simp)
      simpa [Nat.add_assoc] using this
    have hreadv : readString? data (off + 1 + k.length + 1)
        = some (s, off + 1 + k.length + 1 + 4 + (s.length + 1)) :=
      readString?_of_drop data _ s _ hdropval hsb
    have hdrops : data.drop (off + 1 + k.length + 1 + 4)
        = s ++ 0 :: (serializeElems rest ++ post) := by
      have := drop_shift data (off + 1 + k.length + 1) 4 (leBytes 4 (s.length + 1)) _
        hdropval (leBytes_length 4 _).symm
      simpa using this
    have hdroprest : data.drop (off + 1 + k.length + 1 + 4 + (s.length + 1))
        = serializeElems rest ++ post := by
      have := drop_shift data (off + 1 + k.length + 1 + 4) (s.length + 1)
        (s ++ [0]) _ (by simpa [List.append_assoc] using hdrops) (by simp)
      simpa [Nat.add_assoc] using this
    have hacchead : ∀ ka ∈ keysOf acc, keyLt ka k = true := by
      intro ka hka
      exact hacc ka hka k (by simp [keysOf])
    have hadd : addElem acc k (.vstring s) = appendElems acc (.cons k (.vstring s) .nil) :=
      addElem_append acc k _ hacchead
    have hacc2 : ∀ ka ∈ keysOf (addElem acc k (.vstring s)),
        ∀ kb ∈ keysOf rest, keyLt ka kb = true := by
      intro ka hka kb hkb
      rw [hadd, keysOf_append] at hka
      rcases List.mem_append.mp hka with h | h
      · exact hacc ka h kb (by simp [keysOf, hkb])
      · simp [keysOf] at h
        subst h
        exact List.all_eq_true.mp hord kb hkb
    have ih := roundElems rest (addElem acc k (.vstring s)) data post
      (off + 1 + k.length + 1 + 4 + (s.length + 1)) f hrest (by omega) hdroprest hacc2
    have hstopeq : off + (serializeElems (.cons k (.vstring s) rest)).length
        = off + 1 + k.length + 1 + 4 + (s.length + 1) + (serializeElems rest).length := by
      simp [serializeElems, serializeField, appendCString, leBytes_length]
      omega
    have hfinal : appendElems (addElem acc k (.vstring s)) rest
        = appendElems acc (.cons k (.vstring s) rest) := by
      rw [hadd, appendElems_assoc]
      rfl
    rw [hstopeq]
    simp only [parseFields]
    rw [if_pos (by omega)]
    rw [hget]
    norm_num [TYPE_STRING, TYPE_INT32, TYPE_INT64, TYPE_DOUBLE]
    rw [hcstr]
    norm_num
    rw [hreadv]
    simp only []
    rw [ih, hfinal]
  | .cons k (.vbool bo) rest => by
    intro acc data post off fuel hwf hfuel hdrop hacc
    simp only [wfElems, Bool.and_eq_true] at hwf
    obtain ⟨⟨⟨hk, hv⟩, hord⟩, hrest⟩ := hwf
    have hknz : ∀ b ∈ k, b ≠ 0 := by
      intro b hbk
      have := List.all_eq_true.mp hk b hbk
      simp at this
      exact this.1
    obtain ⟨f, rfl⟩ : ∃ f, fuel = f + 1 :=
      ⟨fuel - 1, by simp [elemsFuel] at hfuel; omega⟩
    have hfuel' : valueFuel (.vbool bo) + elemsFuel rest ≤ f := by
      simp [elemsFuel] at hfuel
      simp [valueFuel]
      omega
    have hdrop1 : data.drop off
        = TYPE_BOOLEAN :: (k ++ 0 :: ((if bo then 1 else 0)
            :: (serializeElems rest ++ post))) := by
      rw [hdrop]
      simp [serializeElems, serializeField, appendCString, List.append_assoc]
    have hget : data[off]? = some TYPE_BOOLEAN := get?_of_drop _ _ _ _ hdrop1
    have hdropk : data.drop (off + 1)
        = k ++ 0 :: ((if bo then 1 else 0) :: (serializeElems rest ++ post)) := by
      have := drop_shift data off 1 [TYPE_BOOLEAN] _ (by simpa using hdrop1) (by simp)
      simpa using this
    have hcstr : readCString? data (off + 1) = some (k, off + 1 + k.length + 1) :=
      readCString?_of_drop _ _ _ _ hdropk hknz
    have hdropval : data.drop (off + 1 + k.length + 1)
        = (if bo then 1 else 0) :: (serializeElems rest ++ post) := by
      have := drop_shift data (off + 1) (k.length + 1) (k ++ [0]) _
        (by simpa [List.append_assoc] using hdropk) (by simp)
      simpa [Nat.add_assoc] using this
    have hreadv : data[off + 1 + k.length + 1]? = some (if bo then 1 else 0) :=
      get?_of_drop _ _ _ _ hdropval
    have hdroprest : data.drop (off + 1 + k.length + 1 + 1)
        = serializeElems rest ++ post := by
      have := drop_shift data (off + 1 + k.length + 1) 1 [if bo then 1 else 0] _
        (by simpa using hdropval) (by simp)
      simpa using this
    have hbeq : (((if bo then 1 else 0 : Nat) == 1) : Bool) = bo := by
      cases bo <;> rfl
    have hacchead : ∀ ka ∈ keysOf acc, keyLt ka k = true := by
      intro ka hka
      exact hacc ka hka k (by simp [keysOf])
    have hadd : addElem acc k (.vbool bo) = appendElems acc (.cons k (.vbool bo) .nil) :=
      addElem_append acc k _ hacchead
    have hacc2 : ∀ ka ∈ keysOf (addElem acc k (.vbool bo)),
        ∀ kb ∈ keysOf rest, keyLt ka kb = true := by
      intro ka hka kb hkb
      rw [hadd, keysOf_append] at hka
      rcases List.mem_append.mp hka with h | h
      · exact hacc ka h kb (by simp [keysOf, hkb])
      · simp [keysOf] at h
        subst h
        exact List.all_eq_true.mp hord kb hkb
    have ih := roundElems rest (addElem acc k (.vbool bo)) data post
      (off + 1 + k.length + 1 + 1) f hrest (by omega) hdroprest hacc2
    have hstopeq : off + (serializeElems (.cons k (.vbool bo) rest)).length
        = off + 1 + k.length + 1 + 1 + (serializeElems rest).length := by
      simp [serializeElems, serializeField, appendCString]
      omega
    have hfinal : appendElems (addElem acc k (.vbool bo)) rest
        = appendElems acc (.cons k (.vbool bo) rest) := by
      rw [hadd, appendElems_assoc]
      rfl
    rw [hstopeq]
    simp only [parseFields]
    rw [if_pos (by omega)]
    rw [hget]
    norm_num [TYPE_BOOLEAN, TYPE_INT32, TYPE_INT64, TYPE_DOUBLE, TYPE_STRING]
    rw [hcstr]
    norm_num
    rw [hreadv]
    simp only [hbeq]
    rw [ih, hfinal]
  | .cons k (.vdoc sub) rest => by
    intro acc data post off fuel hwf hfuel hdrop hacc
    simp only [wfElems, Bool.and_eq_true] at hwf
    obtain ⟨⟨⟨hk, hv⟩, hord⟩, hrest⟩ := hwf
    have hknz : ∀ b ∈ k, b ≠ 0 := by
      intro b hbk
      have := List.all_eq_true.mp hk b hbk
      simp at this
      exact this.1
    have hsubwf : wfElems sub = true := by
      simp [wfValue, Bool.and_eq_true] at hv
      exact hv.1
    have hsubsz : (serializeElems sub).length + 5 < 2 ^ 31 := by
      simp [wfValue, Bool.and_eq_true] at hv
      exact hv.2
    obtain ⟨f, rfl⟩ : ∃ f, fuel = f + 1 :=
      ⟨fuel - 1, by simp [elemsFuel] at hfuel; omega⟩
    have hfuel' : valueFuel (.vdoc sub) + elemsFuel rest ≤ f := by
      have h1 : elemsFuel (.cons k (.vdoc sub) rest)
          = 1 + valueFuel (.vdoc sub) + elemsFuel rest := rfl
      omega
    have hdrop1 : data.drop off
        = TYPE_DOCUMENT :: (k ++ 0 :: (leBytes 4 ((serializeElems sub).length + 5)
            ++ (serializeElems sub ++ 0 :: (serializeElems rest ++ post)))) := by
      rw [hdrop]
      simp [serializeElems, serializeField, appendCString, wrapBody, List.append_assoc]
    have hget : data[off]? = some TYPE_DOCUMENT := get?_of_drop _ _ _ _ hdrop1
    have hdropk : data.drop (off + 1)
        = k ++ 0 :: (leBytes 4 ((serializeElems sub).length + 5)
            ++ (serializeElems sub ++ 0 :: (serializeElems rest ++ post))) := by
      have := drop_shift data off 1 [TYPE_DOCUMENT] _ (by simpa using hdrop1) (by simp)
      simpa using this
    have hcstr : readCString? data (off + 1) = some (k, off + 1 + k.length + 1) :=
      readCString?_of_drop _ _ _ _ hdropk hknz
    have hdropval : data.drop (off + 1 + k.length + 1)
        = leBytes 4 ((serializeElems sub).length + 5)
            ++ (serializeElems sub ++ 0 :: (serializeElems rest ++ post)) := by
      have := drop_shift data (off + 1) (k.length + 1) (k ++ [0]) _
        (by simpa [List.append_assoc] using hdropk) (by simp)
      simpa [Nat.add_assoc] using this
    have hreadlen : readLE? data (off + 1 + k.length + 1) 4
        = some ((serializeElems sub).length + 5) := by
      have := readLE?_of_drop data (off + 1 + k.length + 1)
        (leBytes 4 ((serializeElems sub).length + 5)) _ hdropval
      rw [leBytes_length] at this
      rw [this, leVal_leBytes]
      congr 1
      exact Nat.mod_eq_of_lt (by norm_num; omega)
    have hLs : int32ToSizeT ((serializeElems sub).length + 5)
        = (serializeElems sub).length + 5 := by
      simp only [int32ToSizeT]
      rw [if_pos (by omega)]
    have hserlen : (serialize sub).length = (serializeElems sub).length + 5 := by
      simp [serialize, wrapBody, leBytes_length]
      omega
    have hdropsub : data.drop (off + 1 + k.length + 1)
        = serialize sub ++ (serializeElems rest ++ post) := by
      rw [hdropval]
      simp [serialize, wrapBody, List.append_assoc]
    have hdes : deserializeAux f (data.drop (off + 1 + k.length + 1))
        (int32ToSizeT ((serializeElems sub).length + 5)) = some sub := by
      rw [hLs, ← hserlen, hdropsub]
      have hvf : valueFuel (.vdoc sub) = 1 + elemsFuel sub := rfl
      exact roundDoc_of_roundElems sub (roundElems sub) _ f hsubwf hsubsz (by omega)
    have hdroprest : data.drop (off + 1 + k.length + 1 + ((serializeElems sub).length + 5))
        = serializeElems rest ++ post := by
      have := drop_shift data (off + 1 + k.length + 1) ((serializeElems sub).length + 5)
        (serialize sub) _ hdropsub hserlen.symm
      simpa using this
    have hacchead : ∀ ka ∈ keysOf acc, keyLt ka k = true := by
      intro ka hka
      exact hacc ka hka k (by simp [keysOf])
    have hadd : addElem acc k (.vdoc sub) = appendElems acc (.cons k (.vdoc sub) .nil) :=
      addElem_append acc k _ hacchead
    have hacc2 : ∀ ka ∈ keysOf (addElem acc k (.vdoc sub)),
        ∀ kb ∈ keysOf rest, keyLt ka kb = true := by
      intro ka hka kb hkb
      rw [hadd, keysOf_append] at hka
      rcases List.mem_append.mp hka with h | h
      · exact hacc ka h kb (by simp [keysOf, hkb])
      · simp [keysOf] at h
        subst h
        exact List.all_eq_true.mp hord kb hkb
    have ih := roundElems rest (addElem acc k (.vdoc sub)) data post
      (off + 1 + k.length + 1 + ((serializeElems sub).length + 5)) f hrest
      (by omega) hdroprest hacc2
    have hstopeq : off + (serializeElems (.cons k (.vdoc sub) rest)).length
        = off + 1 + k.length + 1 + ((serializeElems sub).length + 5)
            + (serializeElems rest).length := by
      simp [serializeElems, serializeField, appendCString, wrapBody, leBytes_length]
      omega
    have hfinal : appendElems (addElem acc k (.vdoc sub)) rest
        = appendElems acc (.cons k (.vdoc sub) rest) := by
      rw [hadd, appendElems_assoc]
      rfl
    rw [hstopeq]
    simp only [parseFields]
    rw [if_pos (by omega)]
    rw [hget]
    norm_num [TYPE_DOCUMENT, TYPE_INT32, TYPE_INT64, TYPE_DOUBLE, TYPE_STRING, TYPE_BOOLEAN]
    rw [hcstr]
    norm_num
    rw [hreadlen]
    simp only []
    rw [hdes]
    simp only []
    rw [hLs, ih, hfinal]
  | .cons k .vnull rest => by
    intro acc data post off fuel hwf hfuel hdrop hacc
    simp [wfElems, wfValue] at hwf

theorem elemsFuel_le : (es : BsonElems) → wfElems es = true →
    elemsFuel es ≤ (serializeElems es).length + 1
  | .nil, _ => by simp [elemsFuel, serializeElems]
  | .cons k v rest, hwf => by
    simp only [wfElems, Bool.and_eq_true] at hwf
    obtain ⟨⟨⟨hk, hv⟩, hord⟩, hrest⟩ := hwf
    have hr := elemsFuel_le rest hrest
    have h1 : elemsFuel (.cons k v rest) = 1 + valueFuel v + elemsFuel rest := rfl
    have h2 : (serializeElems (.cons k v rest)).length
        = (serializeField k v).length + (serializeElems rest).length := by
      simp [serializeElems]
    cases v with
    | vnull => simp [wfValue] at hv
    | vdoc sub =>
      have hs := elemsFuel_le sub (by
        simp [wfValue, Bool.and_eq_true] at hv
        exact hv.1)
      have h3 : valueFuel (.vdoc sub) = 1 + elemsFuel sub := rfl
      have h4 : (serializeField k (.vdoc sub)).length
          = k.length + (serializeElems sub).length + 7 := by
        simp [serializeField, appendCString, wrapBody, leBytes_length]
        omega
      omega
    | vdouble b =>
      have h3 : valueFuel (.vdouble b) = 0 := rfl
      have h4 : 0 < (serializeField k (.vdouble b)).length := by simp [serializeField]
      omega
    | vstring s =>
      have h3 : valueFuel (.vstring s) = 0 := rfl
      have h4 : 0 < (serializeField k (.vstring s)).length := by simp [serializeField]
      omega
    | vbool b =>
      have h3 : valueFuel (.vbool b) = 0 := rfl
      have h4 : 0 < (serializeField k (.vbool b)).length := by simp [serializeField]
      omega
    | vint32 n =>
      have h3 : valueFuel (.vint32 n) = 0 := rfl
      have h4 : 0 < (serializeField k (.vint32 n)).length := by simp [serializeField]
      omega
    | vint64 n =>
      have h3 : valueFuel (.vint64 n) = 0 := rfl
      have h4 : 0 < (serializeField k (.vint64 n)).length := by simp [serializeField]
      omega

/-- C1, amended.  For every document whose element list is well formed in the
`std::map` sense — keys are NUL-free byte strings in strictly ascending
order — and whose values use the supported types EXCEPT null (doubles viewed
as their 8-byte in-memory images), with the serialized image smaller than the
`int32_t` bound, serializing with `BsonSerializer::Serialize` and
deserializing the bytes with `BsonSerializer::Deserialize` yields a document
equal to the original, with the same fields, types and values.  Null-valued
fields are excluded because `Serialize` has no branch for `nullptr_t` and
silently drops them (see the counterexample). -/
theorem C1_serialize_roundtrip (d : BsonElems) (hwf : wfElems d = true)
    (hsz : (BsonSerializer.serialize d).length < 2 ^ 31) :
    BsonSerializer.deserialize (BsonSerializer.serialize d) = some d := by
  have h1 : (serialize d).length = (serializeElems d).length + 5 := by
    simp [serialize, wrapBody, leBytes_length]
    omega
  have hfb := elemsFuel_le d hwf
  have hmain := roundDoc_of_roundElems d (roundElems d) []
    ((serialize d).length + 1) hwf (by omega) (by omega)
  unfold BsonSerializer.deserialize
  simpa using hmain

/-- C1, counterexample to the claim as stated: the document with the single
null-valued field `"a"` serializes to the empty-document image (the
serializer has no branch for `nullptr_t`), so deserialization yields the
empty document, not a document equal to the original. -/
theorem C1_counterexample :
    BsonSerializer.deserialize
        (BsonSerializer.serialize (.cons [97] .vnull .nil)) = some .nil ∧
      BsonElems.nil ≠ BsonElems.cons [97] BsonValue.vnull BsonElems.nil := by
  refine ⟨rfl, by decide⟩

theorem C1_serialize_roundtrip_witness :
    wfElems c1SampleDoc = true ∧
      BsonSerializer.deserialize (BsonSerializer.serialize c1SampleDoc)
        = some c1SampleDoc :=
  ⟨by decide, C1_serialize_roundtrip c1SampleDoc (by decide) (by decide)⟩

theorem slotted_update_missing (p : SlottedPage) (sid : Nat) (r : List Nat) (len : Nat)
    (h : p.slots.length ≤ sid ∨ (p.slots.getD sid ⟨0, 0⟩).length = 0) :
    SlottedPage.updateRecord p sid r len = (p, false) := by
  unfold SlottedPage.updateRecord
  rcases h with h | h
  · rw [if_neg (by omega)]
  · by_cases hs : sid < p.slots.length
    · rw [if_pos hs]
      dsimp only
      rw [if_pos h]
    · rw [if_neg hs]

theorem slotted_delete_missing (p : SlottedPage) (sid : Nat)
    (h : p.slots.length ≤ sid ∨ (p.slots.getD sid ⟨0, 0⟩).length = 0) :
    SlottedPage.deleteRecord p sid = (p, false) := by
  unfold SlottedPage.deleteRecord
  rcases h with h | h
  · rw [if_neg (by omega)]
  · by_cases hs : sid < p.slots.length
    · rw [if_pos hs, if_pos h]
    · rw [if_neg hs]

/-- C2, amended.  For every record id that names a missing record (an
out-of-range slot or a tombstoned slot), heap-file delete returns `false` and
leaves the heap file unchanged; heap-file update, however, does NOT return
false: the in-place slotted update fails, the subsequent delete is a no-op,
and the document is inserted as a fresh record, so the call behaves exactly
like `insert(doc)` and returns the new record id. -/
theorem C2_update_delete_missing_rid (st : HeapState) (rid : RecordID)
    (doc : BsonElems) (h : ridMissing st rid) :
    heapDeleteRecord st rid = (st, false) ∧
      heapUpdateRecord st rid doc = heapInsertRecord st doc := by
  have hdel : heapDeleteRecord st rid = (st, false) := by
    simp only [heapDeleteRecord, slotted_delete_missing _ _ h]
    simp
  refine ⟨hdel, ?_⟩
  simp only [heapUpdateRecord, slotted_update_missing _ _ _ _ h, hdel]
  simp

/-- C2, counterexample to the claim as stated: updating the missing record
id (1, 0) does not fail — it inserts the document as a fresh record on a
newly allocated page and returns record id (2, 0) — and the heap file is
changed by the call. -/
theorem C2_counterexample :
    (heapUpdateRecord c2State c2Rid c2Doc).isOk = true ∧
      (Except.toOption (heapUpdateRecord c2State c2Rid c2Doc)).map Prod.snd
        = some ⟨2, 0⟩ ∧
      (Except.toOption (heapUpdateRecord c2State c2Rid c2Doc)).map Prod.fst
        ≠ some c2State := by
  refine ⟨by decide, by decide, by decide⟩

theorem C2_update_delete_missing_rid_witness :
    ridMissing c2State c2Rid ∧
      heapDeleteRecord c2State c2Rid = (c2State, false) ∧
      heapUpdateRecord c2State c2Rid c2Doc = heapInsertRecord c2State c2Doc :=
  ⟨by decide,
    (C2_update_delete_missing_rid c2State c2Rid c2Doc (by decide)).1,
    (C2_update_delete_missing_rid c2State c2Rid c2Doc (by decide)).2⟩

theorem lookup_setPages (ps : List (Int × SlottedPage)) (pid : Int)
    (pg : SlottedPage) : (setPages ps pid pg).lookup pid = some pg := by
  induction ps with
  | nil => simp [setPages, List.lookup]
  | cons hd rest ih =>
    obtain ⟨q, e⟩ := hd
    by_cases hq : q = pid
    · simp [setPages, hq, List.lookup]
    · have hbe : (pid == q) = false := by
        simp only [beq_eq_false_iff_ne]
        exact fun h => hq h.symm
      simp [setPages, if_neg hq, List.lookup, hbe, ih]

theorem fetchPage_setPages (ps : List (Int × SlottedPage)) (st : HeapState)
    (pid : Int) (pg : SlottedPage)
    (h : st.pages = setPages ps pid pg) : fetchPage st pid = pg := by
  simp [fetchPage, h, lookup_setPages]

theorem fsmUpdate_length (fsm : List Nat) (pid : Int) (b : Nat) :
    (fsmUpdateFreeSpace fsm pid b).length = fsm.length := by
  unfold fsmUpdateFreeSpace
  split
  · exact List.length_set fsm _ _
  · rfl

theorem fsmUpdate_getD (fsm : List Nat) (pid : Int) (b : Nat)
    (h0 : 0 ≤ pid) (h1 : pid < (fsm.length : Int)) :
    (fsmUpdateFreeSpace fsm pid b).getD pid.toNat 0
      = FreeSpaceMap.bytesToCategory b := by
  have hlt : pid.toNat < fsm.length := by
    have h2 := Int.toNat_of_nonneg h0
    omega
  unfold fsmUpdateFreeSpace
  rw [if_pos ⟨h0, h1⟩]
  rw [List.getD_eq_getElem?_getD]
  rw [List.getElem?_set_self hlt]
  rfl

theorem findLoop_range (cat : Nat) (l : List Nat) (i : Nat) :
    FreeSpaceMap.findLoop cat l i = INVALID_PAGE_ID ∨
      ((i : Int) ≤ FreeSpaceMap.findLoop cat l i ∧
        FreeSpaceMap.findLoop cat l i < ((i + l.length : Nat) : Int)) := by
  induction l generalizing i with
  | nil => left; rfl
  | cons b rest ih =>
    by_cases hb : cat ≤ b ∧ 0 < b
    · right
      simp only [FreeSpaceMap.findLoop, if_pos hb, List.length_cons]
      constructor
      · omega
      · push_cast
        omega
    · simp only [FreeSpaceMap.findLoop, if_neg hb, List.length_cons]
      rcases ih (i + 1) with h | ⟨hlo, hhi⟩
      · left; exact h
      · right
        constructor
        · push_cast at hlo ⊢
          omega
        · push_cast at hhi ⊢
          omega

theorem heapInsertFinish_fsm (st : HeapState) (target : Int) (pg : SlottedPage)
    (h0 : 0 ≤ target) (h1 : target < (st.fsm.length : Int)) :
    (heapInsertFinish st target pg).fsm.getD target.toNat 0
        = FreeSpaceMap.bytesToCategory
            (SlottedPage.getFreeSpace (fetchPage (heapInsertFinish st target pg) target)) := by
  have hfetch : fetchPage (heapInsertFinish st target pg) target = pg := by
    apply fetchPage_setPages st.pages
    simp [heapInsertFinish, setPage]
  rw [hfetch]
  have : (heapInsertFinish st target pg).fsm
      = fsmUpdateFreeSpace st.fsm target (SlottedPage.getFreeSpace pg) := by
    simp [heapInsertFinish, setPage]
  rw [this]
  exact fsmUpdate_getD st.fsm target _ h0 h1

theorem allocate_facts (st : HeapState) :
    (allocateNewPage st).2 = st.nextPageId ∧
    (allocateNewPage st).1.fsm.length = st.fsm.length ∧
    (allocateNewPage st).1.nextPageId = st.nextPageId + 1 ∧
    fetchPage (allocateNewPage st).1 st.nextPageId = SlottedPage.init PAGE_SIZE := by
  refine ⟨rfl, ?_, rfl, ?_⟩
  · simp [allocateNewPage, fsmUpdate_length]
  · apply fetchPage_setPages st.pages
    simp [allocateNewPage]

/-- C7 (confirmed).  Heap-file insert serializes the document, asks the FSM
for room for `record_len + sizeof(SlotEntry)` bytes and, when the slotted
insert on the target page returns `-1` (stale FSM entry), allocates a new
page and retries exactly once: an error is reported — with the
record-too-large message — exactly when that retry on a freshly initialized
page also returns `-1`; after a successful insert the FSM entry of the page
named by the returned rid holds the category of that page's remaining free
space.  The hypotheses say the disk manager's next page id is in range of
the first FSM page, as it is for any database below 4096 pages. -/
theorem C7_heapInsert_retry_and_fsm (st : HeapState) (doc : BsonElems)
    (h0 : 0 ≤ st.nextPageId)
    (h1 : st.nextPageId + 1 < (st.fsm.length : Int)) :
    (∀ e, heapInsertRecord st doc = .error e →
        e = "HeapFile: Record too large for a single page" ∧
        (SlottedPage.insertRecord (SlottedPage.init PAGE_SIZE)
            (BsonSerializer.serialize doc)
            ((BsonSerializer.serialize doc).length % 2 ^ 16)).2 = -1) ∧
    (∀ st' rid, heapInsertRecord st doc = .ok (st', rid) →
        st'.fsm.getD rid.page_id.toNat 0
          = FreeSpaceMap.bytesToCategory
              (SlottedPage.getFreeSpace (fetchPage st' rid.page_id))) := by
  obtain ⟨ha2, ha_len, ha_next, ha_fetch⟩ := allocate_facts st
  set data := BsonSerializer.serialize doc with hdata
  set record_len := data.length % 2 ^ 16 with hrl
  set total_needed := (record_len + SLOT_ENTRY_SIZE) % 2 ^ 16 with htn
  set t := FreeSpaceMap.findPageWithSpace st.fsm total_needed with ht
  -- the chosen first-attempt state and target
  have halloc : ∀ (a : HeapState × Int),
      a = (if t = INVALID_PAGE_ID then allocateNewPage st else (st, t)) →
      0 ≤ a.2 ∧ a.2 < (a.1.fsm.length : Int) ∧ a.1.fsm.length = st.fsm.length ∧
        (a.1.nextPageId = st.nextPageId ∨ a.1.nextPageId = st.nextPageId + 1) := by
    intro a ha
    by_cases hinv : t = INVALID_PAGE_ID
    · rw [if_pos hinv] at ha
      subst ha
      refine ⟨by rw [ha2]; exact h0, ?_, ha_len, Or.inr ha_next⟩
      rw [ha2, ha_len]
      omega
    · rw [if_neg hinv] at ha
      subst ha
      rcases findLoop_range (FreeSpaceMap.bytesToCategory total_needed) st.fsm 0 with h | ⟨hlo, hhi⟩
      · exact absurd h hinv
      · refine ⟨by simpa using hlo, by simpa using hhi, rfl, Or.inl rfl⟩
  simp only [heapInsertRecord]
  rw [← hdata, ← hrl, ← htn, ← ht]
  set alloc := (if t = INVALID_PAGE_ID then allocateNewPage st else (st, t)) with halloceq
  obtain ⟨hb0, hb1, hblen, hbnext⟩ := halloc alloc halloceq
  obtain ⟨hc2, hc_len, hc_next, hc_fetch⟩ := allocate_facts alloc.1
  set ins := SlottedPage.insertRecord (fetchPage alloc.1 alloc.2) data record_len with hins
  set ins2 := SlottedPage.insertRecord
    (fetchPage (allocateNewPage alloc.1).1 (allocateNewPage alloc.1).2) data record_len
    with hins2
  have hfresh : ins2 = SlottedPage.insertRecord (SlottedPage.init PAGE_SIZE) data record_len := by
    rw [hins2, hc2, hc_fetch]
  constructor
  · intro e herr
    by_cases hi1 : ins.2 = -1
    · rw [if_pos hi1] at herr
      by_cases hi2 : ins2.2 = -1
      · rw [if_pos hi2] at herr
        refine ⟨?_, ?_⟩
        · injection herr with h
          exact h.symm
        · rw [← hfresh]
          exact hi2
      · rw [if_neg hi2] at herr
        exact absurd herr (by simp)
    · rw [if_neg hi1] at herr
      exact absurd herr (by simp)
  · intro st' rid hok
    by_cases hi1 : ins.2 = -1
    · rw [if_pos hi1] at hok
      by_cases hi2 : ins2.2 = -1
      · rw [if_pos hi2] at hok
        exact absurd hok (by simp)
      · rw [if_neg hi2] at hok
        injection hok with hpair
        have hst' : st' = heapInsertFinish (allocateNewPage alloc.1).1
            (allocateNewPage alloc.1).2 ins2.1 := (congrArg Prod.fst hpair).symm
        have hrid : rid = ⟨(allocateNewPage alloc.1).2, ins2.2.toNat⟩ :=
          (congrArg Prod.snd hpair).symm
        subst hst'
        subst hrid
        apply heapInsertFinish_fsm
        · rw [hc2]
          rcases hbnext with h | h <;> rw [h] <;> omega
        · rw [hc2, hc_len, hblen]
          rcases hbnext with h | h <;> rw [h] <;> omega
    · rw [if_neg hi1] at hok
      injection hok with hpair
      have hst' : st' = heapInsertFinish alloc.1 alloc.2 ins.1 :=
        (congrArg Prod.fst hpair).symm
      have hrid : rid = ⟨alloc.2, ins.2.toNat⟩ := (congrArg Prod.snd hpair).symm
      subst hst'
      subst hrid
      apply heapInsertFinish_fsm
      · exact hb0
      · exact hb1

theorem C7_heapInsert_retry_and_fsm_witness :
    (0 ≤ c2State.nextPageId ∧ c2State.nextPageId + 1 < (c2State.fsm.length : Int)) ∧
    (∀ st' rid, heapInsertRecord c2State c2Doc = .ok (st', rid) →
        st'.fsm.getD rid.page_id.toNat 0
          = FreeSpaceMap.bytesToCategory
              (SlottedPage.getFreeSpace (fetchPage st' rid.page_id))) :=
  ⟨⟨by decide, by decide⟩,
    (C7_heapInsert_retry_and_fsm c2State c2Doc (by decide) (by decide)).2⟩

theorem lookup_append_none {α β : Type} [BEq α] (l1 l2 : List (α × β)) (a : α)
    (h : l1.lookup a = none) : (l1 ++ l2).lookup a = l2.lookup a := by
  induction l1 with
  | nil => rfl
  | cons hd rest ih =>
    obtain ⟨x, y⟩ := hd
    simp only [List.lookup] at h ⊢
    cases hxe : (a == x) with
    | true => rw [hxe] at h; simp at h
    | false =>
      rw [hxe] at h
      simpa using ih h

theorem dirtyInsert_lookup_self (dp : List (Int × Int)) (p l : Int) :
    (dirtyInsert dp p l).lookup p = (dp.lookup p).or (some l) := by
  unfold dirtyInsert
  cases h : dp.lookup p with
  | some v => simp [h]
  | none =>
    simp only [h, Option.isSome_none, Bool.false_eq_true, if_false, Option.none_or]
    rw [lookup_append_none dp _ p h]
    simp [List.lookup]

theorem dirtyInsert_lookup_other (dp : List (Int × Int)) (p l q : Int)
    (h : q ≠ p) : (dirtyInsert dp p l).lookup q = dp.lookup q := by
  unfold dirtyInsert
  cases hs : (dp.lookup p).isSome with
  | true => simp
  | false =>
    simp only [Bool.false_eq_true, if_false]
    cases hq : dp.lookup q with
    | some v => simp [List.lookup_append, hq]
    | none =>
      rw [lookup_append_none dp _ q hq]
      simp [List.lookup, beq_eq_false_iff_ne.mpr h]

theorem analysis_dpt_aux (records : List LogRecord)
    (acc : List Int × List (Int × Int)) (p : Int) (hp : p ≠ INVALID_PAGE_ID) :
    ((records.foldl analysisStep acc).2).lookup p
      = (acc.2.lookup p).or ((records.find? (touchesPage p)).map LogRecord.lsn) := by
  induction records generalizing acc with
  | nil => simp
  | cons r rest ih =>
    rw [List.foldl_cons, ih]
    by_cases hb : r.type = LOG_BEGIN
    · have hpred : touchesPage p r = false := by
        simp [touchesPage, hb, LOG_BEGIN, LOG_INSERT, LOG_DELETE, LOG_UPDATE]
      simp [analysisStep, hb, List.find?, hpred]
    · by_cases hc : r.type = LOG_COMMIT ∨ r.type = LOG_ABORT
      · have hpred : touchesPage p r = false := by
          rcases hc with hc | hc <;>
            simp [touchesPage, hc, LOG_COMMIT, LOG_ABORT, LOG_INSERT, LOG_DELETE, LOG_UPDATE]
        simp [analysisStep, hb, hc, List.find?, hpred]
      · by_cases hd : r.type = LOG_INSERT ∨ r.type = LOG_DELETE ∨ r.type = LOG_UPDATE
        · have htype : (r.type == LOG_INSERT || r.type == LOG_DELETE
              || r.type == LOG_UPDATE) = true := by
            rcases hd with h | h | h <;> simp [h]
          by_cases hpp : r.page_id = p
          · have hpv : r.page_id ≠ INVALID_PAGE_ID := by rw [hpp]; exact hp
            have hpred : touchesPage p r = true := by
              simp [touchesPage, htype, hpp]
            simp only [analysisStep, if_neg hb, if_neg hc, if_pos hd, if_pos hpv,
              List.find?, hpred]
            rw [hpp, dirtyInsert_lookup_self]
            cases acc.2.lookup p <;> simp
          · have hpred : touchesPage p r = false := by
              simp [touchesPage, hpp]
            by_cases hpv : r.page_id ≠ INVALID_PAGE_ID
            · simp only [analysisStep, if_neg hb, if_neg hc, if_pos hd, if_pos hpv,
                List.find?, hpred]
              rw [dirtyInsert_lookup_other _ _ _ _ (fun h => hpp h.symm)]
            · simp only [analysisStep, if_neg hb, if_neg hc, if_pos hd, if_neg hpv,
                List.find?, hpred]
        · have hpred : touchesPage p r = false := by
            have h3 : (r.type == LOG_INSERT) = false := by
              simp [LOG_INSERT]; intro h; exact hd (Or.inl h)
            have h4 : (r.type == LOG_DELETE) = false := by
              simp [LOG_DELETE]; intro h; exact hd (Or.inr (Or.inl h))
            have h5 : (r.type == LOG_UPDATE) = false := by
              simp [LOG_UPDATE]; intro h; exact hd (Or.inr (Or.inr h))
            simp [touchesPage, h3, h4, h5]
          simp [analysisStep, hb, hc, hd, List.find?, hpred]

theorem analysis_no_invalid_aux (records : List LogRecord)
    (acc : List Int × List (Int × Int))
    (h : acc.2.lookup INVALID_PAGE_ID = none) :
    ((records.foldl analysisStep acc).2).lookup INVALID_PAGE_ID = none := by
  induction records generalizing acc with
  | nil => exact h
  | cons r rest ih =>
    rw [List.foldl_cons]
    apply ih
    unfold analysisStep
    split
    · exact h
    · split
      · exact h
      · split
        · dsimp only
          split
          · rw [dirtyInsert_lookup_other _ _ _ _ (by omega)]
            exact h
          · exact h
        · exact h

theorem redoStep_flag (dp : List (Int × Int)) (pages : List (Int × SlottedPage))
    (r : LogRecord) (hdp : dp.lookup INVALID_PAGE_ID = none) :
    (redoStep dp pages r).2
      = (claimedRedoPred dp r &&
          (r.type == LOG_DELETE || !r.after_image.isEmpty)) := by
  unfold redoStep claimedRedoPred
  split
  · rename_i hty
    have h3 : (r.type == LOG_INSERT) = false := by
      simp only [beq_eq_false_iff_ne, ne_eq]
      exact fun h => hty (Or.inl h)
    have h4 : (r.type == LOG_DELETE) = false := by
      simp only [beq_eq_false_iff_ne, ne_eq]
      exact fun h => hty (Or.inr (Or.inl h))
    have h5 : (r.type == LOG_UPDATE) = false := by
      simp only [beq_eq_false_iff_ne, ne_eq]
      exact fun h => hty (Or.inr (Or.inr h))
    simp [h3, h4, h5]
  · rename_i hty
    rw [not_not] at hty
    have htype : (r.type == LOG_INSERT || r.type == LOG_DELETE
        || r.type == LOG_UPDATE) = true := by
      rcases hty with h | h | h <;> simp [h]
    split
    · rename_i hpv
      rw [hpv, hdp]
      simp [htype]
    · rename_i hpv
      split
      · rename_i heq
        simp [heq, htype]
      · rename_i rec heq
        simp only [heq, htype, Bool.true_and]
        by_cases hlsn : r.lsn < rec
        · rw [if_pos hlsn]
          simp [Int.not_le.mpr hlsn]
        · rw [if_neg hlsn]
          simp only [decide_eq_true (Int.not_lt.mp hlsn), Bool.true_and]
          by_cases hins : r.type = LOG_INSERT
          · by_cases hai : r.after_image = [] <;>
              simp [hins, hai, LOG_INSERT, LOG_DELETE, List.isEmpty_iff]
          · rw [if_neg hins]
            by_cases hdel : r.type = LOG_DELETE
            · simp [hdel, LOG_DELETE]
            · rw [if_neg hdel]
              have hdel2 : (r.type == LOG_DELETE) = false := by simpa using hdel
              by_cases hai : r.after_image = [] <;>
                simp [hdel2, hai, List.isEmpty_iff]

theorem redoPhase_aux (records : List LogRecord) (dp : List (Int × Int))
    (pages : List (Int × SlottedPage)) (acc : List LogRecord)
    (hdp : dp.lookup INVALID_PAGE_ID = none) :
    (records.foldl
        (fun acc r =>
          let step := redoStep dp acc.1 r
          (step.1, acc.2 ++ if step.2 then [r] else []))
        (pages, acc)).2
      = acc ++ records.filter
          (fun r => claimedRedoPred dp r &&
            (r.type == LOG_DELETE || !r.after_image.isEmpty)) := by
  induction records generalizing pages acc with
  | nil => simp
  | cons r rest ih =>
    rw [List.foldl_cons]
    dsimp only
    rw [ih, redoStep_flag dp pages r hdp, List.filter_cons]
    by_cases hc : (claimedRedoPred dp r &&
        (r.type == LOG_DELETE || !r.after_image.isEmpty)) = true
    · simp [hc]
    · simp [hc]

/-- C4, amended.  Over the record list read at recovery, the redo phase
re-applies exactly those INSERT/DELETE/UPDATE records whose page is present
in the dirty-page table computed by the analysis phase with `lsn ≥` that
page's rec-lsn AND which, for INSERT and UPDATE, carry a non-empty
after-image (the code skips empty-image records).  The dirty-page table
maps each valid touched page to the lsn of the first INSERT/DELETE/UPDATE
record of the forward sweep for that page. -/
theorem C4_redo_applies (records : List LogRecord)
    (pages : List (Int × SlottedPage)) :
    (redoPhase records (analysisPhase records).2 pages).2
      = records.filter
          (fun r => claimedRedoPred (analysisPhase records).2 r &&
            (r.type == LOG_DELETE || !r.after_image.isEmpty)) ∧
    ∀ p, p ≠ INVALID_PAGE_ID →
      ((analysisPhase records).2).lookup p
        = ((records.find? (touchesPage p)).map LogRecord.lsn) := by
  have hdp : ((analysisPhase records).2).lookup INVALID_PAGE_ID = none :=
    analysis_no_invalid_aux records ([], []) rfl
  constructor
  · exact redoPhase_aux records _ pages [] hdp
  · intro p hp
    have := analysis_dpt_aux records ([], []) p hp
    simpa using this

/-- C4, counterexample to the claim as stated: a single INSERT record with
an empty after-image.  Its page 5 is in the dirty-page table with rec-lsn 0
and its lsn 0 is ≥ 0, so the claim says the redo phase re-applies it; the
code skips it (`if (!record.after_image.empty())`), re-applying nothing. -/
theorem C4_counterexample :
    (analysisPhase [c4BadRecord]).2 = [(5, 0)] ∧
      claimedRedoPred (analysisPhase [c4BadRecord]).2 c4BadRecord = true ∧
      (redoPhase [c4BadRecord] (analysisPhase [c4BadRecord]).2 []).2 = [] := by
  refine ⟨by decide, by decide, by decide⟩

theorem C4_redo_applies_witness :
    (5 : Int) ≠ INVALID_PAGE_ID ∧
      ((analysisPhase [c4BadRecord]).2).lookup 5
        = (([c4BadRecord].find? (touchesPage 5)).map LogRecord.lsn) :=
  ⟨by decide, (C4_redo_applies [c4BadRecord] []).2 5 (by decide)⟩

theorem int64_bits_roundtrip (x : Int) (h1 : -(2 ^ 63) ≤ x) (h2 : x < 2 ^ 63) :
    int64OfBits (bitsOfInt64 x) = x := by
  simp only [int64OfBits, bitsOfInt64]
  split <;> omega

theorem int32_bits_roundtrip (x : Int) (h1 : -(2 ^ 31) ≤ x) (h2 : x < 2 ^ 31) :
    int32OfBits (bitsOfInt32 x) = x := by
  simp only [int32OfBits, bitsOfInt32]
  split <;> omega

theorem serializeLogRecord_length (r : LogRecord) :
    (serializeLogRecord r).length
      = 43 + r.before_image.length + r.after_image.length := by
  simp [serializeLogRecord, BsonSerializer.leBytes_length, List.length_append,
    List.length_cons]
  omega

theorem deserializeLog_of_drop (data : List Nat) (off : Nat) (r : LogRecord)
    (tail : List Nat) (hwf : wfLogRecord r = true)
    (h : data.drop off = serializeLogRecord r ++ tail) :
    deserializeLogRecord data off
      = .ok (r, off + (serializeLogRecord r).length) := by
  simp only [wfLogRecord, Bool.and_eq_true, decide_eq_true_eq] at hwf
  obtain ⟨⟨⟨⟨⟨⟨⟨⟨⟨⟨⟨⟨⟨hl1, hl2⟩, ht1⟩, ht2⟩, hp1⟩, hp2⟩, hty⟩, hg1⟩, hg2⟩, hsl⟩,
    hbb⟩, hbl⟩, hab⟩, hal⟩ := hwf
  have hlen : (data.drop off).length = data.length - off := List.length_drop off data
  rw [h, List.length_append, serializeLogRecord_length] at hlen
  have hck : ¬(off + 4 > data.length) := by omega
  -- sequential reads
  have d0 : data.drop off
      = BsonSerializer.leBytes 4 (43 + r.before_image.length + r.after_image.length)
        ++ (BsonSerializer.leBytes 8 (bitsOfInt64 r.lsn)
        ++ (BsonSerializer.leBytes 8 (bitsOfInt64 r.txn_id)
        ++ (BsonSerializer.leBytes 8 (bitsOfInt64 r.prev_lsn)
        ++ (r.type
        :: (BsonSerializer.leBytes 4 (bitsOfInt32 r.page_id)
        ++ (BsonSerializer.leBytes 2 r.slot_id
        ++ (BsonSerializer.leBytes 4 r.before_image.length
        ++ (r.before_image
        ++ (BsonSerializer.leBytes 4 r.after_image.length
        ++ (r.after_image ++ tail)))))))))) := by
    rw [h]
    simp [serializeLogRecord, List.append_assoc]
  have d4 : data.drop (off + 4)
      = BsonSerializer.leBytes 8 (bitsOfInt64 r.lsn)
        ++ (BsonSerializer.leBytes 8 (bitsOfInt64 r.txn_id)
        ++ (BsonSerializer.leBytes 8 (bitsOfInt64 r.prev_lsn)
        ++ (r.type
        :: (BsonSerializer.leBytes 4 (bitsOfInt32 r.page_id)
        ++ (BsonSerializer.leBytes 2 r.slot_id
        ++ (BsonSerializer.leBytes 4 r.before_image.length
        ++ (r.before_image
        ++ (BsonSerializer.leBytes 4 r.after_image.length
        ++ (r.after_image ++ tail))))))))) :=
    BsonSerializer.drop_shift data off 4 _ _ d0 (BsonSerializer.leBytes_length 4 _).symm
  have d12 : data.drop (off + 12)
      = BsonSerializer.leBytes 8 (bitsOfInt64 r.txn_id)
        ++ (BsonSerializer.leBytes 8 (bitsOfInt64 r.prev_lsn)
        ++ (r.type
        :: (BsonSerializer.leBytes 4 (bitsOfInt32 r.page_id)
        ++ (BsonSerializer.leBytes 2 r.slot_id
        ++ (BsonSerializer.leBytes 4 r.before_image.length
        ++ (r.before_image
        ++ (BsonSerializer.leBytes 4 r.after_image.length
        ++ (r.after_image ++ tail)))))))) := by
    have := BsonSerializer.drop_shift data (off + 4) 8 _ _ d4
      (BsonSerializer.leBytes_length 8 _).symm
    simpa [Nat.add_assoc] using this
  have d20 : data.drop (off + 20)
      = BsonSerializer.leBytes 8 (bitsOfInt64 r.prev_lsn)
        ++ (r.type
        :: (BsonSerializer.leBytes 4 (bitsOfInt32 r.page_id)
        ++ (BsonSerializer.leBytes 2 r.slot_id
        ++ (BsonSerializer.leBytes 4 r.before_image.length
        ++ (r.before_image
        ++ (BsonSerializer.leBytes 4 r.after_image.length
        ++ (r.after_image ++ tail))))))) := by
    have := BsonSerializer.drop_shift data (off + 12) 8 _ _ d12
      (BsonSerializer.leBytes_length 8 _).symm
    simpa [Nat.add_assoc] using this
  have d28 : data.drop (off + 28)
      = r.type
        :: (BsonSerializer.leBytes 4 (bitsOfInt32 r.page_id)
        ++ (BsonSerializer.leBytes 2 r.slot_id
        ++ (BsonSerializer.leBytes 4 r.before_image.length
        ++ (r.before_image
        ++ (BsonSerializer.leBytes 4 r.after_image.length
        ++ (r.after_image ++ tail)))))) := by
    have := BsonSerializer.drop_shift data (off + 20) 8 _ _ d20
      (BsonSerializer.leBytes_length 8 _).symm
    simpa [Nat.add_assoc] using this
  have d29 : data.drop (off + 29)
      = BsonSerializer.leBytes 4 (bitsOfInt32 r.page_id)
        ++ (BsonSerializer.leBytes 2 r.slot_id
        ++ (BsonSerializer.leBytes 4 r.before_image.length
        ++ (r.before_image
        ++ (BsonSerializer.leBytes 4 r.after_image.length
        ++ (r.after_image ++ tail))))) := by
    have := BsonSerializer.drop_shift data (off + 28) 1 [r.type] _
      (by simpa using d28) (by simp)
    simpa [Nat.add_assoc] using this
  have d33 : data.drop (off + 33)
      = BsonSerializer.leBytes 2 r.slot_id
        ++ (BsonSerializer.leBytes 4 r.before_image.length
        ++ (r.before_image
        ++ (BsonSerializer.leBytes 4 r.after_image.length
        ++ (r.after_image ++ tail)))) := by
    have := BsonSerializer.drop_shift data (off + 29) 4 _ _ d29
      (BsonSerializer.leBytes_length 4 _).symm
    simpa [Nat.add_assoc] using this
  have d35 : data.drop (off + 35)
      = BsonSerializer.leBytes 4 r.before_image.length
        ++ (r.before_image
        ++ (BsonSerializer.leBytes 4 r.after_image.length
        ++ (r.after_image ++ tail))) := by
    have := BsonSerializer.drop_shift data (off + 33) 2 _ _ d33
      (BsonSerializer.leBytes_length 2 _).symm
    simpa [Nat.add_assoc] using this
  have d39 : data.drop (off + 39)
      = r.before_image
        ++ (BsonSerializer.leBytes 4 r.after_image.length
        ++ (r.after_image ++ tail)) := by
    have := BsonSerializer.drop_shift data (off + 35) 4 _ _ d35
      (BsonSerializer.leBytes_length 4 _).symm
    simpa [Nat.add_assoc] using this
  have d39b : data.drop (off + 39 + r.before_image.length)
      = BsonSerializer.leBytes 4 r.after_image.length
        ++ (r.after_image ++ tail) :=
    BsonSerializer.drop_shift data (off + 39) r.before_image.length _ _ d39 rfl
  have d43b : data.drop (off + 43 + r.before_image.length)
      = r.after_image ++ tail := by
    have := BsonSerializer.drop_shift data (off + 39 + r.before_image.length) 4 _ _
      d39b (BsonSerializer.leBytes_length 4 _).symm
    have heq : off + 39 + r.before_image.length + 4
        = off + 43 + r.before_image.length := by omega
    rwa [heq] at this
  -- read values
  have rd1 : BsonSerializer.readLE? data (off + 4) 8 = some (bitsOfInt64 r.lsn) := by
    have := BsonSerializer.readLE?_of_drop data (off + 4) _ _ d4
    rw [BsonSerializer.leBytes_length] at this
    rw [this, BsonSerializer.leVal_leBytes]
    congr 1
    have : bitsOfInt64 r.lsn < 2 ^ 64 := by
      simp only [bitsOfInt64]
      omega
    exact Nat.mod_eq_of_lt (by norm_num; omega)
  have rd2 : BsonSerializer.readLE? data (off + 12) 8 = some (bitsOfInt64 r.txn_id) := by
    have := BsonSerializer.readLE?_of_drop data (off + 12) _ _ d12
    rw [BsonSerializer.leBytes_length] at this
    rw [this, BsonSerializer.leVal_leBytes]
    congr 1
    have : bitsOfInt64 r.txn_id < 2 ^ 64 := by
      simp only [bitsOfInt64]
      omega
    exact Nat.mod_eq_of_lt (by norm_num; omega)
  have rd3 : BsonSerializer.readLE? data (off + 20) 8 = some (bitsOfInt64 r.prev_lsn) := by
    have := BsonSerializer.readLE?_of_drop data (off + 20) _ _ d20
    rw [BsonSerializer.leBytes_length] at this
    rw [this, BsonSerializer.leVal_leBytes]
    congr 1
    have : bitsOfInt64 r.prev_lsn < 2 ^ 64 := by
      simp only [bitsOfInt64]
      omega
    exact Nat.mod_eq_of_lt (by norm_num; omega)
  have rd4 : data[off + 28]? = some r.type :=
    BsonSerializer.get?_of_drop data _ _ _ d28
  have rd5 : BsonSerializer.readLE? data (off + 29) 4 = some (bitsOfInt32 r.page_id) := by
    have := BsonSerializer.readLE?_of_drop data (off + 29) _ _ d29
    rw [BsonSerializer.leBytes_length] at this
    rw [this, BsonSerializer.leVal_leBytes]
    congr 1
    have : bitsOfInt32 r.page_id < 2 ^ 32 := by
      simp only [bitsOfInt32]
      omega
    exact Nat.mod_eq_of_lt (by norm_num; omega)
  have rd6 : BsonSerializer.readLE? data (off + 33) 2 = some r.slot_id := by
    have := BsonSerializer.readLE?_of_drop data (off + 33) _ _ d33
    rw [BsonSerializer.leBytes_length] at this
    rw [this, BsonSerializer.leVal_leBytes]
    congr 1
    exact Nat.mod_eq_of_lt (by norm_num; omega)
  have rd7 : BsonSerializer.readLE? data (off + 35) 4 = some r.before_image.length := by
    have := BsonSerializer.readLE?_of_drop data (off + 35) _ _ d35
    rw [BsonSerializer.leBytes_length] at this
    rw [this, BsonSerializer.leVal_leBytes]
    congr 1
    exact Nat.mod_eq_of_lt (by norm_num; omega)
  have rd8 : BsonSerializer.readBytes? data (off + 39) r.before_image.length
      = some r.before_image := by
    have := BsonSerializer.readBytes?_of_drop data (off + 39) _ _ d39
      (by simp [BsonSerializer.leBytes_length])
    exact this
  have rd9 : BsonSerializer.readLE? data (off + 39 + r.before_image.length) 4
      = some r.after_image.length := by
    have := BsonSerializer.readLE?_of_drop data (off + 39 + r.before_image.length) _ _ d39b
    rw [BsonSerializer.leBytes_length] at this
    rw [this, BsonSerializer.leVal_leBytes]
    congr 1
    exact Nat.mod_eq_of_lt (by norm_num; omega)
  have rd10 : BsonSerializer.readBytes? data (off + 43 + r.before_image.length)
      r.after_image.length = some r.after_image := by
    have htl : data.drop (off + 43 + r.before_image.length)
        = r.after_image ++ tail := d43b
    by_cases hae : r.after_image.length + tail.length > 0
    · exact BsonSerializer.readBytes?_of_drop data _ _ _ htl hae
    · have hA : r.after_image = [] := by
        cases hAe : r.after_image with
        | nil => rfl
        | cons x xs => rw [hAe] at hae; simp at hae
      have hT : tail = [] := by
        cases hTe : tail with
        | nil => rfl
        | cons x xs => rw [hTe] at hae; simp at hae
      rw [hA]
      simp only [List.length_nil, BsonSerializer.readBytes?]
      rw [if_pos (by omega)]
      simp
  simp only [deserializeLogRecord, if_neg hck, rd1, rd2, rd3, rd4, rd5, rd6, rd7, rd8,
    rd9, rd10]
  rw [int64_bits_roundtrip r.lsn hl1 hl2, int64_bits_roundtrip r.txn_id ht1 ht2,
    int64_bits_roundtrip r.prev_lsn hp1 hp2, int32_bits_roundtrip r.page_id hg1 hg2,
    serializeLogRecord_length]
  have heq2 : off + 43 + r.before_image.length + r.after_image.length
      = off + (43 + r.before_image.length + r.after_image.length) := by omega
  rw [heq2]

theorem length_le_flatMap_serialize (rs : List LogRecord) :
    rs.length ≤ (rs.flatMap serializeLogRecord).length := by
  induction rs with
  | nil => simp
  | cons r rest ih =>
    simp only [List.flatMap_cons, List.length_cons, List.length_append]
    have := serializeLogRecord_length r
    omega

theorem readAllLoop_serialized (rs : List LogRecord) :
    ∀ (data tail : List Nat) (acc : List LogRecord) (off fuel : Nat),
    rs.all wfLogRecord = true →
    tail.length < 4 →
    data.drop off = rs.flatMap serializeLogRecord ++ tail →
    rs.length + 1 ≤ fuel →
    readAllLoop fuel data off acc = (acc ++ rs, false) := by
  induction rs with
  | nil =>
    intro data tail acc off fuel hwf htail hdrop hfuel
    obtain ⟨f, rfl⟩ : ∃ f, fuel = f + 1 := ⟨fuel - 1, by omega⟩
    have hlen : (data.drop off).length = data.length - off := List.length_drop off data
    rw [hdrop] at hlen
    simp only [List.flatMap_nil, List.nil_append] at hlen
    by_cases hoff : off < data.length
    · have htr : deserializeLogRecord data off = .error .truncatedSize := by
        unfold deserializeLogRecord
        rw [if_pos (by omega)]
      simp [readAllLoop, hoff, htr]
    · simp [readAllLoop, hoff]
  | cons r rest ih =>
    intro data tail acc off fuel hwf htail hdrop hfuel
    obtain ⟨f, rfl⟩ : ∃ f, fuel = f + 1 := ⟨fuel - 1, by omega⟩
    simp only [List.all_cons, Bool.and_eq_true] at hwf
    obtain ⟨hwr, hwrest⟩ := hwf
    rw [List.flatMap_cons, List.append_assoc] at hdrop
    have hdes := deserializeLog_of_drop data off r _ hwr hdrop
    have hlen : (data.drop off).length = data.length - off := List.length_drop off data
    rw [hdrop] at hlen
    simp only [List.length_append, serializeLogRecord_length] at hlen
    have hoff : off < data.length := by omega
    have hdroprest : data.drop (off + (serializeLogRecord r).length)
        = rest.flatMap serializeLogRecord ++ tail :=
      BsonSerializer.drop_shift data off _ _ _ hdrop rfl
    have hrec := ih data tail (acc ++ [r]) (off + (serializeLogRecord r).length) f
      hwrest htail hdroprest (by simpa using hfuel)
    simp only [readAllLoop, if_pos hoff, hdes, hrec]
    simp

/-- C9, amended.  `ReadAllRecords` terminates on every input: each decoded
record advances the offset by at least 43 bytes (second conjunct).  On a log
whose bytes are a sequence of serialized records followed by a short
truncated tail (fewer than the 4 bytes the size field needs), the scan
returns exactly those records and stops at the checked size-field
truncation without any out-of-bounds read.  Only the 4-byte size field is
bounds-checked, so a record truncated inside its body makes the decoder
read past the buffer end — undefined behaviour — instead of stopping
cleanly (see the counterexample). -/
theorem C9_readAllRecords_truncation (rs : List LogRecord) (tail : List Nat)
    (hwf : rs.all wfLogRecord = true) (htail : tail.length < 4) :
    readAllRecords (rs.flatMap serializeLogRecord ++ tail) = (rs, false) ∧
    ∀ data off r off2, deserializeLogRecord data off = .ok (r, off2) →
      off + 43 ≤ off2 := by
  constructor
  · unfold readAllRecords
    have hlen := length_le_flatMap_serialize rs
    have := readAllLoop_serialized rs (rs.flatMap serializeLogRecord ++ tail) tail []
      0 ((rs.flatMap serializeLogRecord ++ tail).length + 1) hwf htail (by simp)
      (by simp only [List.length_append]; omega)
    simpa using this
  · intro data off r off2 h
    unfold deserializeLogRecord at h
    repeat
      split at h <;> try exact Except.noConfusion h
    injection h with hp
    have h2 := congrArg Prod.snd hp
    simp only at h2
    omega

theorem C9_readAllRecords_truncation_witness :
    (c9Records.all wfLogRecord = true ∧ ([9, 9] : List Nat).length < 4) ∧
      readAllRecords (c9Records.flatMap serializeLogRecord ++ [9, 9])
        = (c9Records, false) :=
  ⟨⟨by decide, by decide⟩,
    (C9_readAllRecords_truncation c9Records [9, 9] (by decide) (by decide)).1⟩

/-- C9, counterexample to the claim as stated: a 4-byte log file of zeroes.
The checked size-field read passes (`0 + 4 > 4` is false), and the very next
decoding step — the 8-byte `memcpy` of the lsn — reads bytes 4..11 of a
4-byte buffer: decoding DOES read past the end of the in-memory log buffer
(the model's undefined-behaviour flag is set), contradicting the claim that
no decoding step reads beyond it. -/
theorem C9_counterexample :
    readAllRecords [0, 0, 0, 0] = ([], true) := by
  rfl

theorem lookup_setAssoc_self {α β : Type} [DecidableEq α] [BEq α] [LawfulBEq α]
    (l : List (α × β)) (a : α) (b : β) : (setAssoc l a b).lookup a = some b := by
  induction l with
  | nil => simp [setAssoc, List.lookup]
  | cons hd rest ih =>
    obtain ⟨x, y⟩ := hd
    by_cases hx : x = a
    · simp [setAssoc, hx, List.lookup]
    · have hbe : (a == x) = false := by
        simp only [beq_eq_false_iff_ne, ne_eq]
        exact fun h => hx h.symm
      simp [setAssoc, hx, List.lookup, hbe, ih]

theorem lookup_setAssoc_other {α β : Type} [DecidableEq α] [BEq α] [LawfulBEq α]
    (l : List (α × β)) (a c : α) (b : β) (h : c ≠ a) :
    (setAssoc l a b).lookup c = l.lookup c := by
  induction l with
  | nil =>
    simp [setAssoc, List.lookup, beq_eq_false_iff_ne.mpr h]
  | cons hd rest ih =>
    obtain ⟨x, y⟩ := hd
    by_cases hx : x = a
    · subst hx
      simp [setAssoc, List.lookup, beq_eq_false_iff_ne.mpr h]
    · simp only [setAssoc, if_neg hx, List.lookup]
      cases hcx : (c == x) with
      | true => rfl
      | false => exact ih

theorem lookup_filter_ne {α β : Type} [DecidableEq α] [BEq α] [LawfulBEq α]
    (l : List (α × β)) (k c : α) (h : c ≠ k) :
    (l.filter (fun e => e.1 ≠ k)).lookup c = l.lookup c := by
  induction l with
  | nil => rfl
  | cons hd rest ih =>
    obtain ⟨x, y⟩ := hd
    by_cases hx : x = k
    · subst hx
      rw [List.filter_cons_of_neg (by simp)]
      rw [ih]
      simp [List.lookup, beq_eq_false_iff_ne.mpr h]
    · rw [List.filter_cons_of_pos (by simpa using hx)]
      simp only [List.lookup]
      cases hcx : (c == x) with
      | true => rfl
      | false => exact ih

theorem queueInv_of_mem_imp (q q2 : List LockRequest) (hq : QueueInv q)
    (hsub : ∀ r ∈ q2, r ∈ q) : QueueInv q2 :=
  fun r1 h1 r2 h2 hg1 hg2 hm => hq r1 (hsub r1 h1) r2 (hsub r2 h2) hg1 hg2 hm

theorem queueInv_append_waiting (q : List LockRequest) (hq : QueueInv q)
    (t : Int) (m : LockMode) : QueueInv (q ++ [⟨t, m, false⟩]) := by
  intro r1 h1 r2 h2 hg1 hg2 hm
  rcases List.mem_append.mp h1 with h1 | h1
  · rcases List.mem_append.mp h2 with h2 | h2
    · exact hq r1 h1 r2 h2 hg1 hg2 hm
    · simp at h2
      subst h2
      simp at hg2
  · simp at h1
    subst h1
    simp at hg1

theorem getQueue_inv (s : LMState) (k : LockKey) (hinv : LMInv s) :
    QueueInv (getQueue s k) := by
  unfold getQueue
  cases h : s.table.lookup k with
  | none => intro r1 h1; simp at h1
  | some q => exact hinv k q h

theorem lookup_filter_self {α β : Type} [DecidableEq α] [BEq α] [LawfulBEq α]
    (l : List (α × β)) (k : α) :
    (l.filter (fun e => e.1 ≠ k)).lookup k = none := by
  induction l with
  | nil => rfl
  | cons hd rest ih =>
    obtain ⟨x, y⟩ := hd
    by_cases hx : x = k
    · subst hx
      rw [List.filter_cons_of_neg (by simp)]
      exact ih
    · rw [List.filter_cons_of_pos (by simpa using hx)]
      have hbe : (k == x) = false := beq_eq_false_iff_ne.mpr (fun h2 => hx h2.symm)
      simp only [List.lookup, hbe]
      exact ih

theorem tableInv_removeTxn (tbl : List (LockKey × List LockRequest)) (t : Int)
    (k : LockKey) (h : ∀ k2 q, tbl.lookup k2 = some q → QueueInv q) :
    ∀ k2 q, (removeTxnFromKey tbl t k).lookup k2 = some q → QueueInv q := by
  intro k2 q hq
  unfold removeTxnFromKey at hq
  cases hl : tbl.lookup k with
  | none =>
    rw [hl] at hq
    exact h k2 q hq
  | some q0 =>
    rw [hl] at hq
    dsimp only at hq
    split at hq
    · by_cases hk : k2 = k
      · subst hk
        rw [lookup_filter_self] at hq
        exact absurd hq (by simp)
      · rw [lookup_filter_ne tbl k k2 hk] at hq
        exact h k2 q hq
    · by_cases hk : k2 = k
      · subst hk
        rw [lookup_setAssoc_self] at hq
        injection hq with hq
        subst hq
        apply queueInv_of_mem_imp q0 _ (h k2 q0 hl)
        intro r hr
        exact (List.mem_filter.mp hr).1
      · rw [lookup_setAssoc_other _ _ _ _ hk] at hq
        exact h k2 q hq

theorem mem_mid {q1 q2 : List LockRequest} {x r : LockRequest}
    (y : LockRequest) (h : r ∈ q1 ++ x :: q2) : r = x ∨ r ∈ q1 ++ y :: q2 := by
  rcases List.mem_append.mp h with h | h
  · right
    exact List.mem_append.mpr (Or.inl h)
  · rcases List.mem_cons.mp h with h | h
    · left
      exact h
    · right
      exact List.mem_append.mpr (Or.inr (List.mem_cons.mpr (Or.inr h)))

theorem lminv_setQueue (s : LMState) (k : LockKey) (q : List LockRequest)
    (hs : LMInv s) (hq : QueueInv q) : LMInv (setQueue s k q) := by
  intro k2 q2 hl
  by_cases hk : k2 = k
  · subst hk
    rw [show (setQueue s k2 q).table = setAssoc s.table k2 q from rfl,
      lookup_setAssoc_self] at hl
    injection hl with hl
    subst hl
    exact hq
  · rw [show (setQueue s k q).table = setAssoc s.table k q from rfl,
      lookup_setAssoc_other _ _ _ _ hk] at hl
    exact hs k2 q2 hl

theorem lminv_addTxnLock (s : LMState) (t : Int) (k : LockKey)
    (hs : LMInv s) : LMInv (addTxnLock s t k) :=
  fun k2 q2 hl => hs k2 q2 hl

theorem tableInv_foldl_remove (t : Int) (ks : List LockKey) :
    ∀ tbl : List (LockKey × List LockRequest),
    (∀ k q, tbl.lookup k = some q → QueueInv q) →
    ∀ k q, (ks.foldl (fun tb k2 => removeTxnFromKey tb t k2) tbl).lookup k = some q →
      QueueInv q := by
  induction ks with
  | nil =>
    intro tbl h
    exact h
  | cons hd rest ih =>
    intro tbl h
    exact ih _ (tableInv_removeTxn tbl t hd h)

theorem lminv_step {s s2 : LMState} (hs : LMInv s) (hstep : LMStep s s2) :
    LMInv s2 := by
  cases hstep with
  | sharedReq t k s hnot =>
    exact lminv_setQueue _ _ _ hs (queueInv_append_waiting _ (getQueue_inv s k hs) t .shared)
  | sharedGrant t k s q1 q2 hq hgrant =>
    apply lminv_addTxnLock
    apply lminv_setQueue _ _ _ hs
    intro r1 h1 r2 h2 hg1 hg2 hm
    rcases mem_mid (LockRequest.mk t .shared false) h1 with h1 | h1
    · subst h1
      exact absurd hm (by simp)
    · exact absurd hm (hgrant r1 (by rw [hq]; exact h1) hg1)
  | exclReq t k s hnot =>
    exact lminv_setQueue _ _ _ hs (queueInv_append_waiting _ (getQueue_inv s k hs) t .exclusive)
  | exclGrant t k s q1 q2 hq hgrant =>
    apply lminv_addTxnLock
    apply lminv_setQueue _ _ _ hs
    intro r1 h1 r2 h2 hg1 hg2 hm
    have ht1 : r1.txn = t := by
      rcases mem_mid (LockRequest.mk t .exclusive false) h1 with h1 | h1
      · subst h1
        rfl
      · exact hgrant r1 (by rw [hq]; exact h1) hg1
    have ht2 : r2.txn = t := by
      rcases mem_mid (LockRequest.mk t .exclusive false) h2 with h2 | h2
      · subst h2
        rfl
      · exact hgrant r2 (by rw [hq]; exact h2) hg2
    rw [ht1, ht2]
  | upgrade t k s q1 q2 hq hfirst hgrant =>
    apply lminv_setQueue _ _ _ hs
    intro r1 h1 r2 h2 hg1 hg2 hm
    have ht1 : r1.txn = t := by
      rcases mem_mid (LockRequest.mk t .shared true) h1 with h1 | h1
      · subst h1
        rfl
      · exact hgrant r1 (by rw [hq]; exact h1) hg1
    have ht2 : r2.txn = t := by
      rcases mem_mid (LockRequest.mk t .shared true) h2 with h2 | h2
      · subst h2
        rfl
      · exact hgrant r2 (by rw [hq]; exact h2) hg2
    rw [ht1, ht2]
  | unlockAll t s =>
    intro k q hl
    exact tableInv_foldl_remove t _ s.table hs k q hl

/-- C5 (amended): in every reachable lock-manager state, whenever a granted
EXCLUSIVE request exists on a resource, every granted request on that
resource belongs to the same transaction.  In particular a granted SHARED
and a granted EXCLUSIVE of two different transactions never coexist, and
two different transactions never both hold EXCLUSIVE; but one transaction
may simultaneously hold a granted SHARED and a granted EXCLUSIVE on the
same resource, which refutes the claim as stated (see the
counterexample). -/
theorem C5_lock_compatibility (s : LMState) (h : LMReachable s) : LMInv s := by
  induction h with
  | init =>
    intro k q hl
    simp [List.lookup] at hl
  | step hr hstep ih =>
    exact lminv_step ih hstep

/-- Witness for C5: the invariant holds at the concrete reachable state
obtained by one `lock_shared` request on resource (1,0). -/
theorem C5_lock_compatibility_witness :
    LMInv (setQueue ⟨[], []⟩ (1, 0)
      (getQueue ⟨[], []⟩ (1, 0) ++ [⟨0, .shared, false⟩])) :=
  C5_lock_compatibility _
    (.step .init (.sharedReq 0 (1, 0) ⟨[], []⟩ (by decide)))

/-- Counterexample to C5 as stated: after lock_shared(txn 0), the shared
grant, lock_exclusive(txn 0) and the exclusive grant (which
`CanGrantLock` allows because every granted request on the queue belongs
to txn 0), the queue of resource (1,0) holds a granted SHARED and a
granted EXCLUSIVE at the same instant. -/
theorem C5_counterexample :
    ∃ s : LMState, LMReachable s ∧ ∃ k : LockKey,
      ∃ r1 ∈ getQueue s k, ∃ r2 ∈ getQueue s k,
        r1.granted = true ∧ r2.granted = true ∧
        r1.mode = .shared ∧ r2.mode = .exclusive := by
  have h1 : LMReachable ⟨[((1, 0), [⟨0, .shared, false⟩])], []⟩ :=
    .step .init (.sharedReq 0 (1, 0) ⟨[], []⟩ (by decide))
  have h2 : LMReachable ⟨[((1, 0), [⟨0, .shared, true⟩])], [(0, [(1, 0)])]⟩ :=
    .step h1 (.sharedGrant 0 (1, 0) _ [] [] (by decide) (by decide))
  have h3 : LMReachable
      ⟨[((1, 0), [⟨0, .shared, true⟩, ⟨0, .exclusive, false⟩])], [(0, [(1, 0)])]⟩ :=
    .step h2 (.exclReq 0 (1, 0) _ (by decide))
  have h4 : LMReachable
      ⟨[((1, 0), [⟨0, .shared, true⟩, ⟨0, .exclusive, true⟩])], [(0, [(1, 0)])]⟩ :=
    .step h3 (.exclGrant 0 (1, 0) _ [⟨0, .shared, true⟩] [] (by decide) (by decide))
  exact ⟨_, h4, (1, 0), ⟨0, .shared, true⟩, by decide, ⟨0, .exclusive, true⟩,
    by decide, rfl, rfl, rfl, rfl⟩

theorem nodup_subset_length {α : Type} [DecidableEq α] (l l2 : List α)
    (h : l.Nodup) (hs : l ⊆ l2) : l.length ≤ l2.length := by
  have h1 : l.toFinset.card = l.length := List.toFinset_card_of_nodup h
  have h2 : l.toFinset ⊆ l2.toFinset := by
    intro x hx
    simp only [List.mem_toFinset] at hx ⊢
    exact hs hx
  calc l.length = l.toFinset.card := h1.symm
    _ ≤ l2.toFinset.card := Finset.card_le_card h2
    _ ≤ l2.length := List.toFinset_card_le l2

theorem insertIdx_append_left {α : Type} (xs : List α) :
    ∀ (n : Nat) (ys : List α) (a : α), n ≤ xs.length →
      (xs ++ ys).insertIdx n a = xs.insertIdx n a ++ ys := by
  induction xs with
  | nil =>
    intro n ys a hn
    have hz : n = 0 := by simpa using hn
    subst hz
    simp
  | cons x rest ih =>
    intro n ys a hn
    cases n with
    | zero => simp [List.insertIdx_zero]
    | succ m =>
      simp only [List.cons_append, List.insertIdx_succ_cons, List.cons_append]
      rw [ih m ys a (by simpa using hn)]

theorem insertIdx_append_right {α : Type} (xs : List α) :
    ∀ (n : Nat) (ys : List α) (a : α),
      (xs ++ ys).insertIdx (xs.length + n) a = xs ++ ys.insertIdx n a := by
  induction xs with
  | nil => intro n ys a; simp
  | cons x rest ih =>
    intro n ys a
    simp only [List.cons_append, List.length_cons]
    have : rest.length + 1 + n = (rest.length + n) + 1 := by omega
    rw [this, List.insertIdx_succ_cons, ih]

theorem map_insertIdx {α β : Type} (f : α → β) (l : List α) :
    ∀ (n : Nat) (a : α), (l.insertIdx n a).map f = (l.map f).insertIdx n (f a) := by
  induction l with
  | nil =>
    intro n a
    cases n with
    | zero => simp
    | succ m => simp [List.insertIdx]
  | cons x rest ih =>
    intro n a
    cases n with
    | zero => simp [List.insertIdx_zero]
    | succ m => simp [List.insertIdx_succ_cons, ih]

theorem takeWhile_append_all {α : Type} (p : α → Bool) (xs ys : List α)
    (h : ∀ x ∈ xs, p x = true) :
    (xs ++ ys).takeWhile p = xs ++ ys.takeWhile p := by
  induction xs with
  | nil => simp
  | cons x rest ih =>
    have hx : p x = true := h x (by simp)
    have hr := ih (fun y hy => h y (by simp [hy]))
    simp [List.takeWhile_cons, hx, hr]

theorem takeWhile_all {α : Type} (p : α → Bool) (xs : List α)
    (h : ∀ x ∈ xs, p x = true) : xs.takeWhile p = xs := by
  induction xs with
  | nil => rfl
  | cons x rest ih =>
    have hx : p x = true := h x (by simp)
    have hr := ih (fun y hy => h y (by simp [hy]))
    simp [List.takeWhile_cons, hx, hr]

theorem takeWhile_stop {α : Type} (p : α → Bool) (xs : List α) (y : α) (ys : List α)
    (hy : p y = false) (h : ∀ x ∈ xs, p x = true) :
    (xs ++ y :: ys).takeWhile p = xs := by
  rw [takeWhile_append_all p xs _ h]
  simp [List.takeWhile_cons, hy]

theorem zip_map_fst_snd {α β : Type} (l : List (α × β)) :
    (l.map Prod.fst).zip (l.map Prod.snd) = l := by
  rw [List.zip_map']
  simp

theorem insEntries_perm (key : Nat) (rid : RecordID) (es : List (Nat × RecordID)) :
    (insEntries key rid es).Perm ((key, rid) :: es) := by
  unfold insEntries
  exact List.perm_insertIdx (key, rid) es ((List.takeWhile_sublist _).length_le)

theorem insEntries_ne_nil (key : Nat) (rid : RecordID) (es : List (Nat × RecordID)) :
    insEntries key rid es ≠ [] := by
  intro h
  have hp := (insEntries_perm key rid es).length_eq
  rw [h] at hp
  simp at hp

theorem insEntries_append_right (key : Nat) (rid : RecordID)
    (xs ys : List (Nat × RecordID)) (h : ∀ x ∈ xs, x.1 ≤ key) :
    insEntries key rid (xs ++ ys) = xs ++ insEntries key rid ys := by
  unfold insEntries
  rw [takeWhile_append_all _ xs ys (fun x hx => by simpa using h x hx)]
  rw [List.length_append, insertIdx_append_right]

theorem insEntries_append_left (key : Nat) (rid : RecordID)
    (xs ys : List (Nat × RecordID)) (h : ∀ y ∈ ys, key < y.1) :
    insEntries key rid (xs ++ ys) = insEntries key rid xs ++ ys := by
  unfold insEntries
  have hys : ys.takeWhile (fun e => decide (e.1 ≤ key)) = [] := by
    cases hy : ys with
    | nil => rfl
    | cons y t =>
      have : decide (y.1 ≤ key) = false := by
        simp only [decide_eq_false_iff_not, not_le]
        exact h y (by simp [hy])
      simp [List.takeWhile_cons, this]
  rw [List.takeWhile_append, hys]
  split
  · rename_i hl
    rw [hl]
    simp only [List.append_nil]
    have hR := insertIdx_append_right xs 0 ys (key, rid)
    simp only [Nat.add_zero, List.insertIdx_zero] at hR
    rw [hR, List.insertIdx_length_self]
    simp
  · exact insertIdx_append_left xs _ ys (key, rid) (List.takeWhile_sublist _).length_le

theorem inLoB_trans {lo : Option Nat} {a b : Nat} (h : inLoB lo a = true)
    (hab : a ≤ b) : inLoB lo b = true := by
  cases lo with
  | none => rfl
  | some l =>
    simp only [inLoB, decide_eq_true_eq] at h ⊢
    omega

theorem inHiB_of_le {hi : Option Nat} {a b : Nat} (h : inHiB hi b = true)
    (hab : a ≤ b) : inHiB hi a = true := by
  cases hi with
  | none => rfl
  | some hv =>
    simp only [inHiB, decide_eq_true_eq] at h ⊢
    omega

theorem inHiB_fsep : ∀ (r : MForest) {hi lo2 : Option Nat} {x : Nat},
    bndF lo2 hi r = true → inHiB (fsep r hi) x = true → inHiB hi x = true
  | .mnil, _, _, _, _, h => h
  | .mcons k c rr, hi, lo2, x, hr, h => by
    simp only [bndF, Bool.and_eq_true] at hr
    have hk : inHiB hi k = true := inHiB_fsep rr hr.2 hr.1.1.2
    simp only [fsep, inHiB, decide_eq_true_eq] at h
    exact inHiB_of_le hk (le_of_lt h)

theorem bndF_cons_parts {lo hi : Option Nat} {k : Nat} {c : MTree} {r : MForest}
    (h : bndF lo hi (.mcons k c r) = true) :
    inLoB lo k = true ∧ inHiB hi k = true ∧
      bndT (some k) (fsep r hi) c = true ∧ bndF (some k) hi r = true ∧
      inHiB (fsep r hi) k = true := by
  simp only [bndF, Bool.and_eq_true] at h
  exact ⟨h.1.1.1, inHiB_fsep r h.2 h.1.1.2, h.1.2, h.2, h.1.1.2⟩

theorem bndF_mono_lo {lo lo2 hi : Option Nat} {F : MForest}
    (h : bndF lo hi F = true)
    (h2 : ∀ k c r, F = .mcons k c r → inLoB lo2 k = true) :
    bndF lo2 hi F = true := by
  cases F with
  | mnil => rfl
  | mcons k c r =>
    obtain ⟨_, hk, hc, hr, hks⟩ := bndF_cons_parts h
    simp only [bndF, Bool.and_eq_true]
    exact ⟨⟨⟨h2 k c r rfl, hks⟩, hc⟩, hr⟩

mutual
theorem entBT : ∀ (T : MTree) (lo hi : Option Nat), bndT lo hi T = true →
    ∀ e ∈ entriesT T, inLoB lo e.1 = true ∧ inHiB hi e.1 = true
  | .mleaf p es, lo, hi, h, e, he => by
    simp only [bndT, Bool.and_eq_true, List.all_eq_true] at h
    have := h.2 e (by simpa [entriesT] using he)
    simpa [Bool.and_eq_true] using this
  | .mnode p c r, lo, hi, h, e, he => by
    simp only [bndT, Bool.and_eq_true] at h
    simp only [entriesT, List.mem_append] at he
    rcases he with he | he
    · have := entBT c lo (fsep r hi) h.1 e he
      exact ⟨this.1, inHiB_fsep r h.2 this.2⟩
    · exact entBF r lo hi h.2 e he
theorem entBF : ∀ (F : MForest) (lo hi : Option Nat), bndF lo hi F = true →
    ∀ e ∈ entriesF F, inLoB lo e.1 = true ∧ inHiB hi e.1 = true
  | .mnil, _, _, _, e, he => by simp [entriesF] at he
  | .mcons k c r, lo, hi, h, e, he => by
    obtain ⟨hlo, hk, hc, hr, hks⟩ := bndF_cons_parts h
    simp only [entriesF, List.mem_append] at he
    rcases he with he | he
    · have := entBT c (some k) (fsep r hi) hc e he
      have h1 : k ≤ e.1 := by simpa [inLoB] using this.1
      exact ⟨inLoB_trans hlo h1, inHiB_fsep r hr this.2⟩
    · have := entBF r (some k) hi hr e he
      have h1 : k ≤ e.1 := by simpa [inLoB] using this.1
      exact ⟨inLoB_trans hlo h1, this.2⟩
end

theorem entBF_first {k : Nat} {c : MTree} {r : MForest} {lo hi : Option Nat}
    (h : bndF lo hi (.mcons k c r) = true) :
    ∀ e ∈ entriesF (.mcons k c r), k ≤ e.1 := by
  intro e he
  obtain ⟨hlo, hk, hc, hr⟩ := bndF_cons_parts h
  have h2 : bndF (some k) hi (.mcons k c r) = true := by
    apply bndF_mono_lo h
    intro k2 c2 r2 heq
    injection heq with e1 e2 e3
    subst e1
    simp [inLoB]
  have := entBF _ (some k) hi h2 e he
  simpa [inLoB] using this.1

theorem sepsB : ∀ (F : MForest) (lo hi : Option Nat), bndF lo hi F = true →
    ∀ k ∈ sepsF F, inLoB lo k = true ∧ inHiB hi k = true
  | .mnil, _, _, _, k, hk => by simp [sepsF] at hk
  | .mcons k0 c r, lo, hi, h, k, hk => by
    obtain ⟨hlo, hk0, hc, hr, hks⟩ := bndF_cons_parts h
    simp only [sepsF, List.mem_cons] at hk
    rcases hk with hk | hk
    · subst hk
      exact ⟨hlo, hk0⟩
    · have := sepsB r (some k0) hi hr k hk
      have h1 : k0 ≤ k := by simpa [inLoB] using this.1
      exact ⟨inLoB_trans hlo h1, this.2⟩

theorem neT_entries : ∀ (T : MTree), neT T = true → entriesT T ≠ []
  | .mleaf p es, h => by simpa [neT, entriesT] using h
  | .mnode p c r, h => by
    simp only [neT, Bool.and_eq_true] at h
    have := neT_entries c h.1
    simp only [entriesT]
    intro hx
    exact this (List.append_eq_nil.mp hx).1

mutual
theorem pwT : ∀ (T : MTree) (lo hi : Option Nat), bndT lo hi T = true →
    List.Pairwise (fun a b => a.1 < b.1) (entriesT T)
  | .mleaf p es, lo, hi, h => by
    simp only [bndT, Bool.and_eq_true, decide_eq_true_eq] at h
    have h1 := h.1
    rw [List.pairwise_map] at h1
    simpa [entriesT] using h1
  | .mnode p c r, lo, hi, h => by
    simp only [bndT, Bool.and_eq_true] at h
    simp only [entriesT]
    rw [List.pairwise_append]
    refine ⟨pwT c _ _ h.1, pwF r _ _ h.2, ?_⟩
    intro a ha b hb
    cases hr : r with
    | mnil =>
      rw [hr] at hb
      simp [entriesF] at hb
    | mcons k c2 r2 =>
      subst hr
      have hae := entBT c lo (fsep (.mcons k c2 r2) hi) h.1 a ha
      have h1 : a.1 < k := by simpa [fsep, inHiB] using hae.2
      have h2 : k ≤ b.1 := entBF_first h.2 b hb
      omega
theorem pwF : ∀ (F : MForest) (lo hi : Option Nat), bndF lo hi F = true →
    List.Pairwise (fun a b => a.1 < b.1) (entriesF F)
  | .mnil, _, _, _ => by simp [entriesF]
  | .mcons k c r, lo, hi, h => by
    obtain ⟨hlo, hk, hc, hr, hks⟩ := bndF_cons_parts h
    simp only [entriesF]
    rw [List.pairwise_append]
    refine ⟨pwT c _ _ hc, pwF r _ _ hr, ?_⟩
    intro a ha b hb
    cases hr2 : r with
    | mnil =>
      rw [hr2] at hb
      simp [entriesF] at hb
    | mcons k2 c2 r2 =>
      subst hr2
      have hae := entBT c (some k) (fsep (.mcons k2 c2 r2) hi) hc a ha
      have h1 : a.1 < k2 := by simpa [fsep, inHiB] using hae.2
      have h2 : k2 ≤ b.1 := entBF_first hr b hb
      omega
end

theorem findNode_writeNode_self (s : BTStore) (p : Int) (n : BNode) :
    findNode (writeNode s p n) p = some n :=
  lookup_setAssoc_self s.nodes p n

theorem findNode_writeNode_other (s : BTStore) (p q : Int) (n : BNode)
    (h : q ≠ p) : findNode (writeNode s p n) q = findNode s q :=
  lookup_setAssoc_other s.nodes p q n h

mutual
theorem decT_frame : ∀ (T : MTree) (s s2 : BTStore) (nxt : Int),
    decT s T nxt = true → (∀ q ∈ pagesT T, findNode s2 q = findNode s q) →
    decT s2 T nxt = true
  | .mleaf p es, s, s2, nxt, h, hf => by
    simp only [decT, decide_eq_true_eq] at h ⊢
    rw [hf p (by simp [pagesT])]
    exact h
  | .mnode p c r, s, s2, nxt, h, hf => by
    simp only [decT, Bool.and_eq_true, decide_eq_true_eq] at h ⊢
    refine ⟨⟨?_, ?_⟩, ?_⟩
    · rw [hf p (by simp [pagesT])]
      exact h.1.1
    · exact decT_frame c s s2 _ h.1.2
        (fun q hq => hf q (by simp [pagesT, hq]))
    · exact decF_frame r s s2 _ h.2
        (fun q hq => hf q (by simp [pagesT, hq]))
theorem decF_frame : ∀ (F : MForest) (s s2 : BTStore) (nxt : Int),
    decF s F nxt = true → (∀ q ∈ pagesF F, findNode s2 q = findNode s q) →
    decF s2 F nxt = true
  | .mnil, _, _, _, _, _ => rfl
  | .mcons k c r, s, s2, nxt, h, hf => by
    simp only [decF, Bool.and_eq_true] at h ⊢
    refine ⟨?_, ?_⟩
    · exact decT_frame c s s2 _ h.1
        (fun q hq => hf q (by simp [pagesF, hq]))
    · exact decF_frame r s s2 _ h.2
        (fun q hq => hf q (by simp [pagesF, hq]))
end

mutual
theorem decT_pages_some : ∀ (T : MTree) (s : BTStore) (nxt : Int),
    decT s T nxt = true → ∀ q ∈ pagesT T, ∃ b, findNode s q = some b
  | .mleaf p es, s, nxt, h, q, hq => by
    simp only [pagesT, List.mem_singleton] at hq
    subst hq
    simp only [decT, decide_eq_true_eq] at h
    exact ⟨_, h⟩
  | .mnode p c r, s, nxt, h, q, hq => by
    simp only [decT, Bool.and_eq_true, decide_eq_true_eq] at h
    simp only [pagesT, List.mem_cons, List.mem_append] at hq
    rcases hq with hq | hq | hq
    · subst hq
      exact ⟨_, h.1.1⟩
    · exact decT_pages_some c s _ h.1.2 q hq
    · exact decF_pages_some r s _ h.2 q hq
theorem decF_pages_some : ∀ (F : MForest) (s : BTStore) (nxt : Int),
    decF s F nxt = true → ∀ q ∈ pagesF F, ∃ b, findNode s q = some b
  | .mnil, _, _, _, q, hq => by simp [pagesF] at hq
  | .mcons k c r, s, nxt, h, q, hq => by
    simp only [decF, Bool.and_eq_true] at h
    simp only [pagesF, List.mem_append] at hq
    rcases hq with hq | hq
    · exact decT_pages_some c s _ h.1 q hq
    · exact decF_pages_some r s _ h.2 q hq
end

mutual
theorem depthT_le_pages : ∀ (T : MTree), depthT T ≤ (pagesT T).length
  | .mleaf p es => by simp [depthT, pagesT]
  | .mnode p c r => by
    have h1 := depthT_le_pages c
    have h2 := depthF_le_pages r
    simp only [depthT, pagesT, List.length_cons, List.length_append]
    omega
theorem depthF_le_pages : ∀ (F : MForest), depthF F ≤ (pagesF F).length
  | .mnil => by simp [depthF, pagesF]
  | .mcons k c r => by
    have h1 := depthT_le_pages c
    have h2 := depthF_le_pages r
    simp only [depthF, pagesF, List.length_append]
    omega
end

mutual
theorem leavesT_le_pages : ∀ (T : MTree), leavesT T ≤ (pagesT T).length
  | .mleaf p es => by simp [leavesT, pagesT]
  | .mnode p c r => by
    have h1 := leavesT_le_pages c
    have h2 := leavesF_le_pages r
    simp only [leavesT, pagesT, List.length_cons, List.length_append]
    omega
theorem leavesF_le_pages : ∀ (F : MForest), leavesF F ≤ (pagesF F).length
  | .mnil => by simp [leavesF, pagesF]
  | .mcons k c r => by
    have h1 := leavesT_le_pages c
    have h2 := leavesF_le_pages r
    simp only [leavesF, pagesF, List.length_append]
    omega
end

theorem sepsF_takeF : ∀ (n : Nat) (F : MForest),
    sepsF (takeF n F) = (sepsF F).take n
  | 0, _ => by simp [takeF, sepsF]
  | n + 1, .mnil => by simp [takeF, sepsF]
  | n + 1, .mcons k c r => by
    simp [takeF, sepsF, sepsF_takeF n r]

theorem sepsF_dropF : ∀ (n : Nat) (F : MForest),
    sepsF (dropF n F) = (sepsF F).drop n
  | 0, _ => by simp [dropF]
  | n + 1, .mnil => by simp [dropF, sepsF]
  | n + 1, .mcons k c r => by
    simp [dropF, sepsF, sepsF_dropF n r]

theorem rootsF_takeF : ∀ (n : Nat) (F : MForest),
    rootsF (takeF n F) = (rootsF F).take n
  | 0, _ => by simp [takeF, rootsF]
  | n + 1, .mnil => by simp [takeF, rootsF]
  | n + 1, .mcons k c r => by
    simp [takeF, rootsF, rootsF_takeF n r]

theorem rootsF_dropF : ∀ (n : Nat) (F : MForest),
    rootsF (dropF n F) = (rootsF F).drop n
  | 0, _ => by simp [dropF]
  | n + 1, .mnil => by simp [dropF, rootsF]
  | n + 1, .mcons k c r => by
    simp [dropF, rootsF, rootsF_dropF n r]

theorem entriesF_take_drop : ∀ (n : Nat) (F : MForest),
    entriesF (takeF n F) ++ entriesF (dropF n F) = entriesF F
  | 0, _ => by simp [takeF, dropF, entriesF]
  | n + 1, .mnil => by simp [takeF, dropF, entriesF]
  | n + 1, .mcons k c r => by
    simp [takeF, dropF, entriesF, List.append_assoc, entriesF_take_drop n r]

theorem pagesF_take_drop : ∀ (n : Nat) (F : MForest),
    pagesF (takeF n F) ++ pagesF (dropF n F) = pagesF F
  | 0, _ => by simp [takeF, dropF, pagesF]
  | n + 1, .mnil => by simp [takeF, dropF, pagesF]
  | n + 1, .mcons k c r => by
    simp [takeF, dropF, pagesF, List.append_assoc, pagesF_take_drop n r]

theorem dropF_cons : ∀ (n : Nat) (F : MForest), n < (sepsF F).length →
    ∃ k c, dropF n F = .mcons k c (dropF (n + 1) F)
  | 0, .mnil, h => by simp [sepsF] at h
  | 0, .mcons k c r, _ => ⟨k, c, by simp [dropF]⟩
  | n + 1, .mnil, h => by simp [sepsF] at h
  | n + 1, .mcons k c r, h => by
    obtain ⟨k2, c2, hd⟩ := dropF_cons n r (by simpa [sepsF] using h)
    exact ⟨k2, c2, by simpa [dropF] using hd⟩

theorem headF_take_drop : ∀ (n : Nat) (F : MForest) (nxt : Int),
    headF (takeF n F) (headF (dropF n F) nxt) = headF F nxt
  | 0, .mnil, nxt => by simp [takeF, dropF, headF]
  | 0, .mcons k c r, nxt => by simp [takeF, dropF, headF]
  | n + 1, .mnil, nxt => by simp [takeF, dropF, headF]
  | n + 1, .mcons k c r, nxt => by simp [takeF, dropF, headF]

theorem decF_split : ∀ (n : Nat) (F : MForest) (s : BTStore) (nxt : Int),
    decF s F nxt = true →
    decF s (takeF n F) (headF (dropF n F) nxt) = true ∧
      decF s (dropF n F) nxt = true
  | 0, F, s, nxt, h => by simp [takeF, dropF, decF, h]
  | n + 1, .mnil, s, nxt, h => by simp [takeF, dropF, decF]
  | n + 1, .mcons k c r, s, nxt, h => by
    simp only [decF, Bool.and_eq_true] at h
    obtain ⟨ih1, ih2⟩ := decF_split n r s nxt h.2
    refine ⟨?_, by simpa [dropF] using ih2⟩
    simp only [takeF, dropF, decF, Bool.and_eq_true]
    refine ⟨?_, ih1⟩
    rw [headF_take_drop n r nxt]
    exact h.1

theorem neF_takeF : ∀ (n : Nat) (F : MForest), neF F = true → neF (takeF n F) = true
  | 0, _, _ => by simp [takeF, neF]
  | n + 1, .mnil, _ => rfl
  | n + 1, .mcons k c r, h => by
    simp only [neF, Bool.and_eq_true] at h
    simp only [takeF, neF, Bool.and_eq_true]
    exact ⟨h.1, neF_takeF n r h.2⟩

theorem neF_dropF : ∀ (n : Nat) (F : MForest), neF F = true → neF (dropF n F) = true
  | 0, _, h => by simpa [dropF] using h
  | n + 1, .mnil, _ => rfl
  | n + 1, .mcons k c r, h => by
    simp only [neF, Bool.and_eq_true] at h
    simpa [dropF] using neF_dropF n r h.2

theorem bndF_takeF : ∀ (n : Nat) (F : MForest) (lo hi : Option Nat) (k : Nat)
    (c : MTree), bndF lo hi F = true → dropF n F = .mcons k c (dropF (n + 1) F) →
    bndF lo (some k) (takeF n F) = true
  | 0, F, lo, hi, k, c, h, hd => by simp [takeF, bndF]
  | n + 1, .mnil, lo, hi, k, c, h, hd => by simp [dropF] at hd
  | n + 1, .mcons k0 c0 r, lo, hi, k, c, h, hd => by
    obtain ⟨hlo, hk0, hc0, hr, hks⟩ := bndF_cons_parts h
    simp only [dropF] at hd
    have hrec := bndF_takeF n r (some k0) hi k c hr hd
    simp only [takeF, bndF, Bool.and_eq_true]
    have hfs : fsep (takeF n r) (some k) = fsep r hi := by
      cases n with
      | zero =>
        simp only [takeF, fsep]
        cases hr2 : r with
        | mnil => rw [hr2] at hd; simp [dropF] at hd
        | mcons k1 c1 r1 =>
          rw [hr2] at hd
          simp only [dropF] at hd
          injection hd with e1 e2 e3
          simp [fsep, e1]
      | succ m =>
        cases hr2 : r with
        | mnil => rw [hr2] at hd; simp [dropF] at hd
        | mcons k1 c1 r1 => simp [takeF, fsep]
    refine ⟨⟨⟨hlo, ?_⟩, ?_⟩, hrec⟩
    · rw [hfs]
      exact hks
    · rw [hfs]
      exact hc0

theorem bndF_dropF : ∀ (n : Nat) (F : MForest) (lo hi : Option Nat) (k : Nat)
    (c : MTree), bndF lo hi F = true → dropF n F = .mcons k c (dropF (n + 1) F) →
    bndF (some k) hi (dropF n F) = true
  | 0, .mnil, lo, hi, k, c, h, hd => by simp [dropF] at hd
  | 0, .mcons k0 c0 r, lo, hi, k, c, h, hd => by
    have hd2 : (MForest.mcons k0 c0 r) = .mcons k c (dropF 1 (.mcons k0 c0 r)) := by
      simpa [dropF] using hd
    injection hd2 with e1 e2 e3
    subst e1
    obtain ⟨hlo, hk, hc, hr, hks⟩ := bndF_cons_parts h
    simp only [dropF, bndF, Bool.and_eq_true]
    exact ⟨⟨⟨by simp [inLoB], hks⟩, hc⟩, hr⟩
  | n + 1, .mnil, lo, hi, k, c, h, hd => by simp [dropF] at hd
  | n + 1, .mcons k0 c0 r, lo, hi, k, c, h, hd => by
    obtain ⟨hlo, hk0, hc0, hr, hks⟩ := bndF_cons_parts h
    simp only [dropF] at hd ⊢
    exact bndF_dropF n r (some k0) hi k c hr hd

theorem upperIdx_map_fst (es : List (Nat × RecordID)) (key : Nat) :
    upperIdx (es.map Prod.fst) key =
      (es.takeWhile (fun e => decide (e.1 ≤ key))).length := by
  unfold upperIdx
  rw [List.takeWhile_map]
  rw [List.length_map]
  rfl

theorem insEntries_map_fst (key : Nat) (rid : RecordID)
    (es : List (Nat × RecordID)) :
    (insEntries key rid es).map Prod.fst =
      (es.map Prod.fst).insertIdx (upperIdx (es.map Prod.fst) key) key := by
  rw [upperIdx_map_fst, insEntries, map_insertIdx]

theorem insEntries_map_snd (key : Nat) (rid : RecordID)
    (es : List (Nat × RecordID)) :
    (insEntries key rid es).map Prod.snd =
      (es.map Prod.snd).insertIdx (upperIdx (es.map Prod.fst) key) rid := by
  rw [upperIdx_map_fst, insEntries, map_insertIdx]

theorem insEntries_eq_parts (key : Nat) (rid : RecordID)
    (es : List (Nat × RecordID)) :
    insEntries key rid es =
      es.takeWhile (fun e => decide (e.1 ≤ key)) ++
        (key, rid) :: es.dropWhile (fun e => decide (e.1 ≤ key)) := by
  unfold insEntries
  have h1 := insertIdx_append_right (es.takeWhile (fun e => decide (e.1 ≤ key))) 0
    (es.dropWhile (fun e => decide (e.1 ≤ key))) (key, rid)
  rw [List.takeWhile_append_dropWhile] at h1
  simpa using h1

theorem lt_of_mem_dropWhile_le (key : Nat) (es : List (Nat × RecordID))
    (hsort : List.Pairwise (fun a b => a.1 < b.1) es) :
    ∀ b ∈ es.dropWhile (fun e => decide (e.1 ≤ key)), key < b.1 := by
  intro b hb
  cases hdw : es.dropWhile (fun e => decide (e.1 ≤ key)) with
  | nil =>
    rw [hdw] at hb
    simp at hb
  | cons d0 rest =>
    have hd0 : key < d0.1 := by
      have := List.head?_dropWhile_not (fun e => decide (e.1 ≤ key)) es
      rw [hdw] at this
      simp only [List.head?, decide_eq_false_iff_not, not_le] at this
      exact this
    have hpw : List.Pairwise (fun a b => a.1 < b.1) (d0 :: rest) := by
      rw [← hdw]
      exact List.Pairwise.sublist (List.dropWhile_sublist _) hsort
    rw [hdw] at hb
    rcases List.mem_cons.mp hb with hb | hb
    · subst hb
      exact hd0
    · have := (List.pairwise_cons.mp hpw).1 b hb
      omega

theorem pairwise_insEntries (key : Nat) (rid : RecordID)
    (es : List (Nat × RecordID))
    (hsort : List.Pairwise (fun a b => a.1 < b.1) es)
    (hfresh : ∀ e ∈ es, e.1 ≠ key) :
    List.Pairwise (fun a b => a.1 < b.1) (insEntries key rid es) := by
  rw [insEntries_eq_parts]
  rw [List.pairwise_append]
  refine ⟨List.Pairwise.sublist (List.takeWhile_sublist _) hsort, ?_, ?_⟩
  · rw [List.pairwise_cons]
    refine ⟨lt_of_mem_dropWhile_le key es hsort, ?_⟩
    exact List.Pairwise.sublist (List.dropWhile_sublist _) hsort
  · intro a ha b hb
    have ha1 : a.1 ≤ key := by
      have := List.mem_takeWhile_imp ha
      simpa using this
    have ha2 : a.1 ≠ key :=
      hfresh a ((List.takeWhile_sublist _).subset ha)
    have ha3 : a.1 < key := lt_of_le_of_ne ha1 ha2
    rcases List.mem_cons.mp hb with hb | hb
    · subst hb
      exact ha3
    · have := lt_of_mem_dropWhile_le key es hsort b hb
      omega

theorem mem_insEntries (key : Nat) (rid : RecordID) (es : List (Nat × RecordID))
    (e : Nat × RecordID) (he : e ∈ insEntries key rid es) :
    e = (key, rid) ∨ e ∈ es := by
  have := (insEntries_perm key rid es).mem_iff.mp he
  simpa using this

theorem ins_leaf (p : Int) (es : List (Nat × RecordID)) (fuel : Nat)
    (s : BTStore) (mk : Nat) (lo hi : Option Nat) (nxt : Int) (key : Nat)
    (rid : RecordID)
    (hdec : decT s (.mleaf p es) nxt = true)
    (hbnd : bndT lo hi (.mleaf p es) = true)
    (hpages : ∀ q ∈ pagesT (.mleaf p es), 0 ≤ q ∧ q < s.nextPage)
    (hklo : inLoB lo key = true) (hkhi : inHiB hi key = true)
    (hfresh : ∀ e ∈ entriesT (.mleaf p es), e.1 ≠ key)
    (hmk : 1 ≤ mk) :
    ∃ s2 res, insertInternal mk (fuel + 1) s p key rid = some (s2, res) ∧
      InsOut s s2 (.mleaf p es) lo hi nxt key rid res := by
  have hfind : findNode s p = some (.leaf (es.map Prod.fst) (es.map Prod.snd) nxt) := by
    simpa [decT] using hdec
  have hsort : List.Pairwise (fun a b => a.1 < b.1) es := by
    have h1 : List.Pairwise (· < ·) (es.map Prod.fst) := by
      simp only [bndT, Bool.and_eq_true, decide_eq_true_eq] at hbnd
      exact hbnd.1
    rwa [List.pairwise_map] at h1
  have hallb : ∀ e ∈ es, inLoB lo e.1 = true ∧ inHiB hi e.1 = true := by
    intro e he
    have := entBT (.mleaf p es) lo hi hbnd e (by simpa [entriesT] using he)
    exact this
  have hfr : ∀ e ∈ es, e.1 ≠ key := fun e he => hfresh e (by simpa [entriesT] using he)
  have hp := hpages p (by simp [pagesT])
  have hE2sort := pairwise_insEntries key rid es hsort hfr
  have hE2len : (insEntries key rid es).length = es.length + 1 := by
    have := (insEntries_perm key rid es).length_eq
    simpa using this
  have hE2b : ∀ e ∈ insEntries key rid es, inLoB lo e.1 = true ∧ inHiB hi e.1 = true := by
    intro e he
    rcases mem_insEntries key rid es e he with he | he
    · subst he
      exact ⟨hklo, hkhi⟩
    · exact hallb e he
  have hkeq : (es.map Prod.fst).insertIdx (upperIdx (es.map Prod.fst) key) key =
      (insEntries key rid es).map Prod.fst := (insEntries_map_fst key rid es).symm
  have hreq : (es.map Prod.snd).insertIdx (upperIdx (es.map Prod.fst) key) rid =
      (insEntries key rid es).map Prod.snd := (insEntries_map_snd key rid es).symm
  simp only [insertInternal, hfind, hkeq, hreq, List.length_map]
  by_cases hov : (insEntries key rid es).length ≤ mk
  · rw [if_pos hov]
    refine ⟨_, _, rfl, ?_, ?_⟩
    · constructor
      · exact le_refl _
      · intro q hq hnp
        apply findNode_writeNode_other
        intro hqp
        exact hnp (by simp [pagesT, hqp])
    · simp only [if_neg (by simp : ¬((false : Bool) = true))]
      refine ⟨.mleaf p (insEntries key rid es), rfl, rfl, ?_, ?_, rfl, ?_, ?_, ?_⟩
      · simp only [decT, decide_eq_true_eq]
        exact findNode_writeNode_self s p _
      · simp only [bndT, Bool.and_eq_true, decide_eq_true_eq, List.all_eq_true]
        constructor
        · rw [List.pairwise_map]
          exact hE2sort
        · intro e he
          have := hE2b e he
          simp [this.1, this.2]
      · simpa [neT] using insEntries_ne_nil key rid es
      · simp [pagesT]
      · intro q hq
        simp only [pagesT, List.mem_singleton] at hq
        subst hq
        exact ⟨Or.inl (by simp [pagesT]), hp.1⟩
  · rw [if_neg hov]
    have hn2 : 2 ≤ (insEntries key rid es).length := by omega
    have hmid1 : 1 ≤ (insEntries key rid es).length / 2 := by omega
    have hmidlt : (insEntries key rid es).length / 2 < (insEntries key rid es).length := by
      omega
    obtain ⟨e0, rest, hdrop⟩ :
        ∃ e0 rest, (insEntries key rid es).drop ((insEntries key rid es).length / 2) =
          e0 :: rest := by
      cases hd : (insEntries key rid es).drop ((insEntries key rid es).length / 2) with
      | nil =>
        have := congrArg List.length hd
        simp only [List.length_drop, List.length_nil] at this
        omega
      | cons a b => exact ⟨a, b, rfl⟩
    have he0 : e0 ∈ insEntries key rid es :=
      List.mem_of_mem_drop (by rw [hdrop]; simp)
    have hcross : ∀ a ∈ (insEntries key rid es).take
        ((insEntries key rid es).length / 2), a.1 < e0.1 := by
      intro a ha
      have hsplit := List.take_append_drop
        ((insEntries key rid es).length / 2) (insEntries key rid es)
      have hpw : List.Pairwise (fun a b => a.1 < b.1)
          ((insEntries key rid es).take ((insEntries key rid es).length / 2) ++
            (insEntries key rid es).drop ((insEntries key rid es).length / 2)) := by
        rw [hsplit]
        exact hE2sort
      have := (List.pairwise_append.mp hpw).2.2 a ha e0 (by rw [hdrop]; simp)
      exact this
    have hdroppw : List.Pairwise (fun a b => a.1 < b.1)
        ((insEntries key rid es).drop ((insEntries key rid es).length / 2)) :=
      List.Pairwise.sublist (List.drop_sublist _ _) hE2sort
    have hdropge : ∀ b ∈ (insEntries key rid es).drop
        ((insEntries key rid es).length / 2), e0.1 ≤ b.1 := by
      intro b hb
      rw [hdrop] at hb
      rcases List.mem_cons.mp hb with hb | hb
      · subst hb
        exact le_refl _
      · rw [hdrop] at hdroppw
        exact le_of_lt ((List.pairwise_cons.mp hdroppw).1 b hb)
    have hsep : (((insEntries key rid es).map Prod.fst).drop
        ((insEntries key rid es).length / 2)).headD 0 = e0.1 := by
      rw [← List.map_drop, hdrop]
      simp
    refine ⟨_, _, rfl, ?_, ?_⟩
    · constructor
      · simp only [writeNode]
        omega
      · intro q hq hnp
        have hq1 : q ≠ p := fun h => hnp (by simp [pagesT, h])
        have hq2 : q ≠ s.nextPage := by omega
        rw [findNode_writeNode_other _ _ _ _ hq1, findNode_writeNode_other _ _ _ _ hq2]
        rfl
    · simp only [if_pos rfl]
      refine ⟨.mleaf p ((insEntries key rid es).take ((insEntries key rid es).length / 2)),
        .mleaf s.nextPage ((insEntries key rid es).drop ((insEntries key rid es).length / 2)),
        rfl, rfl, rfl, ?_, ?_, ?_, ?_, ?_, ?_, ?_, ?_, ?_, ?_, ?_, ?_⟩
      · simp only [decT, headT, decide_eq_true_eq]
        rw [← List.map_take, ← List.map_take]
        exact findNode_writeNode_self _ p _
      · simp only [decT, decide_eq_true_eq]
        rw [← List.map_drop, ← List.map_drop]
        rw [findNode_writeNode_other _ _ _ _ (by intro h; omega)]
        exact findNode_writeNode_self _ _ _
      · rw [hsep]
        simp only [bndT, Bool.and_eq_true, decide_eq_true_eq, List.all_eq_true]
        constructor
        · rw [List.pairwise_map]
          exact List.Pairwise.sublist (List.take_sublist _ _) hE2sort
        · intro e he
          have h1 := hE2b e (List.mem_of_mem_take he)
          have h2 := hcross e he
          exact ⟨h1.1, by simp [inHiB, h2]⟩
      · rw [hsep]
        simp only [bndT, Bool.and_eq_true, decide_eq_true_eq, List.all_eq_true]
        constructor
        · rw [List.pairwise_map]
          exact hdroppw
        · intro e he
          have h1 := hE2b e (List.mem_of_mem_drop he)
          have h2 := hdropge e he
          exact ⟨by simp [inLoB, h2], h1.2⟩
      · rw [hsep]
        exact (hE2b e0 he0).1
      · rw [hsep]
        exact (hE2b e0 he0).2
      · simp only [entriesT]
        exact List.take_append_drop _ _
      · simp only [entriesT]
        intro h
        have := congrArg List.length h
        simp only [List.length_take, List.length_nil] at this
        rw [Nat.min_eq_left (le_of_lt hmidlt)] at this
        omega
      · simp only [neT, entriesT, ne_eq, decide_eq_true_eq]
        intro h
        have := congrArg List.length h
        simp only [List.length_take, List.length_nil] at this
        rw [Nat.min_eq_left (le_of_lt hmidlt)] at this
        omega
      · simp only [neT, entriesT, ne_eq, decide_eq_true_eq]
        rw [hdrop]
        simp
      · have hne : p ≠ s.nextPage := by omega
        simp [pagesT, hne]
      · intro q hq
        simp only [pagesT, List.singleton_append] at hq
        simp only [writeNode]
        rcases List.mem_cons.mp hq with hq | hq
        · rw [hq]
          exact ⟨Or.inl (by simp [pagesT]), hp.1⟩
        · have hq2 : q = s.nextPage := by simpa using hq
          rw [hq2]
          exact ⟨Or.inr ⟨le_refl _, by omega⟩, by omega⟩

theorem rootsF_length : ∀ (F : MForest), (rootsF F).length = (sepsF F).length
  | .mnil => rfl
  | .mcons k c r => by simp [rootsF, sepsF, rootsF_length r]

theorem finish_internal (mk : Nat) (s s2 : BTStore) (p : Int) (c0 : MTree)
    (F2 : MForest) (lo hi : Option Nat) (nxt : Int)
    (hdec0 : decT s2 c0 (headF F2 nxt) = true)
    (hdecF : decF s2 F2 nxt = true)
    (hbnd0 : bndT lo (fsep F2 hi) c0 = true)
    (hbndF : bndF lo hi F2 = true)
    (hne0 : neT c0 = true) (hneF : neF F2 = true)
    (hnodup : (p :: (pagesT c0 ++ pagesF F2)).Nodup)
    (hp0 : 0 ≤ p) (hplt : p < s.nextPage)
    (hpages : ∀ q ∈ pagesT c0 ++ pagesF F2, 0 ≤ q ∧ q < s2.nextPage)
    (hsnp : s.nextPage ≤ s2.nextPage) (hsnp0 : 0 ≤ s.nextPage)
    (k1 : Nat) (c1 : MTree) (r1 : MForest) (hFne : F2 = .mcons k1 c1 r1)
    (hmk : 1 ≤ mk) :
    ∃ s3 res,
      finishInternal mk s2 p (sepsF F2) (rootPage c0 :: rootsF F2) = (s3, res) ∧
      Frame s2 s3 (p :: (pagesT c0 ++ pagesF F2)) ∧
      (if res.did_split = true then
        ∃ T1 T2, rootPage T2 = res.new_page_id ∧
          rootPage T1 = p ∧ headT T1 = headT c0 ∧
          decT s3 T1 (headT T2) = true ∧ decT s3 T2 nxt = true ∧
          bndT lo (some res.split_key) T1 = true ∧
          bndT (some res.split_key) hi T2 = true ∧
          inLoB lo res.split_key = true ∧ inHiB hi res.split_key = true ∧
          entriesT T1 ++ entriesT T2 = entriesT c0 ++ entriesF F2 ∧
          entriesT T1 ≠ [] ∧ neT T1 = true ∧ neT T2 = true ∧
          (pagesT T1 ++ pagesT T2).Nodup ∧
          (∀ q ∈ pagesT T1 ++ pagesT T2,
            (q ∈ p :: (pagesT c0 ++ pagesF F2) ∨
              (s2.nextPage ≤ q ∧ q < s3.nextPage)) ∧ 0 ≤ q)
      else
        ∃ T1, rootPage T1 = p ∧ headT T1 = headT c0 ∧
          decT s3 T1 nxt = true ∧ bndT lo hi T1 = true ∧
          entriesT T1 = entriesT c0 ++ entriesF F2 ∧ neT T1 = true ∧
          (pagesT T1).Nodup ∧
          (∀ q ∈ pagesT T1,
            (q ∈ p :: (pagesT c0 ++ pagesF F2) ∨
              (s2.nextPage ≤ q ∧ q < s3.nextPage)) ∧ 0 ≤ q)) := by
  have hpnotin : p ∉ pagesT c0 ++ pagesF F2 := (List.nodup_cons.mp hnodup).1
  by_cases hov : (sepsF F2).length ≤ mk
  · refine ⟨_, _, by rw [finishInternal, if_pos hov], ?_, ?_⟩
    · constructor
      · simp only [writeNode]
        exact le_refl _
      · intro q hq hnp
        apply findNode_writeNode_other
        intro hqp
        exact hnp (by simp [hqp])
    · simp only [if_neg (by simp : ¬((false : Bool) = true))]
      refine ⟨.mnode p c0 F2, rfl, rfl, ?_, ?_, rfl, ?_, hnodup, ?_⟩
      · simp only [decT, Bool.and_eq_true, decide_eq_true_eq]
        refine ⟨⟨findNode_writeNode_self _ _ _, ?_⟩, ?_⟩
        · exact decT_frame c0 s2 _ _ hdec0 (fun q hq =>
            findNode_writeNode_other _ _ _ _ (fun h => hpnotin (h ▸ List.mem_append.mpr (Or.inl hq))))
        · exact decF_frame F2 s2 _ _ hdecF (fun q hq =>
            findNode_writeNode_other _ _ _ _ (fun h => hpnotin (h ▸ List.mem_append.mpr (Or.inr hq))))
      · simp only [bndT, Bool.and_eq_true]
        exact ⟨hbnd0, hbndF⟩
      · simp only [neT, Bool.and_eq_true]
        exact ⟨hne0, hneF⟩
      · intro q hq
        simp only [pagesT] at hq
        rcases List.mem_cons.mp hq with hq | hq
        · subst hq
          exact ⟨Or.inl (by simp), hp0⟩
        · exact ⟨Or.inl (by simp [hq]), (hpages q hq).1⟩
  · have h2n : 2 ≤ (sepsF F2).length := by omega
    have hmid1 : 1 ≤ (sepsF F2).length / 2 := by omega
    have hmidlt : (sepsF F2).length / 2 < (sepsF F2).length := by omega
    obtain ⟨push, cR, hdF⟩ := dropF_cons ((sepsF F2).length / 2) F2 hmidlt
    have hpushmem : push ∈ sepsF F2 := by
      have h1 : sepsF (dropF ((sepsF F2).length / 2) F2) =
          (sepsF F2).drop ((sepsF F2).length / 2) := sepsF_dropF _ _
      rw [hdF] at h1
      simp only [sepsF] at h1
      have : push ∈ (sepsF F2).drop ((sepsF F2).length / 2) := by
        rw [← h1]
        simp
      exact List.mem_of_mem_drop this
    have hgetD : (sepsF F2).getD ((sepsF F2).length / 2) 0 = push := by
      have h1 : sepsF (dropF ((sepsF F2).length / 2) F2) =
          (sepsF F2).drop ((sepsF F2).length / 2) := sepsF_dropF _ _
      rw [hdF] at h1
      simp only [sepsF] at h1
      rw [List.getD_eq_getElem?_getD, ← List.head?_drop, ← h1]
      simp
    obtain ⟨hdecL, hdecR⟩ := decF_split ((sepsF F2).length / 2) F2 s2 nxt hdecF
    have hheadR : headF (dropF ((sepsF F2).length / 2) F2) nxt = headT cR := by
      rw [hdF]
      simp [headF]
    have hbndL := bndF_takeF ((sepsF F2).length / 2) F2 lo hi push cR hbndF hdF
    have hbndR := bndF_dropF ((sepsF F2).length / 2) F2 lo hi push cR hbndF hdF
    rw [hdF] at hbndR
    obtain ⟨hRlo, hRhi, hbndcR, hbndrest, hRks⟩ := bndF_cons_parts hbndR
    have hneL := neF_takeF ((sepsF F2).length / 2) F2 hneF
    have hneR := neF_dropF ((sepsF F2).length / 2) F2 hneF
    rw [hdF] at hneR
    simp only [neF, Bool.and_eq_true] at hneR
    have hsepsL : sepsF (takeF ((sepsF F2).length / 2) F2) =
        (sepsF F2).take ((sepsF F2).length / 2) := sepsF_takeF _ _
    have hrootsL : rootsF (takeF ((sepsF F2).length / 2) F2) =
        (rootsF F2).take ((sepsF F2).length / 2) := rootsF_takeF _ _
    have hlenroots : (rootsF F2).length = (sepsF F2).length := rootsF_length F2
    have hsepsR : sepsF (dropF ((sepsF F2).length / 2 + 1) F2) =
        (sepsF F2).drop ((sepsF F2).length / 2 + 1) := sepsF_dropF _ _
    have hrootsR : (rootsF F2).drop ((sepsF F2).length / 2) =
        rootPage cR :: rootsF (dropF ((sepsF F2).length / 2 + 1) F2) := by
      have h1 : rootsF (dropF ((sepsF F2).length / 2) F2) =
          (rootsF F2).drop ((sepsF F2).length / 2) := rootsF_dropF _ _
      rw [hdF] at h1
      simpa [rootsF] using h1.symm
    refine ⟨_, _, by rw [finishInternal, if_neg hov], ?_, ?_⟩
    · constructor
      · simp only [writeNode]
        omega
      · intro q hq hnp
        have hq1 : q ≠ p := fun h => hnp (by simp [h])
        have hq2 : q ≠ s2.nextPage := by omega
        rw [findNode_writeNode_other _ _ _ _ hq1, findNode_writeNode_other _ _ _ _ hq2]
        rfl
    · simp only [if_pos rfl]
      have hpagesL : ∀ q ∈ pagesF (takeF ((sepsF F2).length / 2) F2), q ∈ pagesF F2 := by
      
      
        intro q hq
        rw [← pagesF_take_drop ((sepsF F2).length / 2) F2]
        exact List.mem_append.mpr (Or.inl hq)
      have hpagesR : ∀ q ∈ pagesT cR ++ pagesF (dropF ((sepsF F2).length / 2 + 1) F2),
          q ∈ pagesF F2 := by
        intro q hq
        rw [← pagesF_take_drop ((sepsF F2).length / 2) F2]
        apply List.mem_append.mpr
        right
        rw [hdF]
        simpa [pagesF] using hq
      have hframe2 : ∀ q ∈ pagesT c0 ++ pagesF F2,
          findNode
            (writeNode (writeNode { s2 with nextPage := s2.nextPage + 1 } s2.nextPage
              (.internal ((sepsF F2).drop ((sepsF F2).length / 2 + 1))
                ((rootPage c0 :: rootsF F2).drop ((sepsF F2).length / 2 + 1))) ) p
              (.internal ((sepsF F2).take ((sepsF F2).length / 2))
                ((rootPage c0 :: rootsF F2).take ((sepsF F2).length / 2 + 1)))) q =
            findNode s2 q := by
        intro q hq
        have hq1 : q ≠ p := fun h => hpnotin (h ▸ hq)
        have hq2 : q ≠ s2.nextPage := by
          have := (hpages q hq).2
          omega
        rw [findNode_writeNode_other _ _ _ _ hq1, findNode_writeNode_other _ _ _ _ hq2]
        rfl
      have hfsL : fsep (takeF ((sepsF F2).length / 2) F2) (some push) = fsep F2 hi := by
        subst hFne
        obtain ⟨m, hm⟩ : ∃ m, (sepsF (MForest.mcons k1 c1 r1)).length / 2 = m + 1 :=
          ⟨_, (Nat.succ_pred_eq_of_pos hmid1).symm⟩
        rw [hm]
        simp [takeF, fsep]
      have hentR : entriesF (dropF ((sepsF F2).length / 2) F2) =
          entriesT cR ++ entriesF (dropF ((sepsF F2).length / 2 + 1) F2) := by
        rw [hdF]
        rfl
      have hBC : pagesF (takeF ((sepsF F2).length / 2) F2) ++
          (pagesT cR ++ pagesF (dropF ((sepsF F2).length / 2 + 1) F2)) = pagesF F2 := by
        rw [← pagesF_take_drop ((sepsF F2).length / 2) F2, hdF]
        simp [pagesF]
      have heq : (p :: (pagesT c0 ++ pagesF (takeF ((sepsF F2).length / 2) F2))) ++
          (pagesT cR ++ pagesF (dropF ((sepsF F2).length / 2 + 1) F2)) =
          p :: (pagesT c0 ++ pagesF F2) := by
        simp only [List.cons_append, List.append_assoc]
        rw [← List.append_assoc (pagesF (takeF ((sepsF F2).length / 2) F2)), ← hBC]
        simp [List.append_assoc]
      have hperm := @List.perm_middle Int s2.nextPage
        (p :: (pagesT c0 ++ pagesF (takeF ((sepsF F2).length / 2) F2)))
        (pagesT cR ++ pagesF (dropF ((sepsF F2).length / 2 + 1) F2))
      rw [heq] at hperm
      have hnidnotin : s2.nextPage ∉ p :: (pagesT c0 ++ pagesF F2) := by
        intro hmem
        rcases List.mem_cons.mp hmem with hmem | hmem
        · omega
        · have := (hpages _ hmem).2
          omega
      refine ⟨.mnode p c0 (takeF ((sepsF F2).length / 2) F2),
        .mnode s2.nextPage cR (dropF ((sepsF F2).length / 2 + 1) F2),
        rfl, rfl, rfl, ?_, ?_, ?_, ?_, ?_, ?_, ?_, ?_, ?_, ?_, ?_, ?_⟩
      · simp only [decT, Bool.and_eq_true, decide_eq_true_eq, headT]
        refine ⟨⟨?_, ?_⟩, ?_⟩
        · rw [findNode_writeNode_self]
          rw [List.take_succ_cons, ← hrootsL, ← hsepsL]
        · have he : headF (takeF ((sepsF F2).length / 2) F2) (headT cR) = headF F2 nxt := by
            rw [← hheadR]
            exact headF_take_drop _ _ _
          rw [he]
          exact decT_frame c0 s2 _ _ hdec0 (fun q hq =>
            hframe2 q (List.mem_append.mpr (Or.inl hq)))
        · rw [hheadR] at hdecL
          exact decF_frame _ s2 _ _ hdecL (fun q hq =>
            hframe2 q (List.mem_append.mpr (Or.inr (hpagesL q hq))))
      · have hdR2 : decF s2 (dropF ((sepsF F2).length / 2) F2) nxt = true := hdecR
        rw [hdF] at hdR2
        simp only [decF, Bool.and_eq_true] at hdR2
        simp only [decT, Bool.and_eq_true, decide_eq_true_eq]
        have hpne : p ≠ s2.nextPage := by omega
        refine ⟨⟨?_, ?_⟩, ?_⟩
        · rw [findNode_writeNode_other _ _ _ _ (Ne.symm hpne), findNode_writeNode_self]
          rw [List.drop_succ_cons, hrootsR, ← hsepsR]
        · exact decT_frame cR s2 _ _ hdR2.1 (fun q hq =>
            hframe2 q (List.mem_append.mpr (Or.inr
              (hpagesR q (List.mem_append.mpr (Or.inl hq))))))
        · exact decF_frame _ s2 _ _ hdR2.2 (fun q hq =>
            hframe2 q (List.mem_append.mpr (Or.inr
              (hpagesR q (List.mem_append.mpr (Or.inr hq))))))
      · rw [hgetD]
        simp only [bndT, Bool.and_eq_true]
        rw [hfsL]
        exact ⟨hbnd0, hbndL⟩
      · rw [hgetD]
        simp only [bndT, Bool.and_eq_true]
        exact ⟨hbndcR, hbndrest⟩
      · rw [hgetD]
        exact (sepsB F2 lo hi hbndF push hpushmem).1
      · rw [hgetD]
        exact (sepsB F2 lo hi hbndF push hpushmem).2
      · simp only [entriesT]
        rw [List.append_assoc, ← hentR, entriesF_take_drop]
      · apply neT_entries
        simp only [neT, Bool.and_eq_true]
        exact ⟨hne0, hneL⟩
      · simp only [neT, Bool.and_eq_true]
        exact ⟨hne0, hneL⟩
      · simp only [neT, Bool.and_eq_true]
        exact ⟨hneR.1, hneR.2⟩
      · simp only [pagesT]
        refine hperm.symm.nodup ?_
        rw [List.nodup_cons]
        exact ⟨hnidnotin, hnodup⟩
      · intro q hq
        simp only [pagesT] at hq
        have hq2 := hperm.mem_iff.mp hq
        simp only [writeNode]
        rcases List.mem_cons.mp hq2 with hq2 | hq2
        · rw [hq2]
          refine ⟨Or.inr ⟨le_refl _, by omega⟩, by omega⟩
        · rcases List.mem_cons.mp hq2 with hq2 | hq2
          · rw [hq2]
            exact ⟨Or.inl (by simp), hp0⟩
          · exact ⟨Or.inl (by simp [hq2]), (hpages _ hq2).1⟩

theorem frame_mono {s s2 : BTStore} {ps ps2 : List Int} (h : Frame s s2 ps)
    (hsub : ∀ q, q ∉ ps2 → q ∉ ps) : Frame s s2 ps2 :=
  ⟨h.1, fun q hq hnp => h.2 q hq (hsub q hnp)⟩

theorem frame_comp {s s2 s3 : BTStore} {ps1 ps2 ps : List Int}
    (h1 : Frame s s2 ps1) (h2 : Frame s2 s3 ps2)
    (hs1 : ∀ q, q < s.nextPage → q ∉ ps → q ∉ ps1)
    (hs2 : ∀ q, q < s.nextPage → q ∉ ps → q ∉ ps2) : Frame s s3 ps := by
  refine ⟨le_trans h1.1 h2.1, ?_⟩
  intro q hq hnp
  rw [h2.2 q (by have := h1.1; omega) (hs2 q hq hnp), h1.2 q hq (hs1 q hq hnp)]

theorem fsep_of_seps_head : ∀ (F1 F2 : MForest) (hi : Option Nat),
    (sepsF F1).head? = (sepsF F2).head? → fsep F1 hi = fsep F2 hi
  | .mnil, .mnil, _, _ => rfl
  | .mnil, .mcons _ _ _, _, h => by simp [sepsF] at h
  | .mcons _ _ _, .mnil, _, h => by simp [sepsF] at h
  | .mcons k1 _ _, .mcons k2 _ _, _, h => by
    simp only [sepsF, List.head?_cons, Option.some.injEq] at h
    simp [fsep, h]

theorem upperIdx_nil (key : Nat) : upperIdx [] key = 0 := rfl

theorem upperIdx_cons_le {k key : Nat} (l : List Nat) (h : k ≤ key) :
    upperIdx (k :: l) key = upperIdx l key + 1 := by
  simp [upperIdx, List.takeWhile_cons, decide_eq_true h]

theorem upperIdx_cons_gt {k key : Nat} (l : List Nat) (h : key < k) :
    upperIdx (k :: l) key = 0 := by
  simp [upperIdx, List.takeWhile_cons, decide_eq_false (by omega : ¬(k ≤ key))]

theorem nodup_new_old (N C D : List Int) (sA sB : Int)
    (hN : N.Nodup) (hD : D.Nodup)
    (hmem : ∀ q ∈ N, q ∈ C ∨ (sA ≤ q ∧ q < sB))
    (hCD : ∀ q ∈ C, q ∉ D) (hDlt : ∀ q ∈ D, q < sA) :
    (N ++ D).Nodup := by
  rw [List.nodup_append]
  refine ⟨hN, hD, ?_⟩
  intro q hqN hqD
  rcases hmem q hqN with h | h
  · exact hCD q h hqD
  · have := hDlt q hqD
    omega

theorem finish_to_insOut (mk : Nat) (s s2 : BTStore) (p : Int) (c0 : MTree)
    (F2 : MForest) (T : MTree) (lo hi : Option Nat) (nxt : Int) (key : Nat)
    (rid : RecordID)
    (hdec0 : decT s2 c0 (headF F2 nxt) = true)
    (hdecF : decF s2 F2 nxt = true)
    (hbnd0 : bndT lo (fsep F2 hi) c0 = true)
    (hbndF : bndF lo hi F2 = true)
    (hne0 : neT c0 = true) (hneF : neF F2 = true)
    (hnodup : (p :: (pagesT c0 ++ pagesF F2)).Nodup)
    (hp0 : 0 ≤ p) (hplt : p < s.nextPage)
    (hpages2 : ∀ q ∈ pagesT c0 ++ pagesF F2, 0 ≤ q ∧ q < s2.nextPage)
    (hsnp : s.nextPage ≤ s2.nextPage) (hsnp0 : 0 ≤ s.nextPage)
    (k1 : Nat) (c1 : MTree) (r1 : MForest) (hFne : F2 = .mcons k1 c1 r1)
    (hmk : 1 ≤ mk)
    (hT : rootPage T = p) (hheadc : headT c0 = headT T)
    (hentries : entriesT c0 ++ entriesF F2 = insEntries key rid (entriesT T))
    (hpagesub : ∀ q ∈ pagesT c0 ++ pagesF F2,
      (q ∈ pagesT T ∨ (s.nextPage ≤ q ∧ q < s2.nextPage)) ∧ 0 ≤ q)
    (hptop : p ∈ pagesT T)
    (hframe1 : Frame s s2 (pagesT T)) :
    ∃ s3 res3,
      finishInternal mk s2 p (sepsF F2) (rootPage c0 :: rootsF F2) = (s3, res3) ∧
        InsOut s s3 T lo hi nxt key rid res3 := by
  obtain ⟨s3, res3, hfin, hframe3, hfout⟩ := finish_internal mk s s2 p c0 F2 lo
    hi nxt hdec0 hdecF hbnd0 hbndF hne0 hneF hnodup hp0 hplt hpages2 hsnp hsnp0
    k1 c1 r1 hFne hmk
  refine ⟨s3, res3, hfin, ?_, ?_⟩
  · refine frame_comp hframe1 hframe3 (fun q hq hnp => hnp) ?_
    intro q hq hnp hmem
    rcases List.mem_cons.mp hmem with hmem | hmem
    · exact hnp (hmem ▸ hptop)
    · rcases (hpagesub q hmem).1 with h | h
      · exact hnp h
      · omega
  · cases hds : res3.did_split with
    | false =>
      rw [hds] at hfout
      simp only [Bool.false_eq_true, if_false] at hfout ⊢
      obtain ⟨T1, hroot1, hhead1, hdec1, hbnd1, hent1, hne1, hnodup1, hmem1⟩ := hfout
      refine ⟨T1, hroot1.trans hT.symm, hhead1.trans hheadc, hdec1, hbnd1,
        hent1.trans hentries, hne1, hnodup1, ?_⟩
      intro q hq
      obtain ⟨hm, hq0⟩ := hmem1 q hq
      refine ⟨?_, hq0⟩
      rcases hm with hm | hm
      · rcases List.mem_cons.mp hm with hm | hm
        · exact Or.inl (hm ▸ hptop)
        · rcases (hpagesub q hm).1 with h | h
          · exact Or.inl h
          · refine Or.inr ⟨h.1, ?_⟩
            have := hframe3.1
            omega
      · refine Or.inr ⟨by omega, hm.2⟩
    | true =>
      rw [hds] at hfout
      simp only [if_pos rfl] at hfout ⊢
      obtain ⟨T1, T2, hroot2, hroot1, hhead1, hdec1, hdec2, hbnd1, hbnd2, hsl,
        hsh, hent, hent1ne, hne1, hne2x, hnodup12, hmem12⟩ := hfout
      refine ⟨T1, T2, hroot2, hroot1.trans hT.symm, hhead1.trans hheadc, hdec1,
        hdec2, hbnd1, hbnd2, hsl, hsh, hent.trans hentries, hent1ne, hne1, hne2x,
        hnodup12, ?_⟩
      intro q hq
      obtain ⟨hm, hq0⟩ := hmem12 q hq
      refine ⟨?_, hq0⟩
      rcases hm with hm | hm
      · rcases List.mem_cons.mp hm with hm | hm
        · exact Or.inl (hm ▸ hptop)
        · rcases (hpagesub q hm).1 with h | h
          · exact Or.inl h
          · refine Or.inr ⟨h.1, ?_⟩
            have := hframe3.1
            omega
      · refine Or.inr ⟨by omega, hm.2⟩

mutual
theorem insT : ∀ (T : MTree) (fuel : Nat) (s : BTStore) (mk : Nat)
    (lo hi : Option Nat) (nxt : Int) (key : Nat) (rid : RecordID),
    decT s T nxt = true → bndT lo hi T = true →
    (pagesT T).Nodup → (∀ q ∈ pagesT T, 0 ≤ q ∧ q < s.nextPage) →
    0 ≤ s.nextPage → inLoB lo key = true → inHiB hi key = true →
    (∀ e ∈ entriesT T, e.1 ≠ key) →
    (neT T = true ∨ ∃ p es, T = .mleaf p es) →
    1 ≤ mk → depthT T ≤ fuel →
    ∃ s2 res, insertInternal mk fuel s (rootPage T) key rid = some (s2, res) ∧
      InsOut s s2 T lo hi nxt key rid res
  | .mleaf p es, fuel, s, mk, lo, hi, nxt, key, rid, hdec, hbnd, hnodup, hpages,
      hsnp0, hklo, hkhi, hfresh, hne, hmk, hdepth => by
    cases fuel with
    | zero => simp [depthT] at hdepth
    | succ f =>
      exact ins_leaf p es f s mk lo hi nxt key rid hdec hbnd hpages hklo hkhi
        hfresh hmk
  | .mnode p c r, fuel, s, mk, lo, hi, nxt, key, rid, hdec, hbnd, hnodup, hpages,
      hsnp0, hklo, hkhi, hfresh, hne, hmk, hdepth => by
    cases fuel with
    | zero => simp [depthT] at hdepth
    | succ f =>
      have hne2 : neT (.mnode p c r) = true := by
        rcases hne with h | ⟨p2, es2, h⟩
        · exact h
        · exact absurd h (by simp)
      simp only [neT, Bool.and_eq_true] at hne2
      simp only [decT, Bool.and_eq_true, decide_eq_true_eq] at hdec
      obtain ⟨⟨hfind, hdecc⟩, hdecr⟩ := hdec
      simp only [bndT, Bool.and_eq_true] at hbnd
      obtain ⟨hbndc, hbndr⟩ := hbnd
      simp only [depthT] at hdepth
      have hdc : depthT c ≤ f := by omega
      have hdr : depthF r ≤ f := by omega
      simp only [pagesT] at hnodup hpages
      have hpmem := hpages p (by simp)
      have hpnotin : p ∉ pagesT c ++ pagesF r := (List.nodup_cons.mp hnodup).1
      have hcr := List.nodup_append.mp (List.nodup_cons.mp hnodup).2
      rcases Nat.eq_zero_or_pos (upperIdx (sepsF r) key) with hidx | hidx
      · -- the key routes into the first child
        have hkfr : inHiB (fsep r hi) key = true := by
          cases hr2 : r with
          | mnil => exact hkhi
          | mcons k1 c1 r1 =>
            rw [hr2] at hidx
            simp only [sepsF] at hidx
            by_cases hk1 : k1 ≤ key
            · rw [upperIdx_cons_le _ hk1] at hidx
              omega
            · simp [fsep, inHiB]
              omega
        obtain ⟨s2, res, hins, hframe, hout⟩ := insT c f s mk lo (fsep r hi)
          (headF r nxt) key rid hdecc hbndc hcr.1
          (fun q hq => hpages q (by simp [hq])) hsnp0 hklo hkfr
          (fun e he => hfresh e (by simp [entriesT, he]))
          (Or.inl hne2.1) hmk hdc
        have hkey_lt_r : ∀ y ∈ entriesF r, key < y.1 := by
          intro y hy
          cases hr2 : r with
          | mnil =>
            rw [hr2] at hy
            simp [entriesF] at hy
          | mcons k1 c1 r1 =>
            rw [hr2] at hidx hbndr hy
            have h1 := entBF_first hbndr y hy
            simp only [sepsF] at hidx
            by_cases hk1 : k1 ≤ key
            · rw [upperIdx_cons_le _ hk1] at hidx
              omega
            · omega
        have hfp : findNode s2 p = findNode s p := hframe.2 p hpmem.2
          (fun h => hpnotin (List.mem_append.mpr (Or.inl h)))
        have hframeR : ∀ q ∈ pagesF r, findNode s2 q = findNode s q := by
          intro q hq
          exact hframe.2 q (hpages q (by simp [hq])).2 (fun h => hcr.2.2 h hq)
        have hdecr2 : decF s2 r nxt = true := decF_frame r s s2 nxt hdecr hframeR
        have hframe1 : Frame s s2 (pagesT (.mnode p c r)) :=
          frame_mono hframe (fun q hnp hc => hnp (by simp [pagesT, hc]))
        have hstep : insertInternal mk (f + 1) s (rootPage (.mnode p c r)) key rid =
            (if res.did_split = false then
              some (s2, ⟨false, 0, INVALID_PAGE_ID⟩)
            else some (finishInternal mk s2 p ((sepsF r).insertIdx 0 res.split_key)
              ((rootPage c :: rootsF r).insertIdx (0 + 1) res.new_page_id))) := by
          show insertInternal mk (f + 1) s p key rid = _
          simp only [insertInternal, hfind, hidx, List.get?_cons_zero, hins]
        rw [hstep]
        cases hds : res.did_split with
        | false =>
          rw [hds] at hout
          simp only [Bool.false_eq_true, if_false] at hout
          obtain ⟨T1, hroot1, hhead1, hdec1, hbnd1, hent1, hne1, hnodup1, hmem1⟩ := hout
          rw [if_pos rfl]
          refine ⟨s2, _, rfl, ?_, ?_⟩
          · exact hframe1
          · simp only [Bool.false_eq_true, if_false]
            refine ⟨.mnode p T1 r, rfl, ?_, ?_, ?_, ?_, ?_, ?_, ?_⟩
            · simp [headT, hhead1]
            · simp only [decT, Bool.and_eq_true, decide_eq_true_eq]
              refine ⟨⟨?_, hdec1⟩, hdecr2⟩
              rw [hroot1, hfp]
              exact hfind
            · simp only [bndT, Bool.and_eq_true]
              exact ⟨hbnd1, hbndr⟩
            · simp only [entriesT]
              rw [hent1, ← insEntries_append_left key rid _ _ hkey_lt_r]
            · simp only [neT, Bool.and_eq_true]
              exact ⟨hne1, hne2.2⟩
            · simp only [pagesT, List.nodup_cons]
              constructor
              · intro hp2
                rcases List.mem_append.mp hp2 with h | h
                · rcases (hmem1 p h).1 with h2 | h2
                  · exact hpnotin (List.mem_append.mpr (Or.inl h2))
                  · have := hpmem.2
                    omega
                · exact hpnotin (List.mem_append.mpr (Or.inr h))
              · exact nodup_new_old (pagesT T1) (pagesT c) (pagesF r) s.nextPage
                  s2.nextPage hnodup1 hcr.2.1 (fun q hq => (hmem1 q hq).1)
                  (fun q hq hq2 => hcr.2.2 hq hq2)
                  (fun q hq => (hpages q (by simp [hq])).2)
            · intro q hq
              simp only [pagesT] at hq
              rcases List.mem_cons.mp hq with hq | hq
              · exact ⟨Or.inl (by simp [pagesT, hq]), hq ▸ hpmem.1⟩
              · rcases List.mem_append.mp hq with hq | hq
                · obtain ⟨hm, h0⟩ := hmem1 q hq
                  refine ⟨?_, h0⟩
                  rcases hm with hm | hm
                  · exact Or.inl (by simp [pagesT, hm])
                  · exact Or.inr hm
                · exact ⟨Or.inl (by simp [pagesT, hq]),
                    (hpages q (by simp [hq])).1⟩
        | true =>
          rw [hds] at hout
          simp only [if_pos rfl] at hout
          obtain ⟨T1, T2, hroot2, hroot1, hhead1, hdec1, hdec2, hbnd1, hbnd2,
            hsl, hsh, hent, hent1ne, hne1, hne2x, hnodup12, hmem12⟩ := hout
          have hmemTT : ∀ q ∈ pagesT T1 ++
              (pagesT T2 ++ pagesF r),
              (q ∈ pagesT (.mnode p c r) ∨ (s.nextPage ≤ q ∧ q < s2.nextPage)) ∧
                0 ≤ q := by
            intro q hq
            rw [← List.append_assoc] at hq
            rcases List.mem_append.mp hq with hq | hq
            · obtain ⟨hm, h0⟩ := hmem12 q hq
              refine ⟨?_, h0⟩
              rcases hm with hm | hm
              · exact Or.inl (by simp [pagesT, hm])
              · exact Or.inr hm
            · exact ⟨Or.inl (by simp [pagesT, hq]), (hpages q (by simp [hq])).1⟩
          obtain ⟨s3, res3, hfin, hinsout⟩ := finish_to_insOut mk s s2 p T1
            (.mcons res.split_key T2 r) (.mnode p c r) lo hi nxt key rid
            (by simpa [headF] using hdec1)
            (by simp only [decF, Bool.and_eq_true]; exact ⟨hdec2, hdecr2⟩)
            (by simpa [fsep] using hbnd1)
            (by
              simp only [bndF, Bool.and_eq_true]
              refine ⟨⟨⟨hsl, hsh⟩, hbnd2⟩, ?_⟩
              apply bndF_mono_lo hbndr
              intro k2 c2 r2 heq2
              rw [heq2] at hsh
              simp only [fsep, inHiB, decide_eq_true_eq] at hsh
              simp only [inLoB, decide_eq_true_eq]
              omega)
            hne1
            (by simp only [neF, Bool.and_eq_true]; exact ⟨hne2x, hne2.2⟩)
            (by
              simp only [pagesF, List.nodup_cons, ← List.append_assoc]
              constructor
              · intro hp2
                rcases List.mem_append.mp hp2 with h | h
                · rcases (hmem12 p h).1 with h2 | h2
                  · exact hpnotin (List.mem_append.mpr (Or.inl h2))
                  · have := hpmem.2
                    omega
                · exact hpnotin (List.mem_append.mpr (Or.inr h))
              · exact nodup_new_old (pagesT T1 ++ pagesT T2) (pagesT c)
                  (pagesF r) s.nextPage s2.nextPage hnodup12 hcr.2.1
                  (fun q hq => (hmem12 q hq).1)
                  (fun q hq hq2 => hcr.2.2 hq hq2)
                  (fun q hq => (hpages q (by simp [hq])).2))
            hpmem.1 hpmem.2
            (by
              intro q hq
              simp only [pagesF, ← List.append_assoc] at hq ⊢
              rcases List.mem_append.mp hq with hq | hq
              · obtain ⟨hm, h0⟩ := hmem12 q hq
                refine ⟨h0, ?_⟩
                rcases hm with hm | hm
                · exact ((hpages q (by simp [hm])).2).trans_le hframe.1
                · exact hm.2
              · exact ⟨(hpages q (by simp [hq])).1,
                  ((hpages q (by simp [hq])).2).trans_le hframe.1⟩)
            hframe.1 hsnp0 res.split_key T2 r rfl hmk rfl
            (by simp [headT, hhead1])
            (by
              simp only [entriesF, entriesT, ← List.append_assoc]
              rw [hent, ← insEntries_append_left key rid _ _ hkey_lt_r])
            (by
              intro q hq
              simp only [pagesF, ← List.append_assoc] at hq
              exact hmemTT q (by rw [← List.append_assoc]; exact hq))
            (by simp [pagesT])
            hframe1
          have hargs1 : (sepsF r).insertIdx 0 res.split_key =
              sepsF (.mcons res.split_key T2 r) := by
            simp [sepsF, List.insertIdx_zero]
          have hargs2 : (rootPage c :: rootsF r).insertIdx (0 + 1) res.new_page_id =
              rootPage T1 :: rootsF (.mcons res.split_key T2 r) := by
            simp [rootsF, List.insertIdx_succ_cons, List.insertIdx_zero, hroot1,
              hroot2]
          rw [if_neg (by simp : ¬((true : Bool) = false)), hargs1, hargs2, hfin]
          exact ⟨s3, res3, rfl, hinsout⟩
      · -- the key routes into the forest
        obtain ⟨k1, c1, r1, hr2⟩ : ∃ k1 c1 r1, r = .mcons k1 c1 r1 := by
          cases hr2 : r with
          | mnil =>
            rw [hr2] at hidx
            simp [sepsF, upperIdx] at hidx
          | mcons k1 c1 r1 => exact ⟨k1, c1, r1, rfl⟩
        have hk1 : k1 ≤ key := by
          by_contra hk1
          rw [hr2] at hidx
          simp only [sepsF] at hidx
          rw [upperIdx_cons_gt _ (by omega)] at hidx
          omega
        obtain ⟨cp, hcp, s2, res, hins, hframe, hout⟩ := insF r f s mk lo hi nxt
          key rid ⟨k1, c1, r1, hr2, hk1⟩ hdecr hbndr hcr.2.1
          (fun q hq => hpages q (by simp [hq])) hsnp0 hkhi
          (fun e he => hfresh e (by simp [entriesT, he]))
          hne2.2 hmk hdr
        obtain ⟨m, hm⟩ : ∃ m, upperIdx (sepsF r) key = m + 1 :=
          ⟨_, (Nat.succ_pred_eq_of_pos hidx).symm⟩
        have hcp2 : (rootsF r).get? m = some cp := by
          rw [← hcp, hm]
          simp
        have hstep : insertInternal mk (f + 1) s (rootPage (.mnode p c r)) key rid =
            (if res.did_split = false then
              some (s2, ⟨false, 0, INVALID_PAGE_ID⟩)
            else some (finishInternal mk s2 p
              ((sepsF r).insertIdx (upperIdx (sepsF r) key) res.split_key)
              ((rootPage c :: rootsF r).insertIdx (upperIdx (sepsF r) key + 1)
                res.new_page_id))) := by
          show insertInternal mk (f + 1) s p key rid = _
          have hget : (rootPage c :: rootsF r).get? (upperIdx (sepsF r) key) =
              some cp := by
            rw [hm, List.get?_cons_succ, hcp2]
          simp only [insertInternal, hfind, hget, hins]
        rw [hstep]
        have hframeC : ∀ q ∈ pagesT c, findNode s2 q = findNode s q := by
          intro q hq
          exact hframe.2 q (hpages q (by simp [hq])).2 (fun h => hcr.2.2 hq h)
        have hdecc2 : decT s2 c (headF r nxt) = true :=
          decT_frame c s s2 _ hdecc hframeC
        have hfp : findNode s2 p = findNode s p := hframe.2 p hpmem.2
          (fun h => hpnotin (List.mem_append.mpr (Or.inr h)))
        have hframe1 : Frame s s2 (pagesT (.mnode p c r)) :=
          frame_mono hframe (fun q hnp hr3 => hnp (by simp [pagesT, hr3]))
        have hc_le : ∀ x ∈ entriesT c, x.1 ≤ key := by
          intro x hx
          have hb := (entBT c lo (fsep r hi) hbndc x hx).2
          rw [hr2] at hb
          simp only [fsep, inHiB, decide_eq_true_eq] at hb
          omega
        cases hds : res.did_split with
        | false =>
          rw [hds] at hout
          simp only [Bool.false_eq_true, if_false] at hout
          obtain ⟨F2, hseps, hroots, hheadF, hdecF2, hbndF2, hentF2, hneF2,
            hnodupF2, hmemF2⟩ := hout
          have hpF2 : p ∉ pagesF F2 := by
            intro hp2
            rcases (hmemF2 p hp2).1 with h2 | h2
            · exact hpnotin (List.mem_append.mpr (Or.inr h2))
            · have := hpmem.2
              omega
          rw [if_pos rfl]
          refine ⟨s2, _, rfl, hframe1, ?_⟩
          simp only [Bool.false_eq_true, if_false]
          refine ⟨.mnode p c F2, rfl, by simp [headT], ?_, ?_, ?_, ?_, ?_, ?_⟩
          · simp only [decT, Bool.and_eq_true, decide_eq_true_eq]
            refine ⟨⟨?_, by rw [hheadF]; exact hdecc2⟩, hdecF2⟩
            rw [hfp, hseps, hroots]
            exact hfind
          · simp only [bndT, Bool.and_eq_true]
            refine ⟨?_, hbndF2⟩
            rw [fsep_of_seps_head F2 r hi (by rw [hseps])]
            exact hbndc
          · simp only [entriesT]
            rw [hentF2, insEntries_append_right key rid _ _ hc_le]
          · simp only [neT, Bool.and_eq_true]
            exact ⟨hne2.1, hneF2⟩
          · simp only [pagesT, List.nodup_cons]
            refine ⟨?_, ?_⟩
            · intro hp2
              rcases List.mem_append.mp hp2 with h | h
              · exact hpnotin (List.mem_append.mpr (Or.inl h))
              · exact hpF2 h
            · rw [List.nodup_append]
              refine ⟨hcr.1, hnodupF2, ?_⟩
              intro q hqc hqF
              rcases (hmemF2 q hqF).1 with h2 | h2
              · exact hcr.2.2 hqc h2
              · have := (hpages q (by simp [hqc])).2
                omega
          · intro q hq
            simp only [pagesT] at hq
            rcases List.mem_cons.mp hq with hq | hq
            · exact ⟨Or.inl (by simp [pagesT, hq]), hq ▸ hpmem.1⟩
            · rcases List.mem_append.mp hq with hq | hq
              · exact ⟨Or.inl (by simp [pagesT, hq]), (hpages q (by simp [hq])).1⟩
              · obtain ⟨hm2, h0⟩ := hmemF2 q hq
                refine ⟨?_, h0⟩
                rcases hm2 with hm2 | hm2
                · exact Or.inl (by simp [pagesT, hm2])
                · exact Or.inr hm2
        | true =>
          rw [hds] at hout
          simp only [if_pos rfl] at hout
          obtain ⟨F2, hseps, hroots, hheadF, hdecF2, hbndF2, hentF2, hneF2,
            hnodupF2, hmemF2⟩ := hout
          have hpF2 : p ∉ pagesF F2 := by
            intro hp2
            rcases (hmemF2 p hp2).1 with h2 | h2
            · exact hpnotin (List.mem_append.mpr (Or.inr h2))
            · have := hpmem.2
              omega
          obtain ⟨ka, ca, ra, hF2eq⟩ : ∃ ka ca ra, F2 = .mcons ka ca ra := by
            cases hF2 : F2 with
            | mnil =>
              rw [hF2] at hseps
              rw [hm, hr2] at hseps
              simp [sepsF, List.insertIdx_succ_cons] at hseps
            | mcons ka ca ra => exact ⟨ka, ca, ra, rfl⟩
          obtain ⟨s3, res3, hfin, hinsout⟩ := finish_to_insOut mk s s2 p c F2
            (.mnode p c r) lo hi nxt key rid
            (by rw [hheadF]; exact hdecc2) hdecF2
            (by
              rw [fsep_of_seps_head F2 r hi ?_]
              · exact hbndc
              · rw [hseps, hm, hr2]
                simp only [sepsF, List.insertIdx_succ_cons, List.head?_cons])
            hbndF2 hne2.1 hneF2
            (by
              rw [List.nodup_cons]
              refine ⟨?_, ?_⟩
              · intro hp2
                rcases List.mem_append.mp hp2 with h | h
                · exact hpnotin (List.mem_append.mpr (Or.inl h))
                · exact hpF2 h
              · rw [List.nodup_append]
                refine ⟨hcr.1, hnodupF2, ?_⟩
                intro q hqc hqF
                rcases (hmemF2 q hqF).1 with h2 | h2
                · exact hcr.2.2 hqc h2
                · have := (hpages q (by simp [hqc])).2
                  omega)
            hpmem.1 hpmem.2
            (by
              intro q hq
              rcases List.mem_append.mp hq with hq | hq
              · refine ⟨(hpages q (by simp [hq])).1, ?_⟩
                exact ((hpages q (by simp [hq])).2).trans_le hframe.1
              · obtain ⟨hm2, h0⟩ := hmemF2 q hq
                refine ⟨h0, ?_⟩
                rcases hm2 with hm2 | hm2
                · exact ((hpages q (by simp [hm2])).2).trans_le hframe.1
                · exact hm2.2)
            hframe.1 hsnp0 ka ca ra hF2eq hmk rfl (by simp [headT])
            (by
              simp only [entriesT]
              rw [hentF2, insEntries_append_right key rid _ _ hc_le])
            (by
              intro q hq
              rcases List.mem_append.mp hq with hq | hq
              · exact ⟨Or.inl (by simp [pagesT, hq]), (hpages q (by simp [hq])).1⟩
              · obtain ⟨hm2, h0⟩ := hmemF2 q hq
                refine ⟨?_, h0⟩
                rcases hm2 with hm2 | hm2
                · exact Or.inl (by simp [pagesT, hm2])
                · exact Or.inr hm2)
            (by simp [pagesT])
            hframe1
          have hargs2 : (rootPage c :: rootsF r).insertIdx
              (upperIdx (sepsF r) key + 1) res.new_page_id =
              rootPage c :: rootsF F2 := by
            rw [List.insertIdx_succ_cons, ← hroots]
          rw [if_neg (by simp : ¬((true : Bool) = false)), ← hseps, hargs2, hfin]
          exact ⟨s3, res3, rfl, hinsout⟩
theorem insF : ∀ (F : MForest) (fuel : Nat) (s : BTStore) (mk : Nat)
    (lo hi : Option Nat) (nxt : Int) (key : Nat) (rid : RecordID),
    (∃ k1 c1 r1, F = .mcons k1 c1 r1 ∧ k1 ≤ key) →
    decF s F nxt = true → bndF lo hi F = true →
    (pagesF F).Nodup → (∀ q ∈ pagesF F, 0 ≤ q ∧ q < s.nextPage) →
    0 ≤ s.nextPage → inHiB hi key = true →
    (∀ e ∈ entriesF F, e.1 ≠ key) →
    neF F = true → 1 ≤ mk → depthF F ≤ fuel →
    ∃ cp, (rootsF F).get? (upperIdx (sepsF F) key - 1) = some cp ∧
      ∃ s2 res, insertInternal mk fuel s cp key rid = some (s2, res) ∧
        FInsOut s s2 F lo hi nxt key rid res
  | .mnil, fuel, s, mk, lo, hi, nxt, key, rid, hroute, _, _, _, _, _, _, _, _, _,
      _ => by
    obtain ⟨k1, c1, r1, h, _⟩ := hroute
    exact absurd h (by simp)
  | .mcons k c r, fuel, s, mk, lo, hi, nxt, key, rid, hroute, hdec, hbnd, hnodup,
      hpages, hsnp0, hkhi, hfresh, hne, hmk, hdepth => by
    obtain ⟨k1, c1, r1, heq, hk1⟩ := hroute
    injection heq with ek ec er
    subst ek
    have hkkey : k ≤ key := hk1
    clear hk1 ec er
    simp only [decF, Bool.and_eq_true] at hdec
    obtain ⟨hdecc, hdecr⟩ := hdec
    obtain ⟨hlok, hhik, hbndc, hbndr, hksk⟩ := bndF_cons_parts hbnd
    simp only [neF, Bool.and_eq_true] at hne
    simp only [depthF] at hdepth
    have hdc : depthT c ≤ fuel := by omega
    have hdr : depthF r ≤ fuel := by omega
    simp only [pagesF] at hnodup hpages
    have hcr := List.nodup_append.mp hnodup
    rcases Nat.eq_zero_or_pos (upperIdx (sepsF r) key) with hidx | hidx
    · -- focus on the child after separator k
      have hkfr : inHiB (fsep r hi) key = true := by
        cases hr2 : r with
        | mnil => exact hkhi
        | mcons k2 c2 r2 =>
          rw [hr2] at hidx
          simp only [sepsF] at hidx
          by_cases hk2 : k2 ≤ key
          · rw [upperIdx_cons_le _ hk2] at hidx
            omega
          · simp [fsep, inHiB]
            omega
      obtain ⟨s2, res, hins, hframe, hout⟩ := insT c fuel s mk (some k)
        (fsep r hi) (headF r nxt) key rid hdecc hbndc hcr.1
        (fun q hq => hpages q (by simp [hq])) hsnp0 (by simpa [inLoB] using hkkey)
        hkfr (fun e he => hfresh e (by simp [entriesF, he])) (Or.inl hne.1) hmk
        (by omega)
      have hupper : upperIdx (sepsF (.mcons k c r)) key = 1 := by
        show upperIdx (k :: sepsF r) key = 1
        rw [upperIdx_cons_le _ hkkey, hidx]
      have hkey_lt_r : ∀ y ∈ entriesF r, key < y.1 := by
        intro y hy
        cases hr2 : r with
        | mnil =>
          rw [hr2] at hy
          simp [entriesF] at hy
        | mcons k2 c2 r2 =>
          rw [hr2] at hidx hbndr hy
          have h1 := entBF_first hbndr y hy
          simp only [sepsF] at hidx
          by_cases hk2 : k2 ≤ key
          · rw [upperIdx_cons_le _ hk2] at hidx
            omega
          · omega
      have hframeR : ∀ q ∈ pagesF r, findNode s2 q = findNode s q := by
        intro q hq
        exact hframe.2 q (hpages q (by simp [hq])).2 (fun h => hcr.2.2 h hq)
      have hdecr2 : decF s2 r nxt = true := decF_frame r s s2 nxt hdecr hframeR
      refine ⟨rootPage c, ?_, s2, res, hins, ?_, ?_⟩
      · rw [hupper]
        simp [rootsF]
      · exact frame_mono hframe (fun q hnp hc => hnp (by simp [pagesF, hc]))
      · cases hds : res.did_split with
        | false =>
          rw [hds] at hout
          simp only [Bool.false_eq_true, if_false] at hout ⊢
          obtain ⟨T1, hroot1, hhead1, hdec1, hbnd1, hent1, hne1, hnodup1,
            hmem1⟩ := hout
          refine ⟨.mcons k T1 r, ?_, ?_, ?_, ?_, ?_, ?_, ?_, ?_, ?_⟩
          · rfl
          · simp [rootsF, hroot1]
          · simp [headF, headT, hhead1]
          · simp only [decF, Bool.and_eq_true]
            exact ⟨hdec1, hdecr2⟩
          · simp only [bndF, Bool.and_eq_true]
            exact ⟨⟨⟨hlok, hksk⟩, hbnd1⟩, hbndr⟩
          · simp only [entriesF]
            rw [hent1, ← insEntries_append_left key rid _ _ hkey_lt_r]
          · simp only [neF, Bool.and_eq_true]
            exact ⟨hne1, hne.2⟩
          · simp only [pagesF]
            exact nodup_new_old (pagesT T1) (pagesT c) (pagesF r) s.nextPage
              s2.nextPage hnodup1 hcr.2.1 (fun q hq => (hmem1 q hq).1)
              (fun q hq hq2 => hcr.2.2 hq hq2)
              (fun q hq => (hpages q (by simp [hq])).2)
          · intro q hq
            simp only [pagesF] at hq
            rcases List.mem_append.mp hq with hq | hq
            · obtain ⟨hm2, h0⟩ := hmem1 q hq
              refine ⟨?_, h0⟩
              rcases hm2 with hm2 | hm2
              · exact Or.inl (by simp [pagesF, hm2])
              · exact Or.inr hm2
            · exact ⟨Or.inl (by simp [pagesF, hq]),
                (hpages q (by simp [hq])).1⟩
        | true =>
          rw [hds] at hout
          simp only [if_pos rfl] at hout ⊢
          obtain ⟨T1, T2, hroot2, hroot1, hhead1, hdec1, hdec2, hbnd1, hbnd2,
            hsl, hsh, hent, hent1ne, hne1, hne2x, hnodup12, hmem12⟩ := hout
          have hksep : k < res.split_key := by
            obtain ⟨e, he⟩ := List.exists_mem_of_ne_nil _ hent1ne
            have h1 := entBT T1 (some k) (some res.split_key) hbnd1 e he
            simp only [inLoB, inHiB, decide_eq_true_eq] at h1
            omega
          refine ⟨.mcons k T1 (.mcons res.split_key T2 r), ?_, ?_, ?_, ?_, ?_,
            ?_, ?_, ?_, ?_⟩
          · rw [hupper]
            simp [sepsF, List.insertIdx_succ_cons, List.insertIdx_zero]
          · rw [hupper]
            simp [rootsF, List.insertIdx_succ_cons, List.insertIdx_zero, hroot1,
              hroot2]
          · simp [headF, headT, hhead1]
          · simp only [decF, headF, Bool.and_eq_true]
            exact ⟨hdec1, hdec2, hdecr2⟩
          · simp only [bndF, fsep, Bool.and_eq_true]
            refine ⟨⟨⟨hlok, by simp [inHiB, hksep]⟩, hbnd1⟩,
              ⟨⟨by simp [inLoB]; omega, hsh⟩, hbnd2⟩, ?_⟩
            apply bndF_mono_lo hbndr
            intro k2 c2 r2 heq2
            rw [heq2] at hsh
            simp only [fsep, inHiB, decide_eq_true_eq] at hsh
            simp only [inLoB, decide_eq_true_eq]
            omega
          · simp only [entriesF, ← List.append_assoc]
            rw [hent, ← insEntries_append_left key rid _ _ hkey_lt_r]
          · simp only [neF, Bool.and_eq_true]
            exact ⟨hne1, hne2x, hne.2⟩
          · simp only [pagesF, ← List.append_assoc]
            exact nodup_new_old (pagesT T1 ++ pagesT T2) (pagesT c) (pagesF r)
              s.nextPage s2.nextPage hnodup12 hcr.2.1
              (fun q hq => (hmem12 q hq).1)
              (fun q hq hq2 => hcr.2.2 hq hq2)
              (fun q hq => (hpages q (by simp [hq])).2)
          · intro q hq
            simp only [pagesF, ← List.append_assoc] at hq
            rcases List.mem_append.mp hq with hq | hq
            · obtain ⟨hm2, h0⟩ := hmem12 q hq
              refine ⟨?_, h0⟩
              rcases hm2 with hm2 | hm2
              · exact Or.inl (by simp [pagesF, hm2])
              · exact Or.inr hm2
            · exact ⟨Or.inl (by simp [pagesF, hq]),
                (hpages q (by simp [hq])).1⟩
    · -- recurse into the tail forest
      obtain ⟨k2, c2, r2, hr2⟩ : ∃ k2 c2 r2, r = .mcons k2 c2 r2 := by
        cases hr3 : r with
        | mnil =>
          rw [hr3] at hidx
          simp [sepsF, upperIdx] at hidx
        | mcons k2 c2 r2 => exact ⟨k2, c2, r2, rfl⟩
      have hk2 : k2 ≤ key := by
        by_contra hk2
        rw [hr2] at hidx
        simp only [sepsF] at hidx
        rw [upperIdx_cons_gt _ (by omega)] at hidx
        omega
      obtain ⟨cp, hcp, s2, res, hins, hframe, hout⟩ := insF r fuel s mk (some k)
        hi nxt key rid ⟨k2, c2, r2, hr2, hk2⟩ hdecr hbndr hcr.2.1
        (fun q hq => hpages q (by simp [hq])) hsnp0 hkhi
        (fun e he => hfresh e (by simp [entriesF, he])) hne.2 hmk (by omega)
      obtain ⟨m, hm⟩ : ∃ m, upperIdx (sepsF r) key = m + 1 :=
        ⟨_, (Nat.succ_pred_eq_of_pos hidx).symm⟩
      have hupper : upperIdx (sepsF (.mcons k c r)) key =
          upperIdx (sepsF r) key + 1 := by
        show upperIdx (k :: sepsF r) key = _
        rw [upperIdx_cons_le _ hkkey]
      have hcp2 : (rootsF r).get? m = some cp := by
        rw [← hcp, hm]
        simp
      have hframeC : ∀ q ∈ pagesT c, findNode s2 q = findNode s q := by
        intro q hq
        exact hframe.2 q (hpages q (by simp [hq])).2 (fun h => hcr.2.2 hq h)
      have hdecc2 : decT s2 c (headF r nxt) = true :=
        decT_frame c s s2 _ hdecc hframeC
      have hc_le : ∀ x ∈ entriesT c, x.1 ≤ key := by
        intro x hx
        have hb := (entBT c (some k) (fsep r hi) hbndc x hx).2
        rw [hr2] at hb
        simp only [fsep, inHiB, decide_eq_true_eq] at hb
        omega
      refine ⟨cp, ?_, s2, res, hins, ?_, ?_⟩
      · rw [hupper, hm]
        show (rootPage c :: rootsF r).get? (m + 1 + 1 - 1) = some cp
        simp only [Nat.add_sub_cancel]
        rw [List.get?_cons_succ, hcp2]
      · exact frame_mono hframe (fun q hnp hc => hnp (by simp [pagesF, hc]))
      · cases hds : res.did_split with
        | false =>
          rw [hds] at hout
          simp only [Bool.false_eq_true, if_false] at hout ⊢
          obtain ⟨F2, hseps, hroots, hheadF, hdecF2, hbndF2, hentF2, hneF2,
            hnodupF2, hmemF2⟩ := hout
          have hfs : fsep F2 hi = fsep r hi :=
            fsep_of_seps_head F2 r hi (by rw [hseps])
          refine ⟨.mcons k c F2, ?_, ?_, ?_, ?_, ?_, ?_, ?_, ?_, ?_⟩
          · simp [sepsF, hseps]
          · simp [rootsF, hroots]
          · simp [headF]
          · simp only [decF, Bool.and_eq_true]
            exact ⟨by rw [hheadF]; exact hdecc2, hdecF2⟩
          · simp only [bndF, Bool.and_eq_true]
            rw [hfs]
            exact ⟨⟨⟨hlok, hksk⟩, hbndc⟩, hbndF2⟩
          · simp only [entriesF]
            rw [hentF2, insEntries_append_right key rid _ _ hc_le]
          · simp only [neF, Bool.and_eq_true]
            exact ⟨hne.1, hneF2⟩
          · simp only [pagesF]
            rw [List.nodup_append]
            refine ⟨hcr.1, hnodupF2, ?_⟩
            intro q hqc hqF
            rcases (hmemF2 q hqF).1 with h2 | h2
            · exact hcr.2.2 hqc h2
            · have := (hpages q (by simp [hqc])).2
              omega
          · intro q hq
            simp only [pagesF] at hq
            rcases List.mem_append.mp hq with hq | hq
            · exact ⟨Or.inl (by simp [pagesF, hq]),
                (hpages q (by simp [hq])).1⟩
            · obtain ⟨hm2, h0⟩ := hmemF2 q hq
              refine ⟨?_, h0⟩
              rcases hm2 with hm2 | hm2
              · exact Or.inl (by simp [pagesF, hm2])
              · exact Or.inr hm2
        | true =>
          rw [hds] at hout
          simp only [if_pos rfl] at hout ⊢
          obtain ⟨F2, hseps, hroots, hheadF, hdecF2, hbndF2, hentF2, hneF2,
            hnodupF2, hmemF2⟩ := hout
          have hfs : fsep F2 hi = fsep r hi := by
            apply fsep_of_seps_head
            rw [hseps, hm, hr2]
            simp only [sepsF, List.insertIdx_succ_cons, List.head?_cons]
          refine ⟨.mcons k c F2, ?_, ?_, ?_, ?_, ?_, ?_, ?_, ?_, ?_⟩
          · rw [hupper]
            show k :: sepsF F2 = (k :: sepsF r).insertIdx
              (upperIdx (sepsF r) key + 1) res.split_key
            rw [List.insertIdx_succ_cons, hseps]
          · rw [hupper]
            show rootPage c :: rootsF F2 = (rootPage c :: rootsF r).insertIdx
              (upperIdx (sepsF r) key + 1) res.new_page_id
            rw [List.insertIdx_succ_cons, hroots]
          · simp [headF]
          · simp only [decF, Bool.and_eq_true]
            exact ⟨by rw [hheadF]; exact hdecc2, hdecF2⟩
          · simp only [bndF, Bool.and_eq_true]
            rw [hfs]
            exact ⟨⟨⟨hlok, hksk⟩, hbndc⟩, hbndF2⟩
          · simp only [entriesF]
            rw [hentF2, insEntries_append_right key rid _ _ hc_le]
          · simp only [neF, Bool.and_eq_true]
            exact ⟨hne.1, hneF2⟩
          · simp only [pagesF]
            rw [List.nodup_append]
            refine ⟨hcr.1, hnodupF2, ?_⟩
            intro q hqc hqF
            rcases (hmemF2 q hqF).1 with h2 | h2
            · exact hcr.2.2 hqc h2
            · have := (hpages q (by simp [hqc])).2
              omega
          · intro q hq
            simp only [pagesF] at hq
            rcases List.mem_append.mp hq with hq | hq
            · exact ⟨Or.inl (by simp [pagesF, hq]),
                (hpages q (by simp [hq])).1⟩
            · obtain ⟨hm2, h0⟩ := hmemF2 q hq
              refine ⟨?_, h0⟩
              rcases hm2 with hm2 | hm2
              · exact Or.inl (by simp [pagesF, hm2])
              · exact Or.inr hm2
end

theorem lookup_mem_keys {α β : Type} [BEq α] [LawfulBEq α] (l : List (α × β))
    (a : α) (b : β) (h : l.lookup a = some b) : a ∈ l.map Prod.fst := by
  induction l with
  | nil => simp [List.lookup] at h
  | cons hd rest ih =>
    obtain ⟨x, y⟩ := hd
    simp only [List.lookup] at h
    cases hax : (a == x) with
    | true =>
      have : a = x := by simpa using hax
      simp [this]
    | false =>
      rw [hax] at h
      simp only [List.map_cons, List.mem_cons]
      exact Or.inr (ih h)

theorem pages_le_nodes (t : BTree) (T : MTree)
    (hdec : decT t.store T INVALID_PAGE_ID = true)
    (hnodup : (pagesT T).Nodup) : (pagesT T).length ≤ t.store.nodes.length := by
  have h2 : pagesT T ⊆ t.store.nodes.map Prod.fst := by
    intro q hq
    obtain ⟨b, hb⟩ := decT_pages_some T t.store INVALID_PAGE_ID hdec q hq
    exact lookup_mem_keys _ q b hb
  have h3 : (pagesT T).length ≤ (t.store.nodes.map Prod.fst).length :=
    nodup_subset_length _ _ hnodup h2
  simpa using h3

theorem depth_le_fuel (t : BTree) (T : MTree)
    (hdec : decT t.store T INVALID_PAGE_ID = true)
    (hnodup : (pagesT T).Nodup) : depthT T ≤ t.store.nodes.length + 1 := by
  have h1 : depthT T ≤ (pagesT T).length := depthT_le_pages T
  have h2 := pages_le_nodes t T hdec hnodup
  omega

theorem btInsert_sim (t : BTree) (T : MTree) (key : Nat) (rid : RecordID)
    (habs : Abs t T)
    (hne : neT T = true ∨ ∃ p es, T = .mleaf p es)
    (hfresh : ∀ e ∈ entriesT T, e.1 ≠ key) :
    ∃ t2 T2, btInsert t key rid = some t2 ∧ Abs t2 T2 ∧ neT T2 = true ∧
      entriesT T2 = insEntries key rid (entriesT T) ∧ t2.maxKeys = t.maxKeys := by
  obtain ⟨hdec, hbnd, hroot, hnodup, hpages, hsnp0, hmk⟩ := habs
  obtain ⟨s2, res, hins, hframe, hout⟩ := insT T (t.store.nodes.length + 1)
    t.store t.maxKeys none none INVALID_PAGE_ID key rid hdec hbnd hnodup hpages
    hsnp0 rfl rfl hfresh hne hmk (depth_le_fuel t T hdec hnodup)
  rw [hroot] at hins
  cases hds : res.did_split with
  | false =>
    rw [hds] at hout
    simp only [Bool.false_eq_true, if_false] at hout
    obtain ⟨T1, hroot1, hhead1, hdec1, hbnd1, hent1, hne1, hnodup1, hmem1⟩ := hout
    refine ⟨{ t with store := s2 }, T1, ?_, ?_, hne1, hent1, rfl⟩
    · rw [btInsert, hins]
      simp [hds]
    · refine ⟨hdec1, hbnd1, hroot1.trans hroot, hnodup1, ?_, ?_, hmk⟩
      · intro q hq
        obtain ⟨hm, h0⟩ := hmem1 q hq
        refine ⟨h0, ?_⟩
        rcases hm with hm | hm
        · exact ((hpages q hm).2).trans_le hframe.1
        · exact hm.2
      · exact le_trans hsnp0 hframe.1
  | true =>
    rw [hds] at hout
    simp only [if_pos rfl] at hout
    obtain ⟨T1, T2, hroot2, hroot1, hhead1, hdec1, hdec2, hbnd1, hbnd2, hsl,
      hsh, hent, hent1ne, hne1, hne2x, hnodup12, hmem12⟩ := hout
    have hT12lt : ∀ q ∈ pagesT T1 ++ pagesT T2, q < s2.nextPage ∧ 0 ≤ q := by
      intro q hq
      obtain ⟨hm, h0⟩ := hmem12 q hq
      refine ⟨?_, h0⟩
      rcases hm with hm | hm
      · exact ((hpages q hm).2).trans_le hframe.1
      · exact hm.2
    have hfr3 : ∀ q ∈ pagesT T1 ++ pagesT T2,
        findNode (writeNode { s2 with nextPage := s2.nextPage + 1 } s2.nextPage
          (.internal [res.split_key] [t.root, res.new_page_id])) q =
          findNode s2 q := by
      intro q hq
      apply findNode_writeNode_other
      have := (hT12lt q hq).1
      omega
    refine ⟨BTree.mk (writeNode ⟨s2.nodes, s2.nextPage + 1⟩ s2.nextPage
        (.internal [res.split_key] [t.root, res.new_page_id])) s2.nextPage
        t.maxKeys,
      .mnode s2.nextPage T1 (.mcons res.split_key T2 .mnil), ?_, ?_, ?_, ?_, rfl⟩
    · rw [btInsert, hins]
      simp [hds]
    · refine ⟨?_, ?_, rfl, ?_, ?_, ?_, hmk⟩
      · simp only [decT, decF, headF, Bool.and_eq_true, decide_eq_true_eq]
        refine ⟨⟨?_, ?_⟩, ?_, trivial⟩
        · rw [findNode_writeNode_self]
          simp only [sepsF, rootsF]
          rw [hroot1.trans hroot, hroot2]
        · exact decT_frame T1 s2 _ _ hdec1
            (fun q hq => hfr3 q (List.mem_append.mpr (Or.inl hq)))
        · exact decT_frame T2 s2 _ _ hdec2
            (fun q hq => hfr3 q (List.mem_append.mpr (Or.inr hq)))
      · simp only [bndT, bndF, fsep, inLoB, inHiB, Bool.and_eq_true]
        exact ⟨hbnd1, ⟨⟨trivial, trivial⟩, hbnd2⟩, trivial⟩
      · simp only [pagesT, pagesF, List.append_nil, List.nodup_cons]
        refine ⟨?_, hnodup12⟩
        intro hmem
        have := (hT12lt _ hmem).1
        omega
      · intro q hq
        simp only [pagesT, pagesF, List.append_nil] at hq
        simp only [writeNode]
        have hsle := hframe.1
        rcases List.mem_cons.mp hq with hq | hq
        · rw [hq]
          constructor
          · omega
          · omega
        · have := hT12lt q hq
          refine ⟨this.2, by omega⟩
      · simp only [writeNode]
        have hsle := hframe.1
        omega
    · simp only [neT, neF, Bool.and_eq_true]
      exact ⟨hne1, hne2x, trivial⟩
    · simp only [entriesT, entriesF, List.append_nil]
      exact hent

theorem foldl_insEntries_perm : ∀ (ps init : List (Nat × RecordID)),
    (ps.foldl (fun es e => insEntries e.1 e.2 es) init).Perm (ps ++ init)
  | [], init => by simp
  | e :: rest, init => by
    have h1 := foldl_insEntries_perm rest (insEntries e.1 e.2 init)
    refine List.Perm.trans (by simpa using h1) ?_
    have h2 : (insEntries e.1 e.2 init).Perm (e :: init) := by
      have := insEntries_perm e.1 e.2 init
      simpa using this
    refine List.Perm.trans (List.Perm.append_left rest h2) ?_
    exact List.Perm.trans List.perm_middle (List.Perm.refl _)

theorem insertAll_sim : ∀ (ps : List (Nat × RecordID)) (t : BTree) (T : MTree),
    Abs t T → (neT T = true ∨ ∃ p es, T = .mleaf p es) →
    (ps.map Prod.fst).Nodup →
    (∀ p2 ∈ ps, ∀ e ∈ entriesT T, e.1 ≠ p2.1) →
    ∃ t2 T2, insertAll t ps = some t2 ∧ Abs t2 T2 ∧
      (neT T2 = true ∨ ∃ p es, T2 = .mleaf p es) ∧
      entriesT T2 = ps.foldl (fun es e => insEntries e.1 e.2 es) (entriesT T)
  | [], t, T, habs, hne, _, _ => ⟨t, T, rfl, habs, hne, rfl⟩
  | e :: rest, t, T, habs, hne, hdist, hdisj => by
    obtain ⟨t2, T2, hins, habs2, hne2, hent2, hmk2⟩ := btInsert_sim t T e.1 e.2
      habs hne (fun e2 he2 => hdisj e (by simp) e2 he2)
    simp only [List.map_cons, List.nodup_cons] at hdist
    have hdisj2 : ∀ p2 ∈ rest, ∀ e2 ∈ entriesT T2, e2.1 ≠ p2.1 := by
      intro p2 hp2 e2 he2
      rw [hent2] at he2
      rcases mem_insEntries e.1 e.2 _ e2 he2 with he2 | he2
      · rw [he2]
        intro hcontra
        exact hdist.1 (List.mem_map.mpr ⟨p2, hp2, hcontra.symm⟩)
      · exact hdisj p2 (by simp [hp2]) e2 he2
    obtain ⟨t3, T3, hins3, habs3, hne3, hent3⟩ := insertAll_sim rest t2 T2
      habs2 (Or.inl hne2) hdist.2 hdisj2
    refine ⟨t3, T3, ?_, habs3, hne3, ?_⟩
    · simp only [insertAll, hins, hins3]
    · rw [hent3, hent2]
      rfl

theorem headT_mem_pages : ∀ (T : MTree), headT T ∈ pagesT T
  | .mleaf p es => by simp [headT, pagesT]
  | .mnode p c r => by
    have := headT_mem_pages c
    simp [headT, pagesT, this]

theorem scanEntries_all (lo hi : Nat) :
    ∀ (es : List (Nat × RecordID)),
    (∀ e ∈ es, lo ≤ e.1 ∧ e.1 ≤ hi) → scanEntries es lo hi = (es, false)
  | [], _ => rfl
  | e :: rest, h => by
    obtain ⟨h1, h2⟩ := h e (by simp)
    have hr := scanEntries_all lo hi rest (fun e2 he2 => h e2 (by simp [he2]))
    simp [scanEntries, hr, not_lt.mpr h2, h1]

mutual
theorem scanChainT : ∀ (T : MTree) (s : BTStore) (nxt : Int) (lo hi : Nat)
    (fuel : Nat), decT s T nxt = true →
    (∀ e ∈ entriesT T, lo ≤ e.1 ∧ e.1 ≤ hi) →
    (∀ q ∈ pagesT T, 0 ≤ q) →
    rangeScanLoop s lo hi (leavesT T + fuel) (headT T) =
      (rangeScanLoop s lo hi fuel nxt).map (fun rest => entriesT T ++ rest)
  | .mleaf p es, s, nxt, lo, hi, fuel, hdec, hb, hp => by
    have hfind : findNode s p = some (.leaf (es.map Prod.fst) (es.map Prod.snd) nxt) := by
      simpa [decT] using hdec
    have hp0 : 0 ≤ p := hp p (by simp [pagesT])
    have hpne : ¬(p = INVALID_PAGE_ID) := by
      simp only [INVALID_PAGE_ID]
      omega
    have hscan : scanEntries ((es.map Prod.fst).zip (es.map Prod.snd)) lo hi =
        (es, false) := by
      rw [zip_map_fst_snd]
      exact scanEntries_all lo hi es (fun e he => hb e (by simpa [entriesT] using he))
    show rangeScanLoop s lo hi (1 + fuel) p = _
    rw [Nat.add_comm 1 fuel]
    simp only [rangeScanLoop, if_neg hpne, hfind, hscan]
    cases hrest : rangeScanLoop s lo hi fuel nxt with
    | none => simp [entriesT]
    | some rest => simp [entriesT]
  | .mnode p c r, s, nxt, lo, hi, fuel, hdec, hb, hp => by
    simp only [decT, Bool.and_eq_true, decide_eq_true_eq] at hdec
    have h1 := scanChainT c s (headF r nxt) lo hi (leavesF r + fuel) hdec.1.2
      (fun e he => hb e (by simp [entriesT, he]))
      (fun q hq => hp q (by simp [pagesT, hq]))
    have h2 := scanChainF r s nxt lo hi fuel hdec.2
      (fun e he => hb e (by simp [entriesT, he]))
      (fun q hq => hp q (by simp [pagesT, hq]))
    show rangeScanLoop s lo hi (leavesT c + leavesF r + fuel) (headT c) = _
    rw [Nat.add_assoc, h1, h2, Option.map_map]
    cases hrest : rangeScanLoop s lo hi fuel nxt with
    | none => rfl
    | some rest =>
      simp [Function.comp, entriesT, List.append_assoc]
theorem scanChainF : ∀ (F : MForest) (s : BTStore) (nxt : Int) (lo hi : Nat)
    (fuel : Nat), decF s F nxt = true →
    (∀ e ∈ entriesF F, lo ≤ e.1 ∧ e.1 ≤ hi) →
    (∀ q ∈ pagesF F, 0 ≤ q) →
    rangeScanLoop s lo hi (leavesF F + fuel) (headF F nxt) =
      (rangeScanLoop s lo hi fuel nxt).map (fun rest => entriesF F ++ rest)
  | .mnil, s, nxt, lo, hi, fuel, _, _, _ => by
    show rangeScanLoop s lo hi (0 + fuel) nxt = _
    rw [Nat.zero_add]
    cases hrest : rangeScanLoop s lo hi fuel nxt with
    | none => simp
    | some rest => simp [entriesF]
  | .mcons k c r, s, nxt, lo, hi, fuel, hdec, hb, hp => by
    simp only [decF, Bool.and_eq_true] at hdec
    have h1 := scanChainT c s (headF r nxt) lo hi (leavesF r + fuel) hdec.1
      (fun e he => hb e (by simp [entriesF, he]))
      (fun q hq => hp q (by simp [pagesF, hq]))
    have h2 := scanChainF r s nxt lo hi fuel hdec.2
      (fun e he => hb e (by simp [entriesF, he]))
      (fun q hq => hp q (by simp [pagesF, hq]))
    show rangeScanLoop s lo hi (leavesT c + leavesF r + fuel) (headT c) = _
    rw [Nat.add_assoc, h1, h2, Option.map_map]
    cases hrest : rangeScanLoop s lo hi fuel nxt with
    | none => rfl
    | some rest =>
      simp [Function.comp, entriesF, List.append_assoc]
end

theorem findLeaf_min : ∀ (T : MTree) (fuel : Nat) (s : BTStore) (nxt : Int)
    (lo : Nat) (blo bhi : Option Nat), decT s T nxt = true →
    bndT blo bhi T = true →
    (∀ e ∈ entriesT T, lo ≤ e.1) →
    (neT T = true ∨ ∃ p es, T = .mleaf p es) →
    depthT T ≤ fuel →
    findLeaf s fuel (rootPage T) lo = some (headT T)
  | .mleaf p es, fuel, s, nxt, lo, blo, bhi, hdec, _, _, _, hdepth => by
    cases fuel with
    | zero => simp [depthT] at hdepth
    | succ f =>
      have hfind : findNode s p =
          some (.leaf (es.map Prod.fst) (es.map Prod.snd) nxt) := by
        simpa [decT] using hdec
      show findLeaf s (f + 1) p lo = some p
      simp [findLeaf, hfind]
  | .mnode p c r, fuel, s, nxt, lo, blo, bhi, hdec, hbnd, hlo, hne, hdepth => by
    cases fuel with
    | zero => simp [depthT] at hdepth
    | succ f =>
      have hne2 : neT (.mnode p c r) = true := by
        rcases hne with h | ⟨p2, es2, h⟩
        · exact h
        · exact absurd h (by simp)
      simp only [neT, Bool.and_eq_true] at hne2
      simp only [decT, Bool.and_eq_true, decide_eq_true_eq] at hdec
      simp only [bndT, Bool.and_eq_true] at hbnd
      simp only [depthT] at hdepth
      have hidx : upperIdx (sepsF r) lo = 0 := by
        cases hr2 : r with
        | mnil => simp [sepsF, upperIdx]
        | mcons k1 c1 r1 =>
          obtain ⟨e, he⟩ := List.exists_mem_of_ne_nil _ (neT_entries c hne2.1)
          have h1 := (entBT c blo (fsep r bhi) hbnd.1 e he).2
          rw [hr2] at h1
          simp only [fsep, inHiB, decide_eq_true_eq] at h1
          have h2 := hlo e (by simp [entriesT, he])
          show upperIdx (k1 :: sepsF r1) lo = 0
          exact upperIdx_cons_gt _ (by omega)
      have hrec := findLeaf_min c f s (headF r nxt) lo blo (fsep r bhi)
        hdec.1.2 hbnd.1 (fun e he => hlo e (by simp [entriesT, he]))
        (Or.inl hne2.1) (by omega)
      show findLeaf s (f + 1) p lo = some (headT c)
      simp only [findLeaf, hdec.1.1, hidx, List.get?_cons_zero, hrec]

theorem rangeScan_entries (t : BTree) (T : MTree) (lo hi : Nat)
    (habs : Abs t T) (hne : neT T = true ∨ ∃ p es, T = .mleaf p es)
    (hbounds : ∀ e ∈ entriesT T, lo ≤ e.1 ∧ e.1 ≤ hi) :
    rangeScan t lo hi = some (entriesT T) := by
  obtain ⟨hdec, hbnd, hroot, hnodup, hpages, hsnp0, hmk⟩ := habs
  have hfl := findLeaf_min T (t.store.nodes.length + 1) t.store INVALID_PAGE_ID
    lo none none hdec hbnd (fun e he => (hbounds e he).1) hne
    (depth_le_fuel t T hdec hnodup)
  rw [hroot] at hfl
  have hhead0 : 0 ≤ headT T := (hpages _ (headT_mem_pages T)).1
  have hheadne : ¬(headT T = INVALID_PAGE_ID) := by
    simp only [INVALID_PAGE_ID]
    omega
  have hleaves : leavesT T ≤ t.store.nodes.length := by
    have h1 := leavesT_le_pages T
    have h2 := pages_le_nodes t T hdec hnodup
    omega
  obtain ⟨g, hg⟩ : ∃ g, t.store.nodes.length + 1 = leavesT T + (g + 1) :=
    ⟨t.store.nodes.length - leavesT T, by omega⟩
  have hchain := scanChainT T t.store INVALID_PAGE_ID lo hi (g + 1) hdec hbounds
    (fun q hq => (hpages q hq).1)
  rw [rangeScan, hfl]
  simp only [if_neg hheadne, hg, hchain]
  simp [rangeScanLoop, INVALID_PAGE_ID]

/-- C3 (amended): starting from an empty B+ tree, inserting any list of
(key, rid) pairs with pairwise-distinct keys and then running a range scan
over any interval containing every key returns exactly the inserted pairs,
in strictly increasing key order.  The claim as stated — which also allows
duplicate keys — is refuted by the counterexample: a split between equal
keys loses the left copies, because `FindLeaf` steps right on
`key >= keys[idx]` while `RangeScan` starts at the found leaf only. -/
theorem C3_insert_rangeScan (root0 : Int) (mk : Nat)
    (ps : List (Nat × RecordID)) (lo hi : Nat) (hmk : 1 ≤ mk) (hr0 : 0 ≤ root0)
    (hdist : (ps.map Prod.fst).Nodup)
    (hrange : ∀ p ∈ ps, lo ≤ p.1 ∧ p.1 ≤ hi) :
    ∃ t2 out, insertAll (mkBT root0 mk) ps = some t2 ∧
      rangeScan t2 lo hi = some out ∧ out.Perm ps ∧
      List.Pairwise (fun a b => a.1 < b.1) out := by
  have habs0 : Abs (mkBT root0 mk) (.mleaf root0 []) := by
    refine ⟨?_, ?_, rfl, ?_, ?_, ?_, hmk⟩
    · simp [decT, findNode, mkBT, List.lookup]
    · rfl
    · simp [pagesT]
    · intro q hq
      simp only [pagesT, List.mem_singleton] at hq
      subst hq
      simp only [mkBT]
      omega
    · simp only [mkBT]
      omega
  obtain ⟨t2, T2, hinsAll, habs2, hne2, hent2⟩ := insertAll_sim ps
    (mkBT root0 mk) (.mleaf root0 []) habs0 (Or.inr ⟨root0, [], rfl⟩) hdist
    (by
      intro p2 hp2 e he
      simp [entriesT] at he)
  have hperm : (entriesT T2).Perm ps := by
    rw [hent2]
    have := foldl_insEntries_perm ps []
    simpa [entriesT] using this
  have hbounds : ∀ e ∈ entriesT T2, lo ≤ e.1 ∧ e.1 ≤ hi := by
    intro e he
    exact hrange e (hperm.mem_iff.mp he)
  have hscan := rangeScan_entries t2 T2 lo hi habs2 hne2 hbounds
  exact ⟨t2, entriesT T2, hinsAll, hscan, hperm, pwT T2 none none habs2.2.1⟩

/-- C8: when a leaf insertion makes the key count exceed `max_keys`, the
leaf splits at `mid = n/2`: keys `[0, mid)` stay on the original page, keys
`[mid, n)` move to a freshly allocated page, the promoted separator is the
first key of the right half, the new leaf takes over the original
`next_leaf`, and the original's `next_leaf` becomes the new page id. -/
theorem C8_leaf_split (mk fuel : Nat) (s : BTStore) (p : Int)
    (keys : List Nat) (rids : List RecordID) (next : Int) (key : Nat)
    (rid : RecordID)
    (hn : findNode s p = some (.leaf keys rids next))
    (hov : mk < (keys.insertIdx (upperIdx keys key) key).length)
    (hfresh : p ≠ s.nextPage) :
    ∃ s2,
      insertInternal mk (fuel + 1) s p key rid = some (s2,
        ⟨true,
          ((keys.insertIdx (upperIdx keys key) key).drop
            ((keys.insertIdx (upperIdx keys key) key).length / 2)).headD 0,
          s.nextPage⟩) ∧
      findNode s2 p = some (.leaf
        ((keys.insertIdx (upperIdx keys key) key).take
          ((keys.insertIdx (upperIdx keys key) key).length / 2))
        ((rids.insertIdx (upperIdx keys key) rid).take
          ((keys.insertIdx (upperIdx keys key) key).length / 2))
        s.nextPage) ∧
      findNode s2 s.nextPage = some (.leaf
        ((keys.insertIdx (upperIdx keys key) key).drop
          ((keys.insertIdx (upperIdx keys key) key).length / 2))
        ((rids.insertIdx (upperIdx keys key) rid).drop
          ((keys.insertIdx (upperIdx keys key) key).length / 2))
        next) ∧
      (keys.insertIdx (upperIdx keys key) key).drop
        ((keys.insertIdx (upperIdx keys key) key).length / 2) ≠ [] ∧
      s2.nextPage = s.nextPage + 1 := by
  refine ⟨writeNode (writeNode ⟨s.nodes, s.nextPage + 1⟩ s.nextPage
      (.leaf ((keys.insertIdx (upperIdx keys key) key).drop
          ((keys.insertIdx (upperIdx keys key) key).length / 2))
        ((rids.insertIdx (upperIdx keys key) rid).drop
          ((keys.insertIdx (upperIdx keys key) key).length / 2)) next)) p
      (.leaf ((keys.insertIdx (upperIdx keys key) key).take
          ((keys.insertIdx (upperIdx keys key) key).length / 2))
        ((rids.insertIdx (upperIdx keys key) rid).take
          ((keys.insertIdx (upperIdx keys key) key).length / 2)) s.nextPage),
    ?_, ?_, ?_, ?_, rfl⟩
  · simp only [insertInternal, hn, if_neg (not_le.mpr hov)]
  · exact findNode_writeNode_self _ _ _
  · rw [findNode_writeNode_other _ _ _ _ (Ne.symm hfresh)]
    exact findNode_writeNode_self _ _ _
  · intro h
    have := congrArg List.length h
    simp only [List.length_drop, List.length_nil] at this
    omega

/-- Witness for C3: three inserts with distinct keys 2, 1, 3 into an empty
tree with max_keys = 1 (forcing leaf and internal splits), scanned over
[1, 3]. -/
theorem C3_insert_rangeScan_witness :
    ∃ t2 out,
      insertAll (mkBT 1 1) [(2, ⟨1, 0⟩), (1, ⟨1, 1⟩), (3, ⟨1, 2⟩)] = some t2 ∧
      rangeScan t2 1 3 = some out ∧
      out.Perm [(2, ⟨1, 0⟩), (1, ⟨1, 1⟩), (3, ⟨1, 2⟩)] ∧
      List.Pairwise (fun a b => a.1 < b.1) out :=
  C3_insert_rangeScan 1 1 [(2, ⟨1, 0⟩), (1, ⟨1, 1⟩), (3, ⟨1, 2⟩)] 1 3
    (by decide) (by decide) (by decide) (by decide)

/-- Counterexample to C3 as stated: with max_keys = 1, inserting the key 5
twice forces a leaf split between the two equal keys; the range scan over
the full key range [5, 5] then returns only one of the two inserted pairs,
because `FindLeaf(5)` steps right past the separator 5 and the scan never
visits the left leaf. -/
theorem C3_counterexample :
    ∃ t1 t2, btInsert (mkBT 1 1) 5 ⟨1, 0⟩ = some t1 ∧
      btInsert t1 5 ⟨1, 1⟩ = some t2 ∧
      rangeScan t2 5 5 = some [(5, ⟨1, 1⟩)] := by
  refine ⟨_, _, rfl, rfl, ?_⟩
  decide

/-- Witness for C8: inserting key 6 into the two-key leaf [5, 7] with
max_keys = 2 splits it: [5] stays, [6, 7] moves to the new page 2, the
separator is 6, and the leaf chain is relinked through page 2. -/
theorem C8_leaf_split_witness :
    ∃ s2,
      insertInternal 2 1
          (⟨[(1, .leaf [5, 7] [⟨1, 0⟩, ⟨1, 1⟩] (-1))], 2⟩ : BTStore)
          1 6 ⟨1, 2⟩ = some (s2, ⟨true, 6, 2⟩) ∧
      findNode s2 1 = some (.leaf [5] [⟨1, 0⟩] 2) ∧
      findNode s2 2 = some (.leaf [6, 7] [⟨1, 2⟩, ⟨1, 1⟩] (-1)) ∧
      ([6, 7] : List Nat) ≠ [] ∧
      s2.nextPage = 3 :=
  C8_leaf_split 2 0 ⟨[(1, .leaf [5, 7] [⟨1, 0⟩, ⟨1, 1⟩] (-1))], 2⟩ 1 [5, 7]
    [⟨1, 0⟩, ⟨1, 1⟩] (-1) 6 ⟨1, 2⟩ (by decide) (by decide) (by decide)

end DB

